import Mathlib

/-!
# chorgtree: organization tree builder

A shallow embedding of `chorgtree.go`.  The sequential helpers
(`errorCheck`, `getOrganizationMetrics`) are pure functions into
`Except`; the concurrent part (`InitTree` and the goroutines running
`(*Node).buildOrgTree`) is a small-step interleaving machine: a state
holds the heap of `Node`s, the goroutines with their program points, the
`sync.WaitGroup` counter and the process status, and `step` lets one
chosen goroutine perform its next statement.
-/

namespace Chorgtree

/-! ## Data model (lines 12-39) -/

/-- Raw payload bytes, as returned by `ioutil.ReadAll`. -/
abbrev Bytes := List Nat

/-- Environment record (lines 28-31). -/
structure Environment where
  ID : String
  Name : String
deriving DecidableEq, Repr

/-- Organization record (lines 20-25). -/
structure Organization where
  Name : String
  ID : String
  SubOrganizationIds : List String
  Environments : List Environment
deriving DecidableEq, Repr

/-- The zero value of `Organization`, what `var organization Organization` holds. -/
def Organization.zero : Organization := ⟨"", "", [], []⟩

/-- Node (lines 13-17).  Pointers to nodes are indices into the heap.  `mux`
records the goroutine currently holding the mutex (`none` when unlocked). -/
structure Node where
  mux : Option Nat
  BusinessOrganization : Organization
  Children : List Nat
deriving DecidableEq, Repr

/-- Application record (lines 34-39); the tree builder does not use it. -/
structure Application where
  Domain : String
  FullDomain : String
  Status : String
  FileName : String
deriving DecidableEq, Repr

/-! ## The environment the code runs in -/

/-- What the HTTP stack does with one request. -/
inductive HttpOutcome where
  /-- The call `http.NewRequest` returned an error. -/
  | requestError
  /-- The call `client.Do` returned an error. -/
  | transportError
  /-- A response arrived; `body = none` when `ioutil.ReadAll` fails. -/
  | response (statusCode : Nat) (body : Option Bytes)
deriving DecidableEq, Repr

/-- The external collaborators: the HTTP stack (by request URL, user name and
password) and `json.Unmarshal` into a zero-valued `Organization`, which yields
the record as the decoder left it together with whether it returned an error. -/
structure World where
  http : String → String → String → HttpOutcome
  unmarshal : Bytes → Organization × Bool

/-- The arguments of one `InitTree` call together with the world it runs in. -/
structure Ctx extends World where
  username : String
  password : String

/-! ## Sequential helpers -/

/-- Function `errorCheck` (lines 41-46): `os.Exit(1)` on a non-nil error.  The
process exit is the `Except.error` carrying the exit status. -/
def errorCheck (err : Bool) : Except Nat Unit :=
  if err then .error 1 else .ok ()

/-- The constant `organizationsEndpoint` (line 85). -/
def organizationsEndpoint : String :=
  "https://anypoint.mulesoft.com/accounts/api/organizations/"

/-- The constant `http.StatusOK`. -/
def StatusOK : Nat := 200

/-- Function `getOrganizationMetrics` (lines 84-109): the body of the response,
or the exit status with which the process is terminated. -/
def getOrganizationMetrics (c : Ctx) (orgID : String) : Except Nat Bytes :=
  let requestURL := organizationsEndpoint ++ orgID
  match c.http requestURL c.username c.password with
  | .requestError => do errorCheck true; pure []
  | .transportError => do errorCheck true; pure []
  | .response statusCode body =>
    if statusCode ≠ StatusOK then .error 1
    else
      match body with
      | none => do errorCheck true; pure []
      | some b => do errorCheck false; pure b

/-- Fetch and decode as both call sites do it (lines 53-55 and 69-71): the
error result of `json.Unmarshal` is dropped and the record is used as is. -/
def fetchOrganization (c : Ctx) (orgID : String) : Except Nat Organization :=
  match getOrganizationMetrics c orgID with
  | .error code => .error code
  | .ok byteArray => .ok (c.unmarshal byteArray).1

/-! ## The interleaving machine -/

/-- Program points of a goroutine running `buildOrgTree` (lines 66-82); the
last two belong to the goroutine that called `InitTree`. -/
inductive Pc where
  /-- At the head of the `range` loop, about to handle entry `i` (line 68). -/
  | loop (i : Nat)
  /-- After line 69: the payload for entry `i` has arrived. -/
  | fetched (i : Nat) (byteArray : Bytes)
  /-- After line 73: the child node exists. -/
  | built (i : Nat) (node : Nat)
  /-- After line 75: `p.mux` is held. -/
  | locked (i : Nat) (node : Nat)
  /-- After line 76: the child is appended. -/
  | appended (i : Nat) (node : Nat)
  /-- After line 77: `p.mux` is released. -/
  | unlocked (i : Nat) (node : Nat)
  /-- After line 79: the counter is incremented. -/
  | added (i : Nat) (node : Nat)
  /-- The goroutine has run its deferred `g.Done()` and ended. -/
  | finished
  /-- In `InitTree`, after the call of line 60, before line 61. -/
  | afterCall
  /-- The call of `InitTree` has returned its node (line 63). -/
  | returned
deriving DecidableEq, Repr

/-- A goroutine: `main` marks the one executing `InitTree` (which calls
`buildOrgTree` directly at line 60), `p` is the receiver. -/
structure Task where
  main : Bool
  p : Nat
  pc : Pc
deriving DecidableEq, Repr

/-- Whether the process is alive. -/
inductive Status where
  | running
  /-- Terminated by `os.Exit` with this status. -/
  | exited (code : Nat)
  /-- Crashed by the panic "sync: negative WaitGroup counter". -/
  | panicked
deriving DecidableEq, Repr

/-- Machine state.  `fetches` logs the arguments of the calls of
`getOrganizationMetrics` made so far. -/
structure State where
  heap : List Node
  tasks : List Task
  counter : Int
  fetches : List String
  status : Status
deriving DecidableEq, Repr

/-- Move goroutine `t` to program point `pc`. -/
def State.setPc (s : State) (t : Nat) (tk : Task) (pc : Pc) : State :=
  { s with tasks := s.tasks.set t { tk with pc := pc } }

/-- `g.Add(1)`. -/
def State.wgAdd (s : State) : State :=
  { s with counter := s.counter + 1 }

/-- `g.Done()`: the counter is decremented, and the process panics when it
becomes negative. -/
def State.wgDone (s : State) : State :=
  if s.counter - 1 < 0 then { s with counter := s.counter - 1, status := .panicked }
  else { s with counter := s.counter - 1 }

/-- Function `InitTree` up to and including line 59: everything that happens
before the first statement of `buildOrgTree`.  No other goroutine exists yet. -/
def InitTree_start (c : Ctx) (root : String) : Except Nat State :=
  match getOrganizationMetrics c root with
  | .error code => .error code
  | .ok byteArray =>
    let organization := (c.unmarshal byteArray).1
    .ok { heap := [Node.mk none organization []]
          tasks := [Task.mk true 0 (.loop 0)]
          counter := 1
          fetches := [root]
          status := .running }

/-- The next statement of `(*Node).buildOrgTree` (lines 66-82) for goroutine
`t`, whose receiver `p` is node `pn` of the heap; `none` when the goroutine
waits for the mutex or is not inside `buildOrgTree`.  Leaving the loop runs the
deferred `g.Done()` of line 67. -/
def buildOrgTree (c : Ctx) (s : State) (t : Nat) (tk : Task) (pn : Node) : Option State :=
  match tk.pc with
  | .loop i =>
    match pn.BusinessOrganization.SubOrganizationIds[i]? with
    | some v =>
      match getOrganizationMetrics c v with
      | .error code =>
        some { s with fetches := s.fetches ++ [v], status := .exited code }
      | .ok byteArray =>
        some ({ s with fetches := s.fetches ++ [v] }.setPc t tk (.fetched i byteArray))
    | none =>
      let s1 := s.wgDone
      match s1.status with
      | .running => some (s1.setPc t tk (if tk.main then .afterCall else .finished))
      | _ => some s1
  | .fetched i byteArray =>
    let organization := (c.unmarshal byteArray).1
    some ({ s with heap := s.heap ++ [Node.mk none organization []] }.setPc t tk
      (.built i s.heap.length))
  | .built i node =>
    match pn.mux with
    | some _ => none
    | none =>
      some ({ s with heap := s.heap.set tk.p { pn with mux := some t } }.setPc t tk
        (.locked i node))
  | .locked i node =>
    some ({ s with
      heap := s.heap.set tk.p { pn with Children := pn.Children ++ [node] } }.setPc t tk
      (.appended i node))
  | .appended i node =>
    some ({ s with heap := s.heap.set tk.p { pn with mux := none } }.setPc t tk
      (.unlocked i node))
  | .unlocked i node => some (s.wgAdd.setPc t tk (.added i node))
  | .added i node =>
    some ({ s with tasks := s.tasks ++ [Task.mk false node (.loop 0)] }.setPc t tk
      (.loop (i + 1)))
  | .finished => none
  | .afterCall => none
  | .returned => none

/-- Function `InitTree` from line 61 on: `g.Done()`, then `return node`. -/
def InitTree_finish (s : State) (t : Nat) (tk : Task) : Option State :=
  let s1 := s.wgDone
  match s1.status with
  | .running => some (s1.setPc t tk .returned)
  | _ => some s1

/-- One statement of goroutine `t`; `none` when `t` cannot move (it does not
exist, has ended, waits for the mutex, or the process is dead). -/
def step (c : Ctx) (s : State) (t : Nat) : Option State :=
  match s.status with
  | .exited _ => none
  | .panicked => none
  | .running =>
    match s.tasks[t]? with
    | none => none
    | some tk =>
      match s.heap[tk.p]? with
      | none => none
      | some pn =>
        match tk.pc with
        | .afterCall => InitTree_finish s t tk
        | _ => buildOrgTree c s t tk pn

/-- Run a schedule (the goroutine to move at each step) from `s`. -/
def run (c : Ctx) : State → List Nat → Option State
  | s, [] => some s
  | s, t :: ts =>
    match step c s t with
    | none => none
    | some s1 => run c s1 ts

/-- States of an `InitTree c root` call. -/
inductive Reachable (c : Ctx) (root : String) : State → Prop where
  | init {s : State} : InitTree_start c root = .ok s → Reachable c root s
  | step {s s1 : State} {t : Nat} : Reachable c root s → step c s t = some s1 →
      Reachable c root s1

/-- The transitions of `step`, one constructor per statement and outcome, with
the successor state written out. -/
inductive Step (c : Ctx) (s : State) (t : Nat) : State → Prop where
  | fetchFail {tk : Task} {pn : Node} {i : Nat} {v : String} {code : Nat}
      (hr : s.status = .running) (ht : s.tasks[t]? = some tk) (hp : s.heap[tk.p]? = some pn)
      (hpc : tk.pc = .loop i)
      (hv : pn.BusinessOrganization.SubOrganizationIds[i]? = some v)
      (hf : getOrganizationMetrics c v = .error code) :
      Step c s t { s with fetches := s.fetches ++ [v], status := .exited code }
  | fetchOk {tk : Task} {pn : Node} {i : Nat} {v : String} {b : Bytes}
      (hr : s.status = .running) (ht : s.tasks[t]? = some tk) (hp : s.heap[tk.p]? = some pn)
      (hpc : tk.pc = .loop i)
      (hv : pn.BusinessOrganization.SubOrganizationIds[i]? = some v)
      (hf : getOrganizationMetrics c v = .ok b) :
      Step c s t { s with fetches := s.fetches ++ [v],
                          tasks := s.tasks.set t { tk with pc := .fetched i b } }
  | donePanic {tk : Task} {pn : Node} {i : Nat}
      (hr : s.status = .running) (ht : s.tasks[t]? = some tk) (hp : s.heap[tk.p]? = some pn)
      (hpc : tk.pc = .loop i)
      (hv : pn.BusinessOrganization.SubOrganizationIds[i]? = none)
      (hc : s.counter - 1 < 0) :
      Step c s t { s with counter := s.counter - 1, status := .panicked }
  | done {tk : Task} {pn : Node} {i : Nat}
      (hr : s.status = .running) (ht : s.tasks[t]? = some tk) (hp : s.heap[tk.p]? = some pn)
      (hpc : tk.pc = .loop i)
      (hv : pn.BusinessOrganization.SubOrganizationIds[i]? = none)
      (hc : ¬ s.counter - 1 < 0) :
      Step c s t { s with counter := s.counter - 1,
                          tasks := s.tasks.set t
                            { tk with pc := if tk.main then .afterCall else .finished } }
  | build {tk : Task} {pn : Node} {i : Nat} {b : Bytes}
      (hr : s.status = .running) (ht : s.tasks[t]? = some tk) (hp : s.heap[tk.p]? = some pn)
      (hpc : tk.pc = .fetched i b) :
      Step c s t { s with heap := s.heap ++ [Node.mk none (c.unmarshal b).1 []],
                          tasks := s.tasks.set t { tk with pc := .built i s.heap.length } }
  | lock {tk : Task} {pn : Node} {i n : Nat}
      (hr : s.status = .running) (ht : s.tasks[t]? = some tk) (hp : s.heap[tk.p]? = some pn)
      (hpc : tk.pc = .built i n) (hm : pn.mux = none) :
      Step c s t { s with heap := s.heap.set tk.p { pn with mux := some t },
                          tasks := s.tasks.set t { tk with pc := .locked i n } }
  | append {tk : Task} {pn : Node} {i n : Nat}
      (hr : s.status = .running) (ht : s.tasks[t]? = some tk) (hp : s.heap[tk.p]? = some pn)
      (hpc : tk.pc = .locked i n) :
      Step c s t { s with heap := s.heap.set tk.p { pn with Children := pn.Children ++ [n] },
                          tasks := s.tasks.set t { tk with pc := .appended i n } }
  | unlock {tk : Task} {pn : Node} {i n : Nat}
      (hr : s.status = .running) (ht : s.tasks[t]? = some tk) (hp : s.heap[tk.p]? = some pn)
      (hpc : tk.pc = .appended i n) :
      Step c s t { s with heap := s.heap.set tk.p { pn with mux := none },
                          tasks := s.tasks.set t { tk with pc := .unlocked i n } }
  | add {tk : Task} {pn : Node} {i n : Nat}
      (hr : s.status = .running) (ht : s.tasks[t]? = some tk) (hp : s.heap[tk.p]? = some pn)
      (hpc : tk.pc = .unlocked i n) :
      Step c s t { s with counter := s.counter + 1,
                          tasks := s.tasks.set t { tk with pc := .added i n } }
  | spawn {tk : Task} {pn : Node} {i n : Nat}
      (hr : s.status = .running) (ht : s.tasks[t]? = some tk) (hp : s.heap[tk.p]? = some pn)
      (hpc : tk.pc = .added i n) :
      Step c s t { s with tasks := (s.tasks ++ [Task.mk false n (.loop 0)]).set t
                            { tk with pc := .loop (i + 1) } }
  | retPanic {tk : Task} {pn : Node}
      (hr : s.status = .running) (ht : s.tasks[t]? = some tk) (hp : s.heap[tk.p]? = some pn)
      (hpc : tk.pc = .afterCall) (hc : s.counter - 1 < 0) :
      Step c s t { s with counter := s.counter - 1, status := .panicked }
  | ret {tk : Task} {pn : Node}
      (hr : s.status = .running) (ht : s.tasks[t]? = some tk) (hp : s.heap[tk.p]? = some pn)
      (hpc : tk.pc = .afterCall) (hc : ¬ s.counter - 1 < 0) :
      Step c s t { s with counter := s.counter - 1,
                          tasks := s.tasks.set t { tk with pc := .returned } }

/-- Run a schedule from the start of `InitTree c root`. -/
def exec (c : Ctx) (root : String) (sched : List Nat) : Option State :=
  match InitTree_start c root with
  | .error _ => none
  | .ok s => run c s sched

/-- The state after goroutine `t`, standing at the loop head before entry `i`
with reference `v` and payload `b`, has run lines 69-80 once: the child node is
created, appended under `p` and its goroutine started. -/
def State.afterIteration (c : Ctx) (s : State) (t : Nat) (tk : Task) (pn : Node) (i : Nat)
    (v : String) (b : Bytes) : State :=
  { heap := (s.heap ++ [Node.mk none (c.unmarshal b).1 []]).set tk.p
      (Node.mk none pn.BusinessOrganization (pn.Children ++ [s.heap.length]))
    tasks := (s.tasks ++ [Task.mk false s.heap.length (.loop 0)]).set t
      (Task.mk tk.main tk.p (.loop (i + 1)))
    counter := s.counter + 1
    fetches := s.fetches ++ [v]
    status := .running }

/-! ## Views of the heap -/

/-- The organization wrapped by node `n`. -/
def orgAt (heap : List Node) (n : Nat) : Organization :=
  match heap[n]? with
  | some nd => nd.BusinessOrganization
  | none => Organization.zero

/-- The child pointers of node `n`. -/
def childrenAt (heap : List Node) (n : Nat) : List Nat :=
  match heap[n]? with
  | some nd => nd.Children
  | none => []

/-! ## Observations on program points and states -/

/-- The child node a goroutine holds in its local variable `node` (lines 73-80). -/
def Pc.pending : Pc → Option Nat
  | .built _ n => some n
  | .locked _ n => some n
  | .appended _ n => some n
  | .unlocked _ n => some n
  | .added _ n => some n
  | _ => none

/-- The goroutine has left the loop of `buildOrgTree`. -/
def Pc.expanded : Pc → Bool
  | .finished => true
  | .afterCall => true
  | .returned => true
  | _ => false

/-- How many children the goroutine has appended to `p.Children` so far, `len`
being the length of the reference list. -/
def Pc.appendedCount (len : Nat) : Pc → Nat
  | .loop i => i
  | .fetched i _ => i
  | .built i _ => i
  | .locked i _ => i
  | .appended i _ => i + 1
  | .unlocked i _ => i + 1
  | .added i _ => i + 1
  | _ => len

/-- The goroutine is between `p.mux.Lock()` and `p.mux.Unlock()` (lines 75-77). -/
def Pc.inCritical : Pc → Bool
  | .locked _ _ => true
  | .appended _ _ => true
  | _ => false

/-- The goroutine has executed `g.Add(1)` for a child it has not started yet. -/
def Pc.announcing : Pc → Bool
  | .added _ _ => true
  | _ => false

/-- The goroutine holds a payload whose node it has not created yet. -/
def Pc.holdsPayload : Pc → Bool
  | .fetched _ _ => true
  | _ => false

/-- The goroutine holds a child node whose goroutine it has not started yet. -/
def Pc.holdsNode : Pc → Bool
  | .built _ _ => true
  | .locked _ _ => true
  | .appended _ _ => true
  | .unlocked _ _ => true
  | .added _ _ => true
  | _ => false

/-- The index of the first reference the goroutine has not made a node for. -/
def Pc.unfetched : Pc → Option Nat
  | .loop i => some i
  | .fetched i _ => some i
  | .built i _ => some (i + 1)
  | .locked i _ => some (i + 1)
  | .appended i _ => some (i + 1)
  | .unlocked i _ => some (i + 1)
  | .added i _ => some (i + 1)
  | _ => none

/-- Number of payloads fetched for which no node exists yet. -/
def State.payloads (s : State) : Nat :=
  (s.tasks.filter (fun tk => tk.pc.holdsPayload)).length

/-- Number of nodes whose goroutine has not been started yet. -/
def State.pendingNodes (s : State) : Nat :=
  (s.tasks.filter (fun tk => tk.pc.holdsNode)).length

/-- Number of fetches that failed: the one that terminated the process, if any. -/
def State.failedFetches (s : State) : Nat :=
  match s.status with
  | .exited _ => 1
  | _ => 0

/-- The goroutine is still inside `buildOrgTree`. -/
def Pc.active (pc : Pc) : Bool :=
  !pc.expanded

/-- The goroutine has executed the `g.Done()` of line 61. -/
def Pc.isReturned : Pc → Bool
  | .returned => true
  | _ => false

/-- Number of expansion tasks (calls of `buildOrgTree`) started and not completed. -/
def State.outstanding (s : State) : Nat :=
  (s.tasks.filter (fun tk => tk.pc.active)).length

/-- Number of tasks counted by `g.Add(1)` whose `go` statement has not run yet. -/
def State.announced (s : State) : Nat :=
  (s.tasks.filter (fun tk => tk.pc.announcing)).length

/-- Number of executed `g.Done()` calls of line 61. -/
def State.extraDone (s : State) : Nat :=
  (s.tasks.filter (fun tk => tk.pc.isReturned)).length

/-- The goroutine has handled every entry of a reference list of length `len`:
it stands at the loop head with nothing left, or has left the loop. -/
def Pc.loopEnded (len : Nat) : Pc → Bool
  | .loop i => decide (len ≤ i)
  | .finished => true
  | .afterCall => true
  | .returned => true
  | _ => false

/-- The build is complete: every goroutine has handled every reference of the
node it expands (so every node has received all its children, and every child
its goroutine). -/
def State.complete (s : State) : Bool :=
  s.tasks.all (fun tk => tk.pc.loopEnded (orgAt s.heap tk.p).SubOrganizationIds.length)

/-- The call of `InitTree` has returned. -/
def State.mainReturned (s : State) : Bool :=
  s.tasks.any (fun tk => tk.pc.isReturned)

/-! ## Trees -/

/-- A tree of organizations as a value. -/
inductive OrgTree where
  | node (organization : Organization) (children : List OrgTree)
deriving Repr

mutual
/-- Number of nodes of a tree. -/
def OrgTree.size : OrgTree → Nat
  | .node _ cs => 1 + OrgTree.sizeList cs
/-- Number of nodes of a list of trees. -/
def OrgTree.sizeList : List OrgTree → Nat
  | [] => 0
  | t :: ts => t.size + OrgTree.sizeList ts
end

/-- The tree hanging off node `n` of the heap, cut below depth `d`. -/
def toTree (heap : List Node) : Nat → Nat → OrgTree
  | 0, n => .node (orgAt heap n) []
  | d + 1, n => .node (orgAt heap n) ((childrenAt heap n).map (toTree heap d))

/-- The organization served for `id` (the zero record when the fetch fails). -/
def orgOf (c : Ctx) (id : String) : Organization :=
  match fetchOrganization c id with
  | .ok o => o
  | .error _ => Organization.zero

/-- The unfolding of the reference lists from `o`, cut below depth `d`: one
child per entry of `SubOrganizationIds`, in order, nothing shared. -/
def unfold (c : Ctx) : Nat → Organization → OrgTree
  | 0, o => .node o []
  | d + 1, o => .node o (o.SubOrganizationIds.map (fun v => unfold c d (orgOf c v)))

/-- Number of nodes of `unfold c d o`. -/
def total (c : Ctx) : Nat → Organization → Nat
  | 0, _ => 1
  | d + 1, o => 1 + (o.SubOrganizationIds.map (fun v => total c d (orgOf c v))).sum

/-- Number of nodes of the unfoldings of the references `ids` from position `k` on. -/
def restTotal (c : Ctx) (d : Nat) (ids : List String) (k : Nat) : Nat :=
  ((ids.drop k).map (fun v => total c d (orgOf c v))).sum

/-- The nodes goroutine `tk` has still to create, directly or through the
goroutines it will start, when reference paths are cut below depth `d`: the
subtrees of the references it has not made a node for, and the subtree below
the child node it holds. -/
def remaining (c : Ctx) (d : Nat) (org : Nat → Organization) (tk : Task) : Nat :=
  (match tk.pc.unfetched with
    | some k => restTotal c d (org tk.p).SubOrganizationIds k
    | none => 0) +
  (match tk.pc.pending with
    | some n => total c d (org n) - 1
    | none => 0)

/-- Node `n` lies `k` pointer hops below the root node. -/
inductive AtDepth (heap : List Node) : Nat → Nat → Prop where
  | root : AtDepth heap 0 0
  | child {k n ch : Nat} : AtDepth heap k n → ch ∈ childrenAt heap n →
      AtDepth heap (k + 1) ch

/-- State `s1` has everything state `s` has: its nodes with their
organizations, and its child links. -/
def State.extendedBy (s s1 : State) : Prop :=
  s.heap.length ≤ s1.heap.length ∧
  (∀ n, n < s.heap.length → orgAt s1.heap n = orgAt s.heap n) ∧
  (∀ n ch, ch ∈ childrenAt s.heap n → ch ∈ childrenAt s1.heap n)

/-! ## The shape invariant -/

/-- Goroutine `tk` is in charge of node `n`: it expands it, or it has created
it and not yet started the goroutine expanding it. -/
def Task.owns (tk : Task) (n : Nat) : Prop :=
  tk.p = n ∨ tk.pc.pending = some n

/-- What the program point `pc` of the goroutine expanding a node says about
that node, whose reference list is `ids` and whose `Children` are `kids`;
`len` is the size of the heap and `org n` the organization wrapped by node `n`.
The children appended so far are nodes of the heap, as many as `pc` says, the
`j`-th wrapping what the fetch of the `j`-th reference returned; the payload or
child node held locally belongs to the reference being handled. -/
def Progress (c : Ctx) (len : Nat) (org : Nat → Organization) (ids : List String)
    (kids : List Nat) (pc : Pc) : Prop :=
  kids.length = pc.appendedCount ids.length ∧
  (∀ (j ch : Nat), kids[j]? = some ch →
    ch < len ∧ ∃ v, ids[j]? = some v ∧ fetchOrganization c v = .ok (org ch)) ∧
  match pc with
  | .fetched i b => ∃ v, ids[i]? = some v ∧ getOrganizationMetrics c v = .ok b
  | .built i n => ∃ v, ids[i]? = some v ∧ fetchOrganization c v = .ok (org n)
  | .locked i n => ∃ v, ids[i]? = some v ∧ fetchOrganization c v = .ok (org n)
  | .appended i n => kids[i]? = some n
  | .unlocked i n => kids[i]? = some n
  | .added i n => kids[i]? = some n
  | _ => True

/-- The shape invariant of the machine, over the size of the heap, the
organization and the children of every node, and the goroutines. -/
structure WF (c : Ctx) (len : Nat) (org : Nat → Organization) (kids : Nat → List Nat)
    (tasks : List Task) : Prop where
  /-- Goroutines are in charge of nodes of the heap. -/
  bound : ∀ (t : Nat) (tk : Task) (n : Nat), tasks[t]? = some tk → tk.owns n → n < len
  /-- No node has two goroutines in charge. -/
  unique : ∀ (t1 t2 : Nat) (tk1 tk2 : Task) (n : Nat), tasks[t1]? = some tk1 →
    tasks[t2]? = some tk2 → tk1.owns n → tk2.owns n → t1 = t2
  /-- The child a goroutine has created is not the node it expands. -/
  fresh : ∀ (t : Nat) (tk : Task), tasks[t]? = some tk → tk.pc.pending ≠ some tk.p
  /-- Every node has a goroutine in charge. -/
  cover : ∀ n, n < len → ∃ (t : Nat) (tk : Task), tasks[t]? = some tk ∧ tk.owns n
  /-- A node whose expansion has not started has no children. -/
  blank : ∀ (t : Nat) (tk : Task) (n : Nat), tasks[t]? = some tk → tk.pc.pending = some n →
    kids n = []
  /-- Every goroutine has brought its node as far as its program point says. -/
  progress : ∀ (t : Nat) (tk : Task), tasks[t]? = some tk →
    Progress c len org (org tk.p).SubOrganizationIds (kids tk.p) tk.pc

/-- No node is linked twice: a node is the child of at most one node, at one
position; a child node not yet appended is nobody's child; the root node is
nobody's child. -/
structure Unshared (kids : Nat → List Nat) (tasks : List Task) : Prop where
  once : ∀ (p1 j1 p2 j2 n : Nat), (kids p1)[j1]? = some n → (kids p2)[j2]? = some n →
    p1 = p2 ∧ j1 = j2
  unlinked : ∀ (t : Nat) (tk : Task) (i n : Nat), tasks[t]? = some tk →
    (tk.pc = .built i n ∨ tk.pc = .locked i n) → ∀ (p j : Nat), (kids p)[j]? ≠ some n
  rootFree : ∀ (p j : Nat), (kids p)[j]? ≠ some 0

/-! ## The reference graph -/

/-- Organization `x` references organization `y`. -/
def Edge (c : Ctx) (x y : String) : Prop :=
  y ∈ (orgOf c x).SubOrganizationIds

/-- Organization `x` is reachable from `root` along references. -/
def Reach (c : Ctx) (root x : String) : Prop :=
  Relation.ReflTransGen (Edge c) root x

/-- The reference graph reachable from `root` is finite and has no cycle. -/
def FiniteAcyclic (c : Ctx) (root : String) : Prop :=
  Set.Finite {x | Reach c root x} ∧ ∀ x, Reach c root x → ¬ Relation.TransGen (Edge c) x x

/-- The fetcher answers for every organization reachable from `root`. -/
def Answers (c : Ctx) (root : String) : Prop :=
  ∀ x, Reach c root x → ∃ o, fetchOrganization c x = .ok o

/-- Every reference path starting at `o` has at most `d` steps. -/
def Within (c : Ctx) : Nat → Organization → Prop
  | 0, o => o.SubOrganizationIds = []
  | d + 1, o => ∀ v ∈ o.SubOrganizationIds, Within c d (orgOf c v)

/-- The depth bound can be checked by evaluation. -/
instance Within.decidable (c : Ctx) : ∀ (d : Nat) (o : Organization), Decidable (Within c d o)
  | 0, o => inferInstanceAs (Decidable (o.SubOrganizationIds = []))
  | d + 1, o =>
    have : ∀ v, Decidable (Within c d (orgOf c v)) := fun v => Within.decidable c d (orgOf c v)
    inferInstanceAs (Decidable (∀ v ∈ o.SubOrganizationIds, Within c d (orgOf c v)))

/-! ## Example worlds -/

/-- What a stub server does for one organization id. -/
inductive Reply where
  /-- Status 200 with a payload decoding to an organization with these references. -/
  | org (subs : List String)
  /-- Status 200 with a payload on which `json.Unmarshal` reports an error. -/
  | garbage
  /-- A response with this status code. -/
  | status (code : Nat)
  /-- No response: `client.Do` fails. -/
  | down
deriving DecidableEq, Repr

/-- A stub world: organization ids are looked up in `g` (unknown ids get status
404); the payload of entry `k` is `[k]`. -/
def stubWorld (g : List (String × Reply)) : Ctx :=
  { http := fun url _ _ =>
      match g.findIdx? (fun e => organizationsEndpoint ++ e.1 == url) with
      | none => .response 404 (some [])
      | some k =>
        match g[k]? with
        | some (_, .status code) => .response code (some [])
        | some (_, .down) => .transportError
        | _ => .response 200 (some [k])
    unmarshal := fun b =>
      match b with
      | [k] =>
        match g[k]? with
        | some (id, .org subs) => (Organization.mk id id subs [], false)
        | _ => (Organization.zero, true)
      | _ => (Organization.zero, true)
    username := "user"
    password := "secret" }

/-- Chain `root -> n1 -> n2`. -/
def chain2 : Ctx :=
  stubWorld [("root", .org ["n1"]), ("n1", .org ["n2"]), ("n2", .org [])]

/-- A single organization without sub-organizations. -/
def leafOnly : Ctx := stubWorld [("root", .org [])]

/-- Root with one child. -/
def oneChild : Ctx := stubWorld [("root", .org ["A"]), ("A", .org [])]

/-- The graph `root -> {A, B}`, `A -> {C}`. -/
def shape : Ctx :=
  stubWorld [("root", .org ["A", "B"]), ("A", .org ["C"]), ("B", .org []), ("C", .org [])]

/-- The graph `root -> {A, B}`, `A -> {D}`, `B -> {D}`: `D` has two parents. -/
def diamond : Ctx :=
  stubWorld [("root", .org ["A", "B"]), ("A", .org ["D"]), ("B", .org ["D"]), ("D", .org [])]

/-- The child `A` answers with status 500. -/
def brokenChild : Ctx := stubWorld [("root", .org ["A"]), ("A", .status 500)]

/-- The grandchild `B` is unreachable on the network. -/
def brokenGrandchild : Ctx :=
  stubWorld [("root", .org ["A"]), ("A", .org ["B"]), ("B", .down)]

/-- The payload of child `A` does not decode. -/
def garbledChild : Ctx := stubWorld [("root", .org ["A"]), ("A", .garbage)]

/-- An organization listing itself as sub-organization. -/
def selfLoop : Ctx := stubWorld [("root", .org ["root"])]

/-- The root lists `A`, which answers with status 500, and then itself. -/
def cycleBehindFailure : Ctx :=
  stubWorld [("root", .org ["A", "root"]), ("A", .status 500)]

/-- The state of `shape` reached when the goroutine of `InitTree` runs to the end
of its loop, then the goroutines of `A`, `B` and `C` run to their end. -/
def shapeBuilt : State :=
  { heap := [Node.mk none (Organization.mk "root" "root" ["A", "B"] []) [1, 2],
             Node.mk none (Organization.mk "A" "A" ["C"] []) [3],
             Node.mk none (Organization.mk "B" "B" [] []) [],
             Node.mk none (Organization.mk "C" "C" [] []) []]
    tasks := [Task.mk true 0 .afterCall, Task.mk false 1 .finished, Task.mk false 2 .finished,
              Task.mk false 3 .finished]
    counter := 0
    fetches := ["root", "A", "B", "C"]
    status := .running }

/-- The schedule leading to `shapeBuilt`. -/
def shapeSchedule : List Nat :=
  List.replicate 15 0 ++ List.replicate 8 1 ++ [2] ++ [3]

/-- Another complete state of `shape`: the goroutine of `A` creates the node of
`C` before the goroutine of `InitTree` creates the node of `B`. -/
def shapeBuiltAlt : State :=
  { heap := [Node.mk none (Organization.mk "root" "root" ["A", "B"] []) [1, 3],
             Node.mk none (Organization.mk "A" "A" ["C"] []) [2],
             Node.mk none (Organization.mk "C" "C" [] []) [],
             Node.mk none (Organization.mk "B" "B" [] []) []]
    tasks := [Task.mk true 0 .afterCall, Task.mk false 1 .finished, Task.mk false 3 .finished,
              Task.mk false 2 .finished]
    counter := 0
    fetches := ["root", "A", "C", "B"]
    status := .running }

/-- The schedule leading to `shapeBuiltAlt`. -/
def shapeScheduleAlt : List Nat :=
  List.replicate 7 0 ++ [1, 1] ++ List.replicate 8 0 ++ List.replicate 6 1 ++ [3, 2]

/-- The root payload does not decode. -/
def garbledRoot : Ctx := stubWorld [("root", .garbage)]

/-- The state of `garbledChild` in which the payload of `A` has arrived. -/
def garbledFetched : State :=
  { heap := [Node.mk none (Organization.mk "root" "root" ["A"] []) []]
    tasks := [Task.mk true 0 (.fetched 0 [1])]
    counter := 1
    fetches := ["root", "A"]
    status := .running }

/-- A complete state of `diamond`, built with the goroutines of `A` and `B`
interleaved with the goroutine of `InitTree`. -/
def diamondBuilt : State :=
  { heap := [Node.mk none (Organization.mk "root" "root" ["A", "B"] []) [1, 3],
             Node.mk none (Organization.mk "A" "A" ["D"] []) [2],
             Node.mk none (Organization.mk "D" "D" [] []) [],
             Node.mk none (Organization.mk "B" "B" ["D"] []) [4],
             Node.mk none (Organization.mk "D" "D" [] []) []]
    tasks := [Task.mk true 0 .afterCall, Task.mk false 1 .finished, Task.mk false 2 .finished,
              Task.mk false 3 .finished, Task.mk false 4 .finished]
    counter := 0
    fetches := ["root", "A", "D", "B", "D"]
    status := .running }

/-- The schedule leading to `diamondBuilt`. -/
def diamondSchedule : List Nat :=
  List.replicate 7 0 ++ List.replicate 7 1 ++ List.replicate 8 0 ++ List.replicate 8 3 ++
    [1, 2, 4]

/-- The state of `oneChild` in which the goroutine of `InitTree` holds the
mutex of the root node, the child node not yet appended. -/
def oneChildLocked : State :=
  { heap := [Node.mk (some 0) (Organization.mk "root" "root" ["A"] []) [],
             Node.mk none (Organization.mk "A" "A" [] []) []]
    tasks := [Task.mk true 0 (.locked 0 1)]
    counter := 1
    fetches := ["root", "A"]
    status := .running }

/-! ## Basic facts about the machine -/

theorem buildOrgTree_sound {c : Ctx} {s s1 : State} {t : Nat} {tk : Task} {pn : Node}
    (hr : s.status = .running) (ht : s.tasks[t]? = some tk) (hp : s.heap[tk.p]? = some pn)
    (h : buildOrgTree c s t tk pn = some s1) : Step c s t s1 := by
  unfold buildOrgTree at h
  split at h
  next i hpc =>
    split at h
    next v hv =>
      split at h
      next code hf =>
        cases h
        exact Step.fetchFail hr ht hp hpc hv hf
      next b hf =>
        cases h
        exact Step.fetchOk hr ht hp hpc hv hf
    next hv =>
      by_cases hc : s.counter - 1 < 0
      · simp only [State.wgDone, hc, if_true] at h
        cases h
        exact Step.donePanic hr ht hp hpc hv hc
      · simp only [State.wgDone, hc, if_false, hr, State.setPc] at h
        cases h
        have h2 := Step.done (c := c) hr ht hp hpc hv hc
        rw [hr] at h2
        exact h2
  next i b hpc =>
    cases h
    exact Step.build hr ht hp hpc
  next i n hpc =>
    split at h
    · exact absurd h (by simp)
    next hm =>
      cases h
      exact Step.lock hr ht hp hpc hm
  next i n hpc =>
    cases h
    exact Step.append hr ht hp hpc
  next i n hpc =>
    cases h
    exact Step.unlock hr ht hp hpc
  next i n hpc =>
    cases h
    exact Step.add hr ht hp hpc
  next i n hpc =>
    cases h
    exact Step.spawn hr ht hp hpc
  · exact absurd h (by simp)
  · exact absurd h (by simp)
  · exact absurd h (by simp)

theorem step_sound {c : Ctx} {s s1 : State} {t : Nat} (h : step c s t = some s1) :
    Step c s t s1 := by
  unfold step at h
  split at h
  · exact absurd h (by simp)
  · exact absurd h (by simp)
  next hr =>
    split at h
    · exact absurd h (by simp)
    next tk ht =>
      split at h
      · exact absurd h (by simp)
      next pn hp =>
        split at h
        next hpc =>
          unfold InitTree_finish at h
          by_cases hc : s.counter - 1 < 0
          · simp only [State.wgDone, hc, if_true] at h
            cases h
            exact Step.retPanic hr ht hp hpc hc
          · simp only [State.wgDone, hc, if_false, hr, State.setPc] at h
            cases h
            have h2 := Step.ret (c := c) hr ht hp hpc hc
            rw [hr] at h2
            exact h2
        · exact buildOrgTree_sound hr ht hp h

theorem step_complete {c : Ctx} {s s1 : State} {t : Nat} (h : Step c s t s1) :
    step c s t = some s1 := by
  cases h with
  | fetchFail hr ht hp hpc hv hf => simp [step, buildOrgTree, InitTree_finish, hr, ht, hp, hpc, hv, hf]
  | fetchOk hr ht hp hpc hv hf => simp [step, buildOrgTree, InitTree_finish, hr, ht, hp, hpc, hv, hf, State.setPc]
  | donePanic hr ht hp hpc hv hc => simp [step, buildOrgTree, InitTree_finish, hr, ht, hp, hpc, hv, hc, State.wgDone]
  | done hr ht hp hpc hv hc => simp [step, buildOrgTree, InitTree_finish, hr, ht, hp, hpc, hv, hc, State.wgDone, State.setPc]
  | build hr ht hp hpc => simp [step, buildOrgTree, InitTree_finish, hr, ht, hp, hpc, State.setPc]
  | lock hr ht hp hpc hm => simp [step, buildOrgTree, InitTree_finish, hr, ht, hp, hpc, hm, State.setPc]
  | append hr ht hp hpc => simp [step, buildOrgTree, InitTree_finish, hr, ht, hp, hpc, State.setPc]
  | unlock hr ht hp hpc => simp [step, buildOrgTree, InitTree_finish, hr, ht, hp, hpc, State.setPc]
  | add hr ht hp hpc => simp [step, buildOrgTree, InitTree_finish, hr, ht, hp, hpc, State.setPc, State.wgAdd]
  | spawn hr ht hp hpc => simp [step, buildOrgTree, InitTree_finish, hr, ht, hp, hpc, State.setPc]
  | retPanic hr ht hp hpc hc => simp [step, buildOrgTree, InitTree_finish, hr, ht, hp, hpc, hc, State.wgDone]
  | ret hr ht hp hpc hc => simp [step, buildOrgTree, InitTree_finish, hr, ht, hp, hpc, hc, State.wgDone, State.setPc]

theorem step_iff_Step {c : Ctx} {s s1 : State} {t : Nat} :
    step c s t = some s1 ↔ Step c s t s1 :=
  ⟨step_sound, step_complete⟩

theorem Reachable.run {c : Ctx} {root : String} {s : State} (hs : Reachable c root s) :
    ∀ (sched : List Nat) {s1 : State}, run c s sched = some s1 → Reachable c root s1 := by
  intro sched
  induction sched generalizing s with
  | nil =>
    intro s1 h
    simp only [Chorgtree.run, Option.some.injEq] at h
    exact h ▸ hs
  | cons t ts ih =>
    intro s1 h
    simp only [Chorgtree.run] at h
    split at h
    · exact absurd h (by simp)
    next s2 h2 => exact ih (Reachable.step hs h2) h

theorem exec_reachable {c : Ctx} {root : String} (sched : List Nat) {s : State}
    (h : exec c root sched = some s) : Reachable c root s := by
  unfold exec at h
  split at h
  · exact absurd h (by simp)
  next s0 h0 => exact (Reachable.init h0).run sched h

/-- A dead process makes no step. -/
theorem step_dead {c : Ctx} {s : State} (h : s.status ≠ .running) (t : Nat) :
    step c s t = none := by
  unfold step
  split
  · rfl
  · rfl
  next hr => exact absurd hr h

/-- The value of `getOrganizationMetrics` by outcome of the request. -/
theorem getOrganizationMetrics_eq (c : Ctx) (v : String) :
    getOrganizationMetrics c v =
      match c.http (organizationsEndpoint ++ v) c.username c.password with
      | .response statusCode (some b) => if statusCode = StatusOK then .ok b else .error 1
      | _ => .error 1 := by
  cases hh : c.http (organizationsEndpoint ++ v) c.username c.password with
  | requestError => simp only [getOrganizationMetrics, hh]; rfl
  | transportError => simp only [getOrganizationMetrics, hh]; rfl
  | response statusCode body =>
    cases body with
    | none =>
      by_cases h : statusCode = StatusOK
      · simp only [getOrganizationMetrics, hh, h]; rfl
      · simp [getOrganizationMetrics, hh, h]
    | some b =>
      by_cases h : statusCode = StatusOK
      · simp only [getOrganizationMetrics, hh, h]; rfl
      · simp [getOrganizationMetrics, hh, h]

/-- The only exit status `getOrganizationMetrics` produces is 1. -/
theorem getOrganizationMetrics_error {c : Ctx} {v : String} {code : Nat}
    (h : getOrganizationMetrics c v = .error code) : code = 1 := by
  rw [getOrganizationMetrics_eq] at h
  split at h
  · split at h
    · cases h
    · cases h; rfl
  · cases h; rfl

/-- Exactly a response with status 200 and a readable body is a successful fetch. -/
theorem getOrganizationMetrics_ok_iff {c : Ctx} {v : String} {b : Bytes} :
    getOrganizationMetrics c v = .ok b ↔
      c.http (organizationsEndpoint ++ v) c.username c.password = .response StatusOK (some b) := by
  rw [getOrganizationMetrics_eq]
  constructor
  · intro h
    split at h
    next statusCode b2 heq =>
      split at h
      next hst =>
        cases h
        rw [heq, hst]
      · cases h
    · cases h
  · intro h
    simp [h]

theorem fetchOrganization_ok {c : Ctx} {v : String} {b : Bytes}
    (h : getOrganizationMetrics c v = .ok b) :
    fetchOrganization c v = .ok (c.unmarshal b).1 := by
  simp [fetchOrganization, h]

theorem orgOf_of_fetch {c : Ctx} {v : String} {o : Organization}
    (h : fetchOrganization c v = .ok o) : orgOf c v = o := by
  simp [orgOf, h]

/-! ## Join and counter: what `InitTree` does at lines 59-63 -/

/-- C1 (completion join), evaluated on the chain `root -> n1 -> n2`: when the
goroutine of `InitTree` runs alone up to its `return`, the call has returned
while the process is alive, the counter is zero, the task expanding `n1` has
not run, only two of the three nodes exist and `n2` was never fetched. -/
theorem InitTree_returns_while_task_outstanding :
    ∃ s, Reachable chain2 "root" s ∧ s.status = .running ∧ s.mainReturned = true ∧
      s.counter = 0 ∧ s.outstanding = 1 ∧ s.heap.length = 2 ∧ s.fetches = ["root", "n1"] ∧
      childrenAt s.heap 1 = [] ∧ (orgAt s.heap 1).SubOrganizationIds = ["n2"] := by
  have h : ∃ s, exec chain2 "root" [0, 0, 0, 0, 0, 0, 0, 0, 0] = some s ∧
      (s.status = .running ∧ s.mainReturned = true ∧
      s.counter = 0 ∧ s.outstanding = 1 ∧ s.heap.length = 2 ∧ s.fetches = ["root", "n1"] ∧
      childrenAt s.heap 1 = [] ∧ (orgAt s.heap 1).SubOrganizationIds = ["n2"]) := by
    decide
  obtain ⟨s, hs, hp⟩ := h
  exact ⟨s, exec_reachable _ hs, hp⟩

/-- C8 (in-flight counter), evaluated on `root -> {A}`: after line 61 the
counter is 0 although the task expanding `A` has been started and has not
completed, and when that task completes the counter becomes -1 and the
process panics. -/
theorem counter_differs_from_outstanding_tasks :
    (∃ s, Reachable oneChild "root" s ∧ s.status = .running ∧ s.counter = 0 ∧
      s.outstanding = 1 ∧ s.announced = 0) ∧
    (∃ s, Reachable oneChild "root" s ∧ s.counter = -1 ∧ s.status = .panicked) := by
  have h1 : ∃ s, exec oneChild "root" [0, 0, 0, 0, 0, 0, 0, 0, 0] = some s ∧
      (s.status = .running ∧ s.counter = 0 ∧ s.outstanding = 1 ∧ s.announced = 0) := by
    decide
  have h2 : ∃ s, exec oneChild "root" [0, 0, 0, 0, 0, 0, 0, 0, 0, 1] = some s ∧
      (s.counter = -1 ∧ s.status = .panicked) := by
    decide
  obtain ⟨s1, hs1, hp1⟩ := h1
  obtain ⟨s2, hs2, hp2⟩ := h2
  exact ⟨⟨s1, exec_reachable _ hs1, hp1⟩, ⟨s2, exec_reachable _ hs2, hp2⟩⟩

/-- Expanding a node without sub-organizations: the goroutine standing at the
head of its loop makes no fetch, creates no node, changes no `Children`, starts
no goroutine and does not increment the counter; its only statement is the
deferred `g.Done()`. -/
theorem leaf_expansion {c : Ctx} {s s1 : State} {t : Nat} {tk : Task} {pn : Node}
    (ht : s.tasks[t]? = some tk) (hp : s.heap[tk.p]? = some pn) (hpc : tk.pc = .loop 0)
    (hleaf : pn.BusinessOrganization.SubOrganizationIds = []) (hst : step c s t = some s1) :
    s1.fetches = s.fetches ∧ s1.heap = s.heap ∧ s1.tasks.length = s.tasks.length ∧
      s1.counter = s.counter - 1 := by
  have hS := step_sound hst
  have hnone : ∀ v, pn.BusinessOrganization.SubOrganizationIds[0]? ≠ some v := by
    intro v
    rw [hleaf]
    simp
  have key : ∀ x : Task, s.tasks[t]? = some x → x = tk := by
    intro x hx
    rw [ht] at hx
    exact (Option.some.inj hx).symm
  have keyn : ∀ (x : Task) (y : Node), s.tasks[t]? = some x → s.heap[x.p]? = some y →
      y = pn := by
    intro x y hx hy
    have := key x hx
    subst this
    rw [hp] at hy
    exact (Option.some.inj hy).symm
  cases hS with
  | fetchFail hr h1 h2 h3 hv hf =>
    have e := key _ h1
    subst e
    have e2 := keyn _ _ h1 h2
    subst e2
    rw [hpc] at h3
    cases h3
    exact absurd hv (hnone _)
  | fetchOk hr h1 h2 h3 hv hf =>
    have e := key _ h1
    subst e
    have e2 := keyn _ _ h1 h2
    subst e2
    rw [hpc] at h3
    cases h3
    exact absurd hv (hnone _)
  | donePanic hr h1 h2 h3 hv hc => exact ⟨rfl, rfl, rfl, rfl⟩
  | done hr h1 h2 h3 hv hc => exact ⟨rfl, rfl, by simp, rfl⟩
  | build hr h1 h2 h3 => have e := key _ h1; subst e; rw [hpc] at h3; cases h3
  | lock hr h1 h2 h3 hm => have e := key _ h1; subst e; rw [hpc] at h3; cases h3
  | append hr h1 h2 h3 => have e := key _ h1; subst e; rw [hpc] at h3; cases h3
  | unlock hr h1 h2 h3 => have e := key _ h1; subst e; rw [hpc] at h3; cases h3
  | add hr h1 h2 h3 => have e := key _ h1; subst e; rw [hpc] at h3; cases h3
  | spawn hr h1 h2 h3 => have e := key _ h1; subst e; rw [hpc] at h3; cases h3
  | retPanic hr h1 h2 h3 hc => have e := key _ h1; subst e; rw [hpc] at h3; cases h3
  | ret hr h1 h2 h3 hc => have e := key _ h1; subst e; rw [hpc] at h3; cases h3

/-- The three states of a build whose root has no sub-organization. -/
theorem leaf_root_states {c : Ctx} {root : String} {o : Organization}
    (hf : fetchOrganization c root = .ok o) (hleaf : o.SubOrganizationIds = [])
    {s : State} (hs : Reachable c root s) :
    s = ⟨[Node.mk none o []], [Task.mk true 0 (.loop 0)], 1, [root], .running⟩ ∨
    s = ⟨[Node.mk none o []], [Task.mk true 0 .afterCall], 0, [root], .running⟩ ∨
    s = ⟨[Node.mk none o []], [Task.mk true 0 .afterCall], -1, [root], .panicked⟩ := by
  induction hs with
  | init h0 =>
    left
    unfold InitTree_start at h0
    unfold fetchOrganization at hf
    split at h0
    · cases h0
    next b hb =>
      rw [hb] at hf
      cases hf
      cases h0
      rfl
  | @step s s1 t _ hst ih =>
    rcases ih with h | h | h
    · subst h
      cases t with
      | zero =>
        simp [step, buildOrgTree, hleaf, State.wgDone, State.setPc] at hst
        right; left
        exact hst.symm
      | succ t => simp [step] at hst
    · subst h
      cases t with
      | zero =>
        simp [step, InitTree_finish, State.wgDone] at hst
        right; right
        exact hst.symm
      | succ t => simp [step] at hst
    · subst h
      simp [step] at hst

/-- C5 (leaf termination), the part on a leaf root: when the root organization
has an empty `SubOrganizationIds`, the `g.Done()` of line 61 drives the counter
to -1 and panics, and in no state of the build has `InitTree` returned. -/
theorem InitTree_leaf_root_panics (c : Ctx) (root : String) (o : Organization)
    (hf : fetchOrganization c root = .ok o) (hleaf : o.SubOrganizationIds = []) :
    (∃ s, Reachable c root s ∧ s.status = .panicked ∧ s.counter = -1 ∧
      childrenAt s.heap 0 = [] ∧ s.fetches = [root]) ∧
    (∀ s, Reachable c root s → s.mainReturned = false) := by
  constructor
  · have h0 : InitTree_start c root =
        .ok ⟨[Node.mk none o []], [Task.mk true 0 (.loop 0)], 1, [root], .running⟩ := by
      unfold fetchOrganization at hf
      unfold InitTree_start
      split at hf
      · cases hf
      next b hb =>
        cases hf
        rfl
    have h1 : Reachable c root
        ⟨[Node.mk none o []], [Task.mk true 0 .afterCall], 0, [root], .running⟩ := by
      refine Reachable.step (t := 0) (Reachable.init h0) ?_
      simp [step, buildOrgTree, hleaf, State.wgDone, State.setPc]
    have h2 : Reachable c root
        ⟨[Node.mk none o []], [Task.mk true 0 .afterCall], -1, [root], .panicked⟩ := by
      refine Reachable.step (t := 0) h1 ?_
      simp [step, InitTree_finish, State.wgDone]
    exact ⟨_, h2, rfl, rfl, rfl, rfl⟩
  · intro s hs
    rcases leaf_root_states hf hleaf hs with h | h | h <;> subst h <;> rfl

/-- The theorem at the stub world with a single organization. -/
theorem InitTree_leaf_root_panics_witness :
    (∃ s, Reachable leafOnly "root" s ∧ s.status = .panicked ∧ s.counter = -1 ∧
      childrenAt s.heap 0 = [] ∧ s.fetches = ["root"]) ∧
    (∀ s, Reachable leafOnly "root" s → s.mainReturned = false) :=
  InitTree_leaf_root_panics leafOnly "root" (Organization.mk "root" "root" [] [])
    (by rfl) (by rfl)

/-! ## Failed fetches and failed decodes -/

/-- C3 (error surfacing) fails: with a child answering status 500 the first
step terminates the process with exit status 1 before `InitTree` has returned
anything; with a grandchild that is down, `InitTree` can return the tree
without it while the process is alive, and the next step of the outstanding
task terminates the process. -/
theorem failed_fetch_not_reported :
    (∃ s, exec brokenChild "root" [0] = some s ∧ s.status = .exited 1 ∧
      s.mainReturned = false) ∧
    (∃ s, exec brokenGrandchild "root" [0, 0, 0, 0, 0, 0, 0, 0, 0] = some s ∧
      s.status = .running ∧ s.mainReturned = true ∧ childrenAt s.heap 1 = [] ∧
      ∃ s1, step brokenGrandchild s 1 = some s1 ∧ s1.status = .exited 1) := by
  decide

/-- C3 as amended: when the fetch of organization `v` fails (no response with
status 200 and a readable body), the process is terminated with exit status 1.
For `v` the root (line 53) `InitTree` ends there: it yields no node and the build
has no state.  For `v` a reference (line 69) the goroutine at the head of its
loop takes the exit: heap and goroutines stay as they were, the fetch is the
last one, and nothing moves afterwards, so a caller that has not returned from
`InitTree` never does. -/
theorem failed_fetch_exits_process (c : Ctx) (v : String)
    (hfail : ∀ b, c.http (organizationsEndpoint ++ v) c.username c.password ≠
      .response StatusOK (some b)) :
    (InitTree_start c v = .error 1 ∧ exec c v [] = none ∧ ∀ s, ¬ Reachable c v s) ∧
    ∀ (s : State) (t : Nat) (tk : Task) (pn : Node) (i : Nat),
      s.status = .running → s.tasks[t]? = some tk → s.heap[tk.p]? = some pn →
      tk.pc = .loop i → pn.BusinessOrganization.SubOrganizationIds[i]? = some v →
      ∃ s1, step c s t = some s1 ∧ s1.status = .exited 1 ∧ s1.heap = s.heap ∧
        s1.tasks = s.tasks ∧ s1.fetches = s.fetches ++ [v] ∧
        s1.mainReturned = s.mainReturned ∧ ∀ u, step c s1 u = none := by
  have hf : getOrganizationMetrics c v = .error 1 := by
    cases hg : getOrganizationMetrics c v with
    | error code => rw [getOrganizationMetrics_error hg]
    | ok b => exact absurd (getOrganizationMetrics_ok_iff.mp hg) (hfail b)
  have h0 : InitTree_start c v = .error 1 := by
    unfold InitTree_start
    rw [hf]
  refine ⟨⟨h0, ?_, ?_⟩, ?_⟩
  · unfold exec
    rw [h0]
  · intro s hs
    induction hs with
    | init h =>
      rw [h0] at h
      cases h
    | step _ _ ih => exact ih
  · intro s t tk pn i hr ht hp hpc hv
    refine ⟨_, step_complete (Step.fetchFail hr ht hp hpc hv hf), rfl, rfl, rfl, rfl, rfl, ?_⟩
    intro u
    exact step_dead (by simp) u

/-- The theorem in the world whose organization `A` answers 500: as the root of
a build, and as the child of `root` in the start state of the build of `root`. -/
theorem failed_fetch_exits_process_witness :
    InitTree_start brokenChild "A" = .error 1 ∧
    ∃ s, exec brokenChild "root" [] = some s ∧
      ∃ s1, step brokenChild s 0 = some s1 ∧ s1.status = .exited 1 ∧ s1.heap = s.heap ∧
        s1.tasks = s.tasks ∧ s1.fetches = s.fetches ++ ["A"] ∧
        s1.mainReturned = s.mainReturned ∧ ∀ u, step brokenChild s1 u = none :=
  have h := failed_fetch_exits_process brokenChild "A" (by
    intro b h
    have h5 : brokenChild.http (organizationsEndpoint ++ "A") brokenChild.username
        brokenChild.password = .response 500 (some []) := by rfl
    rw [h5] at h
    simp [StatusOK] at h)
  ⟨h.1.1, ⟨[Node.mk none (Organization.mk "root" "root" ["A"] []) []],
      [Task.mk true 0 (.loop 0)], 1, ["root"], .running⟩, by decide,
    h.2 _ 0 (Task.mk true 0 (.loop 0))
      (Node.mk none (Organization.mk "root" "root" ["A"] []) []) 0 rfl rfl rfl rfl rfl⟩

/-- C7 (decode failure) fails: the payload of child `A` makes `json.Unmarshal`
report an error, yet a node wrapping the empty record is created and appended
under the root and the build goes on. -/
theorem undecodable_child_becomes_node :
    (garbledChild.unmarshal [1]).2 = true ∧
    ∃ s, exec garbledChild "root" [0, 0, 0, 0, 0] = some s ∧ s.status = .running ∧
      childrenAt s.heap 0 = [1] ∧ orgAt s.heap 1 = Organization.zero := by
  decide

/-! ## List lookups after an update -/

theorem getElem?_set_other {α : Type} {l : List α} {t u : Nat} (a : α) (h : u ≠ t) :
    (l.set t a)[u]? = l[u]? :=
  List.getElem?_set_ne (Ne.symm h)

theorem getElem?_set_same {α : Type} {l : List α} {t : Nat} {x : α} (a : α)
    (h : l[t]? = some x) : (l.set t a)[t]? = some a := by
  obtain ⟨hlt, _⟩ := List.getElem?_eq_some.mp h
  exact List.getElem?_set_self hlt

theorem getElem?_append_some {α : Type} {l : List α} {u : Nat} {x : α} (m : List α)
    (h : l[u]? = some x) : (l ++ m)[u]? = some x := by
  obtain ⟨hlt, _⟩ := List.getElem?_eq_some.mp h
  rw [List.getElem?_append_left hlt]
  exact h

theorem lt_of_getElem?_some {α : Type} {l : List α} {u : Nat} {x : α}
    (h : l[u]? = some x) : u < l.length :=
  (List.getElem?_eq_some.mp h).1

/-- Looking up in a list with one element appended. -/
theorem getElem?_concat_cases {α : Type} {l : List α} {a x : α} {u : Nat}
    (h : (l ++ [a])[u]? = some x) : l[u]? = some x ∨ (u = l.length ∧ x = a) := by
  by_cases hu : u < l.length
  · rw [List.getElem?_append_left hu] at h
    exact Or.inl h
  · have hlen := lt_of_getElem?_some h
    simp only [List.length_append, List.length_singleton] at hlen
    have : u = l.length := by omega
    subst this
    rw [List.getElem?_concat_length] at h
    exact Or.inr ⟨rfl, (Option.some.inj h).symm⟩

/-- Looking up in a list with one position overwritten. -/
theorem getElem?_set_cases {α : Type} {l : List α} {a x : α} {t u : Nat}
    (h : (l.set t a)[u]? = some x) : (u = t ∧ x = a) ∨ (u ≠ t ∧ l[u]? = some x) := by
  by_cases hu : u = t
  · subst hu
    have hlen := lt_of_getElem?_some h
    rw [List.length_set] at hlen
    rw [List.getElem?_set_self hlen] at h
    exact Or.inl ⟨rfl, (Option.some.inj h).symm⟩
  · rw [getElem?_set_other a hu] at h
    exact Or.inr ⟨hu, h⟩

/-! ## The start state -/

theorem InitTree_start_ok {c : Ctx} {root : String} {s : State}
    (h : InitTree_start c root = .ok s) :
    ∃ o, fetchOrganization c root = .ok o ∧
      s = ⟨[Node.mk none o []], [Task.mk true 0 (.loop 0)], 1, [root], .running⟩ := by
  unfold InitTree_start at h
  split at h
  · cases h
  next b hb =>
    cases h
    exact ⟨_, fetchOrganization_ok hb, rfl⟩

/-! ## Locking discipline -/

/-- Whoever is recorded as holder of a node's mutex is a goroutine expanding
that node, between its `Lock` and its `Unlock`. -/
theorem mux_holder {c : Ctx} {root : String} {s : State} (hs : Reachable c root s) :
    ∀ (n : Nat) (nd : Node) (u : Nat), s.heap[n]? = some nd → nd.mux = some u →
      ∃ tk : Task, s.tasks[u]? = some tk ∧ tk.p = n ∧ tk.pc.inCritical = true := by
  induction hs with
  | init h0 =>
    obtain ⟨o, _, rfl⟩ := InitTree_start_ok h0
    intro n nd u hn hm
    cases n with
    | zero =>
      simp only [List.getElem?_cons_zero, Option.some.injEq] at hn
      subst hn
      cases hm
    | succ n => simp at hn
  | @step s s1 t _ hst ih =>
    have hS := step_sound hst
    -- a step that changes only the program point of `t`, from a non-critical one
    have pcOnly : ∀ (tk : Task) (pc1 : Pc) (extra : List Task), s.tasks[t]? = some tk →
        tk.pc.inCritical = false →
        ∀ (n : Nat) (nd : Node) (u : Nat), s.heap[n]? = some nd → nd.mux = some u →
          ∃ tk1 : Task, ((s.tasks ++ extra).set t { tk with pc := pc1 })[u]? = some tk1 ∧ tk1.p = n ∧
            tk1.pc.inCritical = true := by
      intro tk pc1 extra ht hnc n nd u hn hm
      obtain ⟨tk0, h0, hp0, hc0⟩ := ih n nd u hn hm
      have hut : u ≠ t := by
        rintro rfl
        rw [ht] at h0
        cases h0
        rw [hnc] at hc0
        cases hc0
      exact ⟨tk0, by rw [getElem?_set_other _ hut]; exact getElem?_append_some _ h0, hp0, hc0⟩
    cases hS with
    | fetchFail hr ht hp hpc hv hf => exact ih
    | donePanic hr ht hp hpc hv hc => exact ih
    | retPanic hr ht hp hpc hc => exact ih
    | @fetchOk tk pn i v b hr ht hp hpc hv hf =>
      have := pcOnly tk (.fetched i b) [] ht (by rw [hpc]; rfl)
      simpa using this
    | @done tk pn i hr ht hp hpc hv hc =>
      have := pcOnly tk (if tk.main then .afterCall else .finished) [] ht (by rw [hpc]; rfl)
      simpa using this
    | @add tk pn i ch hr ht hp hpc =>
      have := pcOnly tk (.added i ch) [] ht (by rw [hpc]; rfl)
      simpa using this
    | @spawn tk pn i ch hr ht hp hpc => exact pcOnly tk (.loop (i + 1)) _ ht (by rw [hpc]; rfl)
    | @ret tk pn hr ht hp hpc hc =>
      have := pcOnly tk .returned [] ht (by rw [hpc]; rfl)
      simpa using this
    | @build tk pn i b hr ht hp hpc =>
      intro n nd u hn hm
      rcases getElem?_concat_cases hn with hn1 | ⟨_, rfl⟩
      · have := pcOnly tk (.built i s.heap.length) [] ht (by rw [hpc]; rfl) n nd u hn1 hm
        simpa using this
      · cases hm
    | @lock tk pn i ch hr ht hp hpc hm0 =>
      intro n nd u hn hm
      rcases getElem?_set_cases hn with ⟨rfl, rfl⟩ | ⟨hne, hn1⟩
      · simp only [Option.some.injEq] at hm
        subst hm
        exact ⟨_, getElem?_set_same _ ht, rfl, rfl⟩
      · have := pcOnly tk (.locked i ch) [] ht (by rw [hpc]; rfl) n nd u hn1 hm
        simpa using this
    | @append tk pn i ch hr ht hp hpc =>
      intro n nd u hn hm
      rcases getElem?_set_cases hn with ⟨rfl, rfl⟩ | ⟨hne, hn1⟩
      · obtain ⟨tk0, h0, hp0, hc0⟩ := ih tk.p pn u hp hm
        by_cases hut : u = t
        · subst hut
          exact ⟨_, getElem?_set_same _ ht, rfl, rfl⟩
        · exact ⟨tk0, by rw [getElem?_set_other _ hut]; exact h0, hp0, hc0⟩
      · obtain ⟨tk0, h0, hp0, hc0⟩ := ih n nd u hn1 hm
        have hut : u ≠ t := by
          rintro rfl
          rw [ht] at h0
          cases h0
          exact hne hp0.symm
        exact ⟨tk0, by rw [getElem?_set_other _ hut]; exact h0, hp0, hc0⟩
    | @unlock tk pn i ch hr ht hp hpc =>
      intro n nd u hn hm
      rcases getElem?_set_cases hn with ⟨rfl, rfl⟩ | ⟨hne, hn1⟩
      · cases hm
      · obtain ⟨tk0, h0, hp0, hc0⟩ := ih n nd u hn1 hm
        have hut : u ≠ t := by
          rintro rfl
          rw [ht] at h0
          cases h0
          exact hne hp0.symm
        exact ⟨tk0, by rw [getElem?_set_other _ hut]; exact h0, hp0, hc0⟩

/-- C9 (locking discipline).  In every state of a build: (1) a held node mutex
is held by a goroutine expanding that very node, which is between `Lock`
(line 75) and `Unlock` (line 77); (2) the next statement of a goroutine holding
a mutex is either the single append to that node's `Children` or the release
of the mutex, and it performs no fetch, starts no goroutine and leaves the
counter alone; (3) hence a goroutine performing a fetch or starting a
goroutine holds no node mutex. -/
theorem locking_discipline {c : Ctx} {root : String} {s : State}
    (hs : Reachable c root s) :
    (∀ (n : Nat) (nd : Node) (u : Nat), s.heap[n]? = some nd → nd.mux = some u →
      ∃ tk : Task, s.tasks[u]? = some tk ∧ tk.p = n ∧ tk.pc.inCritical = true) ∧
    (∀ (t : Nat) (s1 : State) (n : Nat) (nd : Node), step c s t = some s1 →
      s.heap[n]? = some nd → nd.mux = some t →
      s1.fetches = s.fetches ∧ s1.tasks.length = s.tasks.length ∧ s1.counter = s.counter ∧
      ∃ tk : Task, s.tasks[t]? = some tk ∧ tk.p = n ∧
        ((∃ i ch, tk.pc = .locked i ch ∧
            s1.heap = s.heap.set n { nd with Children := nd.Children ++ [ch] }) ∨
         (∃ i ch, tk.pc = .appended i ch ∧ s1.heap = s.heap.set n { nd with mux := none }))) ∧
    (∀ (t : Nat) (s1 : State), step c s t = some s1 →
      (s1.fetches ≠ s.fetches ∨ s1.tasks.length ≠ s.tasks.length) →
      ∀ (n : Nat) (nd : Node), s.heap[n]? = some nd → nd.mux ≠ some t) := by
  have h1 := mux_holder hs
  have h2 : ∀ (t : Nat) (s1 : State) (n : Nat) (nd : Node), step c s t = some s1 →
      s.heap[n]? = some nd → nd.mux = some t →
      s1.fetches = s.fetches ∧ s1.tasks.length = s.tasks.length ∧ s1.counter = s.counter ∧
      ∃ tk : Task, s.tasks[t]? = some tk ∧ tk.p = n ∧
        ((∃ i ch, tk.pc = .locked i ch ∧
            s1.heap = s.heap.set n { nd with Children := nd.Children ++ [ch] }) ∨
         (∃ i ch, tk.pc = .appended i ch ∧ s1.heap = s.heap.set n { nd with mux := none })) := by
    intro t s1 n nd hst hn hm
    obtain ⟨tk0, h0, hp0, hc0⟩ := h1 n nd t hn hm
    have hS := step_sound hst
    have key : ∀ tk : Task, s.tasks[t]? = some tk → tk = tk0 := by
      intro tk ht
      rw [ht] at h0
      exact Option.some.inj h0
    cases hS with
    | fetchFail hr ht hp hpc hv hf =>
      have := key _ ht; subst this; rw [hpc] at hc0; cases hc0
    | fetchOk hr ht hp hpc hv hf =>
      have := key _ ht; subst this; rw [hpc] at hc0; cases hc0
    | donePanic hr ht hp hpc hv hc =>
      have := key _ ht; subst this; rw [hpc] at hc0; cases hc0
    | done hr ht hp hpc hv hc =>
      have := key _ ht; subst this; rw [hpc] at hc0; cases hc0
    | build hr ht hp hpc =>
      have := key _ ht; subst this; rw [hpc] at hc0; cases hc0
    | lock hr ht hp hpc hm0 =>
      have := key _ ht; subst this; rw [hpc] at hc0; cases hc0
    | add hr ht hp hpc =>
      have := key _ ht; subst this; rw [hpc] at hc0; cases hc0
    | spawn hr ht hp hpc =>
      have := key _ ht; subst this; rw [hpc] at hc0; cases hc0
    | retPanic hr ht hp hpc hc =>
      have := key _ ht; subst this; rw [hpc] at hc0; cases hc0
    | ret hr ht hp hpc hc =>
      have := key _ ht; subst this; rw [hpc] at hc0; cases hc0
    | @append tk pn i ch hr ht hp hpc =>
      have := key _ ht
      subst this
      subst hp0
      rw [hn] at hp
      cases hp
      exact ⟨rfl, by simp, rfl, tk, ht, rfl, Or.inl ⟨i, ch, hpc, rfl⟩⟩
    | @unlock tk pn i ch hr ht hp hpc =>
      have := key _ ht
      subst this
      subst hp0
      rw [hn] at hp
      cases hp
      exact ⟨rfl, by simp, rfl, tk, ht, rfl, Or.inr ⟨i, ch, hpc, rfl⟩⟩
  refine ⟨h1, h2, ?_⟩
  intro t s1 hst hch n nd hn hm
  obtain ⟨hf, hl, _⟩ := h2 t s1 n nd hst hn hm
  rcases hch with h | h
  · exact h hf
  · exact h hl

/-- The theorem at a state in which the root mutex is held. -/
theorem locking_discipline_witness :
    Reachable oneChild "root" oneChildLocked ∧
    ((∀ (n : Nat) (nd : Node) (u : Nat), oneChildLocked.heap[n]? = some nd → nd.mux = some u →
      ∃ tk : Task, oneChildLocked.tasks[u]? = some tk ∧ tk.p = n ∧ tk.pc.inCritical = true) ∧
    (∀ (t : Nat) (s1 : State) (n : Nat) (nd : Node), step oneChild oneChildLocked t = some s1 →
      oneChildLocked.heap[n]? = some nd → nd.mux = some t →
      s1.fetches = oneChildLocked.fetches ∧ s1.tasks.length = oneChildLocked.tasks.length ∧
      s1.counter = oneChildLocked.counter ∧
      ∃ tk : Task, oneChildLocked.tasks[t]? = some tk ∧ tk.p = n ∧
        ((∃ i ch, tk.pc = .locked i ch ∧
            s1.heap = oneChildLocked.heap.set n { nd with Children := nd.Children ++ [ch] }) ∨
         (∃ i ch, tk.pc = .appended i ch ∧
            s1.heap = oneChildLocked.heap.set n { nd with mux := none }))) ∧
    (∀ (t : Nat) (s1 : State), step oneChild oneChildLocked t = some s1 →
      (s1.fetches ≠ oneChildLocked.fetches ∨ s1.tasks.length ≠ oneChildLocked.tasks.length) →
      ∀ (n : Nat) (nd : Node), oneChildLocked.heap[n]? = some nd → nd.mux ≠ some t)) :=
  have h : Reachable oneChild "root" oneChildLocked :=
    exec_reachable [0, 0, 0] (by decide)
  ⟨h, locking_discipline h⟩

/-! ## Views of the heap -/

theorem orgAt_append (heap : List Node) (x : Node) :
    orgAt (heap ++ [x]) = Function.update (orgAt heap) heap.length x.BusinessOrganization := by
  funext n
  unfold orgAt
  by_cases h : n = heap.length
  · subst h
    simp
  · rw [Function.update_noteq h]
    by_cases h2 : n < heap.length
    · rw [List.getElem?_append_left h2]
    · have h3 : (heap ++ [x]).length ≤ n := by
        simp only [List.length_append, List.length_singleton]
        omega
      rw [List.getElem?_eq_none h3, List.getElem?_eq_none (by omega)]

theorem childrenAt_append (heap : List Node) (x : Node) :
    childrenAt (heap ++ [x]) = Function.update (childrenAt heap) heap.length x.Children := by
  funext n
  unfold childrenAt
  by_cases h : n = heap.length
  · subst h
    simp
  · rw [Function.update_noteq h]
    by_cases h2 : n < heap.length
    · rw [List.getElem?_append_left h2]
    · have h3 : (heap ++ [x]).length ≤ n := by
        simp only [List.length_append, List.length_singleton]
        omega
      rw [List.getElem?_eq_none h3, List.getElem?_eq_none (by omega)]

theorem orgAt_set {heap : List Node} {p : Nat} {pn : Node} (nd : Node)
    (hp : heap[p]? = some pn) (ho : nd.BusinessOrganization = pn.BusinessOrganization) :
    orgAt (heap.set p nd) = orgAt heap := by
  funext n
  unfold orgAt
  by_cases h : n = p
  · subst h
    rw [getElem?_set_same _ hp, hp]
    exact ho
  · rw [getElem?_set_other _ h]

theorem childrenAt_set {heap : List Node} {p : Nat} {pn : Node} (nd : Node)
    (hp : heap[p]? = some pn) :
    childrenAt (heap.set p nd) = Function.update (childrenAt heap) p nd.Children := by
  funext n
  unfold childrenAt
  by_cases h : n = p
  · subst h
    rw [getElem?_set_same _ hp]
    simp
  · rw [getElem?_set_other _ h, Function.update_noteq h]

theorem orgAt_of_getElem? {heap : List Node} {n : Nat} {nd : Node} (h : heap[n]? = some nd) :
    orgAt heap n = nd.BusinessOrganization := by
  simp [orgAt, h]

theorem childrenAt_of_getElem? {heap : List Node} {n : Nat} {nd : Node}
    (h : heap[n]? = some nd) : childrenAt heap n = nd.Children := by
  simp [childrenAt, h]

/-! ## Preservation of the shape invariant -/

/-- The shape invariant of the start state. -/
theorem WF.start (c : Ctx) (o : Organization) :
    WF c 1 (orgAt [Node.mk none o []]) (childrenAt [Node.mk none o []])
      [Task.mk true 0 (.loop 0)] := by
  have look : ∀ (t : Nat) (tk : Task), [Task.mk true 0 (.loop 0)][t]? = some tk →
      t = 0 ∧ tk = Task.mk true 0 (.loop 0) := by
    intro t tk h
    cases t with
    | zero => exact ⟨rfl, by simpa using h.symm⟩
    | succ t => simp at h
  constructor
  · intro t tk n h ho
    obtain ⟨_, rfl⟩ := look t tk h
    rcases ho with ho | ho
    · simp only at ho; omega
    · cases ho
  · intro t1 t2 tk1 tk2 n h1 h2 _ _
    rw [(look t1 tk1 h1).1, (look t2 tk2 h2).1]
  · intro t tk h
    obtain ⟨_, rfl⟩ := look t tk h
    simp [Pc.pending]
  · intro n hn
    exact ⟨0, _, rfl, Or.inl (by show 0 = n; omega)⟩
  · intro t tk n h hpend
    obtain ⟨_, rfl⟩ := look t tk h
    cases hpend
  · intro t tk h
    obtain ⟨_, rfl⟩ := look t tk h
    refine ⟨rfl, ?_, trivial⟩
    intro j ch hj
    simp [childrenAt] at hj

/-- A goroutine moves to a program point with the same local child node,
possibly replacing the children of its node. -/
theorem WF.local {c : Ctx} {len : Nat} {org : Nat → Organization} {kids : Nat → List Nat}
    {tasks : List Task} (h : WF c len org kids tasks) {t : Nat} {tk : Task} (pc1 : Pc)
    (ks : List Nat) (ht : tasks[t]? = some tk) (hpend : pc1.pending = tk.pc.pending)
    (hprog : Progress c len org (org tk.p).SubOrganizationIds ks pc1) :
    WF c len org (Function.update kids tk.p ks) (tasks.set t { tk with pc := pc1 }) := by
  -- every goroutine of the new list corresponds to one of the old list
  have back : ∀ (u : Nat) (x : Task), (tasks.set t { tk with pc := pc1 })[u]? = some x →
      ∃ y : Task, tasks[u]? = some y ∧ y.p = x.p ∧ y.pc.pending = x.pc.pending ∧
        (u ≠ t → y = x) ∧ (u = t → y = tk ∧ x = { tk with pc := pc1 }) := by
    intro u x hu
    rcases getElem?_set_cases hu with ⟨rfl, rfl⟩ | ⟨hne, hu1⟩
    · exact ⟨tk, ht, rfl, hpend.symm, fun hh => absurd rfl hh, fun _ => ⟨rfl, rfl⟩⟩
    · exact ⟨x, hu1, rfl, rfl, fun _ => rfl, fun hh => absurd hh hne⟩
  have owns_back : ∀ (x y : Task) (n : Nat), y.p = x.p → y.pc.pending = x.pc.pending →
      x.owns n → y.owns n := by
    intro x y n h1 h2 ho
    unfold Task.owns at *
    rw [h1, h2]
    exact ho
  constructor
  · intro u x n hu ho
    obtain ⟨y, hy, h1, h2, _⟩ := back u x hu
    exact h.bound u y n hy (owns_back x y n h1 h2 ho)
  · intro u1 u2 x1 x2 n hu1 hu2 ho1 ho2
    obtain ⟨y1, hy1, h11, h12, _⟩ := back u1 x1 hu1
    obtain ⟨y2, hy2, h21, h22, _⟩ := back u2 x2 hu2
    exact h.unique u1 u2 y1 y2 n hy1 hy2 (owns_back x1 y1 n h11 h12 ho1)
      (owns_back x2 y2 n h21 h22 ho2)
  · intro u x hu
    obtain ⟨y, hy, h1, h2, _⟩ := back u x hu
    rw [← h1, ← h2]
    exact h.fresh u y hy
  · intro n hn
    obtain ⟨u, y, hy, ho⟩ := h.cover n hn
    by_cases hut : u = t
    · subst hut
      rw [ht] at hy
      cases hy
      refine ⟨u, _, getElem?_set_same _ ht, ?_⟩
      exact owns_back tk { tk with pc := pc1 } n rfl hpend ho
    · exact ⟨u, y, by rw [getElem?_set_other _ hut]; exact hy, ho⟩
  · intro u x n hu hp
    obtain ⟨y, hy, h1, h2, _⟩ := back u x hu
    have hne : n ≠ tk.p := by
      rintro rfl
      have := h.unique u t y tk tk.p hy ht (Or.inr (h2.trans hp)) (Or.inl rfl)
      subst this
      rw [ht] at hy
      cases hy
      exact h.fresh u tk ht (h2.trans hp)
    rw [Function.update_noteq hne]
    exact h.blank u y n hy (h2.trans hp)
  · intro u x hu
    obtain ⟨y, hy, h1, h2, h3, h4⟩ := back u x hu
    by_cases hut : u = t
    · obtain ⟨rfl, rfl⟩ := h4 hut
      simp only [Function.update_same]
      exact hprog
    · have := h3 hut
      subst this
      have hne : y.p ≠ tk.p := by
        intro heq
        exact hut (h.unique u t y tk y.p hy ht (Or.inl rfl) (Or.inl heq.symm))
      rw [Function.update_noteq hne]
      exact h.progress u y hy

/-- Facts about a node stay true when a node is added to the heap. -/
theorem Progress.lift {c : Ctx} {len : Nat} {org : Nat → Organization} {ids : List String}
    {ks : List Nat} {pc : Pc} (h : Progress c len org ids ks pc)
    (hp : ∀ n, pc.pending = some n → n < len) (o : Organization) :
    Progress c (len + 1) (Function.update org len o) ids ks pc := by
  obtain ⟨h1, h2, h3⟩ := h
  refine ⟨h1, ?_, ?_⟩
  · intro j ch hj
    obtain ⟨hlt, v, hv, hf⟩ := h2 j ch hj
    refine ⟨by omega, v, hv, ?_⟩
    rw [Function.update_noteq (by omega)]
    exact hf
  · cases pc with
    | built i n =>
      have := hp n rfl
      simp only at h3 ⊢
      rw [Function.update_noteq (by omega)]
      exact h3
    | locked i n =>
      have := hp n rfl
      simp only at h3 ⊢
      rw [Function.update_noteq (by omega)]
      exact h3
    | loop i => trivial
    | fetched i b => exact h3
    | appended i n => exact h3
    | unlocked i n => exact h3
    | added i n => exact h3
    | finished => trivial
    | afterCall => trivial
    | returned => trivial

/-- Line 73: the goroutine creates the child node. -/
theorem WF.build {c : Ctx} {len : Nat} {org : Nat → Organization} {kids : Nat → List Nat}
    {tasks : List Task} (h : WF c len org kids tasks) {t : Nat} {tk : Task} {i : Nat}
    {b : Bytes} (ht : tasks[t]? = some tk) (hpc : tk.pc = .fetched i b) :
    WF c (len + 1) (Function.update org len (c.unmarshal b).1) (Function.update kids len [])
      (tasks.set t { tk with pc := .built i len }) := by
  have hplt : tk.p < len := h.bound t tk tk.p ht (Or.inl rfl)
  have back : ∀ (u : Nat) (x : Task), (tasks.set t { tk with pc := .built i len })[u]? = some x →
      (u = t ∧ x = { tk with pc := .built i len }) ∨ (u ≠ t ∧ tasks[u]? = some x) :=
    fun u x hu => getElem?_set_cases hu
  have ownsNew : ∀ n, Task.owns { tk with pc := Pc.built i len } n → n = tk.p ∨ n = len := by
    intro n ho
    rcases ho with ho | ho
    · exact Or.inl ho.symm
    · simp only [Pc.pending, Option.some.injEq] at ho
      exact Or.inr ho.symm
  constructor
  · intro u x n hu ho
    rcases back u x hu with ⟨rfl, rfl⟩ | ⟨_, hu1⟩
    · rcases ownsNew n ho with rfl | rfl <;> omega
    · have := h.bound u x n hu1 ho
      omega
  · intro u1 u2 x1 x2 n hu1 hu2 ho1 ho2
    rcases back u1 x1 hu1 with ⟨rfl, rfl⟩ | ⟨hne1, hy1⟩
    · rcases back u2 x2 hu2 with ⟨rfl, rfl⟩ | ⟨hne2, hy2⟩
      · rfl
      · have hlt := h.bound u2 x2 n hy2 ho2
        rcases ownsNew n ho1 with rfl | rfl
        · exact h.unique u1 u2 tk x2 tk.p ht hy2 (Or.inl rfl) ho2
        · omega
    · rcases back u2 x2 hu2 with ⟨rfl, rfl⟩ | ⟨hne2, hy2⟩
      · have hlt := h.bound u1 x1 n hy1 ho1
        rcases ownsNew n ho2 with rfl | rfl
        · exact h.unique u1 u2 x1 tk tk.p hy1 ht ho1 (Or.inl rfl)
        · omega
      · exact h.unique u1 u2 x1 x2 n hy1 hy2 ho1 ho2
  · intro u x hu
    rcases back u x hu with ⟨rfl, rfl⟩ | ⟨_, hu1⟩
    · simp only [Pc.pending, ne_eq, Option.some.injEq]
      omega
    · exact h.fresh u x hu1
  · intro n hn
    by_cases hnl : n = len
    · subst hnl
      exact ⟨t, _, getElem?_set_same _ ht, Or.inr rfl⟩
    · obtain ⟨u, y, hy, ho⟩ := h.cover n (by omega)
      by_cases hut : u = t
      · subst hut
        rw [ht] at hy
        cases hy
        refine ⟨u, _, getElem?_set_same _ ht, Or.inl ?_⟩
        rcases ho with ho | ho
        · exact ho
        · rw [hpc] at ho
          cases ho
      · exact ⟨u, y, by rw [getElem?_set_other _ hut]; exact hy, ho⟩
  · intro u x n hu hp
    rcases back u x hu with ⟨rfl, rfl⟩ | ⟨_, hu1⟩
    · simp only [Pc.pending, Option.some.injEq] at hp
      subst hp
      simp
    · have hlt := h.bound u x n hu1 (Or.inr hp)
      rw [Function.update_noteq (by omega)]
      exact h.blank u x n hu1 hp
  · intro u x hu
    rcases back u x hu with ⟨rfl, rfl⟩ | ⟨_, hu1⟩
    · simp only
      rw [Function.update_noteq (by omega), Function.update_noteq (by omega)]
      have hold := h.progress u tk ht
      rw [hpc] at hold
      obtain ⟨h1, h2, v, hv, hf⟩ := hold
      refine ⟨h1, ?_, v, hv, ?_⟩
      · intro j ch hj
        obtain ⟨hlt, w, hw, hfw⟩ := h2 j ch hj
        refine ⟨by omega, w, hw, ?_⟩
        rw [Function.update_noteq (by omega)]
        exact hfw
      · rw [Function.update_same]
        exact fetchOrganization_ok hf
    · have hlt := h.bound u x x.p hu1 (Or.inl rfl)
      rw [Function.update_noteq (by omega), Function.update_noteq (by omega)]
      exact (h.progress u x hu1).lift (fun n hn => h.bound u x n hu1 (Or.inr hn)) _

/-- Line 80: the goroutine starts the goroutine expanding the child. -/
theorem WF.spawn {c : Ctx} {len : Nat} {org : Nat → Organization} {kids : Nat → List Nat}
    {tasks : List Task} (h : WF c len org kids tasks) {t : Nat} {tk : Task} {i n : Nat}
    (ht : tasks[t]? = some tk) (hpc : tk.pc = .added i n) :
    WF c len org kids
      ((tasks ++ [Task.mk false n (.loop 0)]).set t { tk with pc := .loop (i + 1) }) := by
  have htl : t < tasks.length := lt_of_getElem?_some ht
  have hown : tk.owns n := Or.inr (by rw [hpc]; rfl)
  have hnp : n ≠ tk.p := by
    intro heq
    apply h.fresh t tk ht
    rw [hpc, ← heq]
    rfl
  have back : ∀ (u : Nat) (x : Task),
      ((tasks ++ [Task.mk false n (.loop 0)]).set t { tk with pc := .loop (i + 1) })[u]? = some x →
      (u = t ∧ x = { tk with pc := .loop (i + 1) }) ∨ (u ≠ t ∧ tasks[u]? = some x) ∨
        (u = tasks.length ∧ x = Task.mk false n (.loop 0)) := by
    intro u x hu
    rcases getElem?_set_cases hu with ⟨rfl, rfl⟩ | ⟨hne, hu1⟩
    · exact Or.inl ⟨rfl, rfl⟩
    · rcases getElem?_concat_cases hu1 with h1 | h1
      · exact Or.inr (Or.inl ⟨hne, h1⟩)
      · exact Or.inr (Or.inr h1)
  have forthT : ((tasks ++ [Task.mk false n (.loop 0)]).set t
      { tk with pc := .loop (i + 1) })[t]? = some { tk with pc := .loop (i + 1) } :=
    getElem?_set_same _ (getElem?_append_some _ ht)
  have forthNew : ((tasks ++ [Task.mk false n (.loop 0)]).set t
      { tk with pc := .loop (i + 1) })[tasks.length]? = some (Task.mk false n (.loop 0)) := by
    rw [getElem?_set_other _ (by omega)]
    exact List.getElem?_concat_length _ _
  have forthOld : ∀ (u : Nat) (y : Task), u ≠ t → tasks[u]? = some y →
      ((tasks ++ [Task.mk false n (.loop 0)]).set t { tk with pc := .loop (i + 1) })[u]? =
        some y := by
    intro u y hut hy
    rw [getElem?_set_other _ hut]
    exact getElem?_append_some _ hy
  -- the old goroutine in charge of whatever a new goroutine is in charge of
  have owner : ∀ (u : Nat) (x : Task) (m : Nat),
      ((tasks ++ [Task.mk false n (.loop 0)]).set t { tk with pc := .loop (i + 1) })[u]? = some x →
      x.owns m →
      (u = t ∧ m = tk.p) ∨ (u ≠ t ∧ u < tasks.length ∧ ∃ y, tasks[u]? = some y ∧ y = x ∧ y.owns m) ∨
        (u = tasks.length ∧ m = n) := by
    intro u x m hu ho
    rcases back u x hu with ⟨rfl, rfl⟩ | ⟨hne, hy⟩ | ⟨rfl, rfl⟩
    · left
      rcases ho with ho | ho
      · exact ⟨rfl, ho.symm⟩
      · cases ho
    · right; left
      exact ⟨hne, lt_of_getElem?_some hy, x, hy, rfl, ho⟩
    · right; right
      rcases ho with ho | ho
      · exact ⟨rfl, ho.symm⟩
      · cases ho
  constructor
  · intro u x m hu ho
    rcases owner u x m hu ho with ⟨_, rfl⟩ | ⟨_, _, y, hy, _, hoy⟩ | ⟨_, rfl⟩
    · exact h.bound t tk tk.p ht (Or.inl rfl)
    · exact h.bound u y m hy hoy
    · exact h.bound t tk m ht hown
  · intro u1 u2 x1 x2 m hu1 hu2 ho1 ho2
    rcases owner u1 x1 m hu1 ho1 with ⟨rfl, rfl⟩ | ⟨hne1, hl1, y1, hy1, _, hoy1⟩ | ⟨rfl, rfl⟩
    · rcases owner u2 x2 _ hu2 ho2 with ⟨rfl, _⟩ | ⟨hne2, hl2, y2, hy2, _, hoy2⟩ | ⟨rfl, hm⟩
      · rfl
      · exact h.unique u1 u2 tk y2 tk.p ht hy2 (Or.inl rfl) hoy2
      · exact absurd hm.symm hnp
    · rcases owner u2 x2 _ hu2 ho2 with ⟨rfl, rfl⟩ | ⟨hne2, hl2, y2, hy2, _, hoy2⟩ | ⟨rfl, rfl⟩
      · exact h.unique u1 u2 y1 tk tk.p hy1 ht hoy1 (Or.inl rfl)
      · exact h.unique u1 u2 y1 y2 m hy1 hy2 hoy1 hoy2
      · exact absurd (h.unique u1 t y1 tk m hy1 ht hoy1 hown) hne1
    · rcases owner u2 x2 _ hu2 ho2 with ⟨rfl, hm⟩ | ⟨hne2, hl2, y2, hy2, _, hoy2⟩ | ⟨rfl, _⟩
      · exact absurd hm hnp
      · exact absurd (h.unique u2 t y2 tk m hy2 ht hoy2 hown) hne2
      · rfl
  · intro u x hu
    rcases back u x hu with ⟨rfl, rfl⟩ | ⟨hne, hy⟩ | ⟨rfl, rfl⟩
    · simp [Pc.pending]
    · exact h.fresh u x hy
    · simp [Pc.pending]
  · intro m hm
    obtain ⟨u, y, hy, ho⟩ := h.cover m hm
    by_cases hut : u = t
    · subst hut
      rw [ht] at hy
      cases hy
      rcases ho with ho | ho
      · exact ⟨u, _, forthT, Or.inl ho⟩
      · rw [hpc] at ho
        simp only [Pc.pending, Option.some.injEq] at ho
        subst ho
        exact ⟨tasks.length, _, forthNew, Or.inl rfl⟩
    · exact ⟨u, y, forthOld u y hut hy, ho⟩
  · intro u x m hu hp
    rcases back u x hu with ⟨rfl, rfl⟩ | ⟨hne, hy⟩ | ⟨rfl, rfl⟩
    · cases hp
    · exact h.blank u x m hy hp
    · cases hp
  · intro u x hu
    rcases back u x hu with ⟨rfl, rfl⟩ | ⟨hne, hy⟩ | ⟨rfl, rfl⟩
    · have hold := h.progress u tk ht
      rw [hpc] at hold
      obtain ⟨h1, h2, _⟩ := hold
      exact ⟨h1, h2, trivial⟩
    · exact h.progress u x hy
    · have hb := h.blank t tk n ht (by rw [hpc]; rfl)
      refine ⟨?_, ?_, trivial⟩
      · simp only [hb]
        rfl
      · intro j ch hj
        simp only [hb] at hj
        simp at hj

/-- The shape invariant holds in every state of a build. -/
theorem shape_invariant {c : Ctx} {root : String} {s : State} (hs : Reachable c root s) :
    WF c s.heap.length (orgAt s.heap) (childrenAt s.heap) s.tasks := by
  induction hs with
  | init h0 =>
    obtain ⟨o, _, rfl⟩ := InitTree_start_ok h0
    exact WF.start c o
  | @step s s1 t _ hst ih =>
    have hS := step_sound hst
    cases hS with
    | fetchFail hr ht hp hpc hv hf => exact ih
    | donePanic hr ht hp hpc hv hc => exact ih
    | retPanic hr ht hp hpc hc => exact ih
    | @fetchOk tk pn i v b hr ht hp hpc hv hf =>
      have hold := ih.progress t tk ht
      rw [hpc] at hold
      obtain ⟨h1, h2, _⟩ := hold
      have := ih.local (.fetched i b) (childrenAt s.heap tk.p) ht (by rw [hpc]; rfl)
        ⟨h1, h2, v, by rw [orgAt_of_getElem? hp]; exact hv, hf⟩
      rw [Function.update_eq_self] at this
      exact this
    | @done tk pn i hr ht hp hpc hv hc =>
      have hold := ih.progress t tk ht
      rw [hpc] at hold
      obtain ⟨h1, h2, _⟩ := hold
      rw [orgAt_of_getElem? hp] at h1 h2
      have hlen : (childrenAt s.heap tk.p).length =
          pn.BusinessOrganization.SubOrganizationIds.length := by
        have hge : pn.BusinessOrganization.SubOrganizationIds.length ≤ i :=
          List.getElem?_eq_none_iff.mp hv
        have hle : i ≤ pn.BusinessOrganization.SubOrganizationIds.length := by
          by_contra hcon
          have hlt : pn.BusinessOrganization.SubOrganizationIds.length <
              (childrenAt s.heap tk.p).length := by
            rw [h1]
            simp only [Pc.appendedCount]
            omega
          obtain ⟨_, v, hv2, _⟩ := h2 _ _ (List.getElem?_eq_getElem hlt)
          have := lt_of_getElem?_some hv2
          omega
        rw [h1]
        simp only [Pc.appendedCount]
        omega
      have hprog : ∀ pc1 : Pc, pc1 = .afterCall ∨ pc1 = .finished →
          Progress c s.heap.length (orgAt s.heap) (orgAt s.heap tk.p).SubOrganizationIds
            (childrenAt s.heap tk.p) pc1 := by
        intro pc1 h
        rw [orgAt_of_getElem? hp]
        rcases h with rfl | rfl
        · exact ⟨hlen, h2, trivial⟩
        · exact ⟨hlen, h2, trivial⟩
      have := ih.local (if tk.main then .afterCall else .finished) (childrenAt s.heap tk.p) ht
        (by rw [hpc]; cases tk.main <;> rfl)
        (hprog _ (by cases tk.main <;> simp))
      rw [Function.update_eq_self] at this
      exact this
    | @add tk pn i n hr ht hp hpc =>
      have hold := ih.progress t tk ht
      rw [hpc] at hold
      have := ih.local (.added i n) (childrenAt s.heap tk.p) ht (by rw [hpc]; rfl) hold
      rw [Function.update_eq_self] at this
      exact this
    | @ret tk pn hr ht hp hpc hc =>
      have hold := ih.progress t tk ht
      rw [hpc] at hold
      have := ih.local .returned (childrenAt s.heap tk.p) ht (by rw [hpc]; rfl) hold
      rw [Function.update_eq_self] at this
      exact this
    | @lock tk pn i n hr ht hp hpc hm =>
      have hold := ih.progress t tk ht
      rw [hpc] at hold
      have := ih.local (.locked i n) (childrenAt s.heap tk.p) ht (by rw [hpc]; rfl) hold
      simp only [List.length_set]
      rw [orgAt_set (Node.mk (some t) pn.BusinessOrganization pn.Children) hp rfl,
        childrenAt_set _ hp]
      rw [childrenAt_of_getElem? hp] at this
      exact this
    | @unlock tk pn i n hr ht hp hpc =>
      have hold := ih.progress t tk ht
      rw [hpc] at hold
      have := ih.local (.unlocked i n) (childrenAt s.heap tk.p) ht (by rw [hpc]; rfl) hold
      simp only [List.length_set]
      rw [orgAt_set (Node.mk none pn.BusinessOrganization pn.Children) hp rfl,
        childrenAt_set _ hp]
      rw [childrenAt_of_getElem? hp] at this
      exact this
    | @append tk pn i n hr ht hp hpc =>
      have hold := ih.progress t tk ht
      rw [hpc, childrenAt_of_getElem? hp] at hold
      obtain ⟨h1, h2, v, hv, hf⟩ := hold
      simp only [Pc.appendedCount] at h1
      have hn : n < s.heap.length := ih.bound t tk n ht (Or.inr (by rw [hpc]; rfl))
      have hprog : Progress c s.heap.length (orgAt s.heap)
          (orgAt s.heap tk.p).SubOrganizationIds (pn.Children ++ [n]) (.appended i n) := by
        refine ⟨by simp [Pc.appendedCount, h1], ?_, ?_⟩
        · intro j ch hj
          rcases getElem?_concat_cases hj with hj1 | ⟨rfl, rfl⟩
          · exact h2 j ch hj1
          · rw [h1]
            exact ⟨hn, v, hv, hf⟩
        · show (pn.Children ++ [n])[i]? = some n
          rw [← h1]
          exact List.getElem?_concat_length _ _
      have := ih.local (.appended i n) (pn.Children ++ [n]) ht (by rw [hpc]; rfl) hprog
      simp only [List.length_set]
      rw [orgAt_set (Node.mk pn.mux pn.BusinessOrganization (pn.Children ++ [n])) hp rfl,
        childrenAt_set _ hp]
      exact this
    | @build tk pn i b hr ht hp hpc =>
      have := ih.build ht hpc
      simp only [List.length_append, List.length_singleton]
      rw [orgAt_append, childrenAt_append]
      exact this
    | @spawn tk pn i n hr ht hp hpc => exact ih.spawn ht hpc

/-! ## Fully expanded nodes -/

theorem Progress.length_le {c : Ctx} {len : Nat} {org : Nat → Organization} {ids : List String}
    {ks : List Nat} {pc : Pc} (h : Progress c len org ids ks pc) : ks.length ≤ ids.length := by
  by_contra hcon
  have hlt : ids.length < ks.length := by omega
  obtain ⟨_, v, hv, _⟩ := h.2.1 _ _ (List.getElem?_eq_getElem hlt)
  have := lt_of_getElem?_some hv
  omega

theorem Pc.pending_of_loopEnded {len : Nat} {pc : Pc} (h : pc.loopEnded len = true) :
    pc.pending = none := by
  cases pc <;> first | rfl | cases h

/-- A node whose goroutine has handled every reference has one child per
reference, in the order of the references, each wrapping what the fetch of its
reference returned. -/
theorem Progress.ended {c : Ctx} {len : Nat} {org : Nat → Organization} {ids : List String}
    {ks : List Nat} {pc : Pc} (h : Progress c len org ids ks pc)
    (he : pc.loopEnded ids.length = true) :
    ks.length = ids.length ∧
    ∀ (j : Nat) (v : String), ids[j]? = some v →
      ∃ ch, ks[j]? = some ch ∧ ch < len ∧ fetchOrganization c v = .ok (org ch) := by
  have hle := h.length_le
  have hlen : ks.length = ids.length := by
    have h1 := h.1
    cases pc with
    | loop i =>
      simp only [Pc.loopEnded, decide_eq_true_eq] at he
      simp only [Pc.appendedCount] at h1
      omega
    | finished => exact h1
    | afterCall => exact h1
    | returned => exact h1
    | fetched i b => cases he
    | built i n => cases he
    | locked i n => cases he
    | appended i n => cases he
    | unlocked i n => cases he
    | added i n => cases he
  refine ⟨hlen, ?_⟩
  intro j v hv
  have hj : j < ks.length := by
    rw [hlen]
    exact lt_of_getElem?_some hv
  obtain ⟨hlt, w, hw, hf⟩ := h.2.1 j _ (List.getElem?_eq_getElem hj)
  rw [hv] at hw
  cases hw
  exact ⟨_, List.getElem?_eq_getElem hj, hlt, hf⟩

theorem complete_task {s : State} (hc : s.complete = true) {t : Nat} {tk : Task}
    (ht : s.tasks[t]? = some tk) :
    tk.pc.loopEnded (orgAt s.heap tk.p).SubOrganizationIds.length = true := by
  unfold State.complete at hc
  rw [List.all_eq_true] at hc
  exact hc tk (List.getElem?_mem ht)

/-- In a complete build every node of the heap is expanded by a goroutine that
has handled every reference. -/
theorem complete_node {c : Ctx} {s : State}
    (hw : WF c s.heap.length (orgAt s.heap) (childrenAt s.heap) s.tasks)
    (hc : s.complete = true) {n : Nat} (hn : n < s.heap.length) :
    ∃ (t : Nat) (tk : Task), s.tasks[t]? = some tk ∧ tk.p = n ∧
      tk.pc.loopEnded (orgAt s.heap n).SubOrganizationIds.length = true := by
  obtain ⟨t, tk, ht, ho⟩ := hw.cover n hn
  have he := complete_task hc ht
  rcases ho with ho | ho
  · subst ho
    exact ⟨t, tk, ht, rfl, he⟩
  · rw [Pc.pending_of_loopEnded he] at ho
    cases ho

/-! ## The tree of a complete build -/

/-- A step keeps the nodes of the heap and the organizations they wrap. -/
theorem Step.orgAt_stable {c : Ctx} {s s1 : State} {t : Nat} (h : Step c s t s1) :
    s.heap.length ≤ s1.heap.length ∧
    ∀ n, n < s.heap.length → orgAt s1.heap n = orgAt s.heap n := by
  cases h with
  | fetchFail hr ht hp hpc hv hf => exact ⟨le_refl _, fun _ _ => rfl⟩
  | fetchOk hr ht hp hpc hv hf => exact ⟨le_refl _, fun _ _ => rfl⟩
  | donePanic hr ht hp hpc hv hc => exact ⟨le_refl _, fun _ _ => rfl⟩
  | done hr ht hp hpc hv hc => exact ⟨le_refl _, fun _ _ => rfl⟩
  | add hr ht hp hpc => exact ⟨le_refl _, fun _ _ => rfl⟩
  | spawn hr ht hp hpc => exact ⟨le_refl _, fun _ _ => rfl⟩
  | retPanic hr ht hp hpc hc => exact ⟨le_refl _, fun _ _ => rfl⟩
  | ret hr ht hp hpc hc => exact ⟨le_refl _, fun _ _ => rfl⟩
  | build hr ht hp hpc =>
    refine ⟨by simp, fun n hn => ?_⟩
    show orgAt (s.heap ++ [_]) n = _
    rw [orgAt_append, Function.update_noteq (by omega)]
  | @lock tk pn i ch hr ht hp hpc hm =>
    refine ⟨by simp, fun n _ => ?_⟩
    show orgAt (s.heap.set tk.p _) n = _
    rw [orgAt_set (Node.mk (some t) pn.BusinessOrganization pn.Children) hp rfl]
  | @append tk pn i ch hr ht hp hpc =>
    refine ⟨by simp, fun n _ => ?_⟩
    show orgAt (s.heap.set tk.p _) n = _
    rw [orgAt_set (Node.mk pn.mux pn.BusinessOrganization (pn.Children ++ [ch])) hp rfl]
  | @unlock tk pn i ch hr ht hp hpc =>
    refine ⟨by simp, fun n _ => ?_⟩
    show orgAt (s.heap.set tk.p _) n = _
    rw [orgAt_set (Node.mk none pn.BusinessOrganization pn.Children) hp rfl]

/-- Node 0 is the root node: it wraps what the fetch of `root` returned. -/
theorem root_node {c : Ctx} {root : String} {s : State} (hs : Reachable c root s) :
    0 < s.heap.length ∧ fetchOrganization c root = .ok (orgAt s.heap 0) := by
  induction hs with
  | init h0 =>
    obtain ⟨o, ho, rfl⟩ := InitTree_start_ok h0
    exact ⟨by simp, ho⟩
  | step _ hst ih =>
    obtain ⟨h1, h2⟩ := (step_sound hst).orgAt_stable
    exact ⟨by omega, by rw [h2 0 ih.1]; exact ih.2⟩

/-- In a complete build the tree below any node is the unfolding of the
reference lists from the organization of that node. -/
theorem toTree_eq_unfold {c : Ctx} {s : State}
    (hw : WF c s.heap.length (orgAt s.heap) (childrenAt s.heap) s.tasks)
    (hc : s.complete = true) (d : Nat) :
    ∀ n, n < s.heap.length → toTree s.heap d n = unfold c d (orgAt s.heap n) := by
  induction d with
  | zero =>
    intro n _
    rfl
  | succ d ih =>
    intro n hn
    obtain ⟨t, tk, ht, rfl, he⟩ := complete_node hw hc hn
    obtain ⟨hlen, hkids⟩ := (hw.progress t tk ht).ended he
    simp only [toTree, unfold, OrgTree.node.injEq, true_and]
    apply List.ext_getElem?
    intro j
    rw [List.getElem?_map, List.getElem?_map]
    by_cases hj : j < (orgAt s.heap tk.p).SubOrganizationIds.length
    · obtain ⟨ch, hch, hlt, hf⟩ := hkids j _ (List.getElem?_eq_getElem hj)
      rw [hch, List.getElem?_eq_getElem hj]
      simp only [Option.map_some']
      rw [ih ch hlt, orgOf_of_fetch hf]
    · rw [List.getElem?_eq_none (by omega), List.getElem?_eq_none (by omega)]
      rfl

/-- The tree of a complete build is the unfolding of the reference lists from
the root organization. -/
theorem complete_tree {c : Ctx} {root : String} {s : State} (hs : Reachable c root s)
    (hc : s.complete = true) (d : Nat) : toTree s.heap d 0 = unfold c d (orgOf c root) := by
  obtain ⟨h0, hroot⟩ := root_node hs
  rw [toTree_eq_unfold (shape_invariant hs) hc d 0 h0, orgOf_of_fetch hroot]

/-- A step changes the children of a node only by one append, made by the
goroutine expanding the node. -/
theorem Step.children_cases {c : Ctx} {s s1 : State} {t : Nat} (h : Step c s t s1) (n : Nat)
    (hne : childrenAt s1.heap n ≠ childrenAt s.heap n) :
    ∃ (tk : Task) (ch : Nat), s.tasks[t]? = some tk ∧ tk.p = n ∧
      childrenAt s1.heap n = childrenAt s.heap n ++ [ch] := by
  cases h with
  | fetchFail hr ht hp hpc hv hf => exact absurd rfl hne
  | fetchOk hr ht hp hpc hv hf => exact absurd rfl hne
  | donePanic hr ht hp hpc hv hc => exact absurd rfl hne
  | done hr ht hp hpc hv hc => exact absurd rfl hne
  | add hr ht hp hpc => exact absurd rfl hne
  | spawn hr ht hp hpc => exact absurd rfl hne
  | retPanic hr ht hp hpc hc => exact absurd rfl hne
  | ret hr ht hp hpc hc => exact absurd rfl hne
  | build hr ht hp hpc =>
    exfalso
    apply hne
    show childrenAt (s.heap ++ [_]) n = _
    rw [childrenAt_append]
    by_cases hn : n = s.heap.length
    · subst hn
      simp [childrenAt]
    · rw [Function.update_noteq hn]
  | @lock tk pn i ch hr ht hp hpc hm =>
    exfalso
    apply hne
    show childrenAt (s.heap.set tk.p _) n = _
    rw [childrenAt_set _ hp, ← childrenAt_of_getElem? hp, Function.update_eq_self]
  | @unlock tk pn i ch hr ht hp hpc =>
    exfalso
    apply hne
    show childrenAt (s.heap.set tk.p _) n = _
    rw [childrenAt_set _ hp, ← childrenAt_of_getElem? hp, Function.update_eq_self]
  | @append tk pn i ch hr ht hp hpc =>
    have hs1 : childrenAt (s.heap.set tk.p { pn with Children := pn.Children ++ [ch] }) =
        Function.update (childrenAt s.heap) tk.p (pn.Children ++ [ch]) :=
      childrenAt_set _ hp
    by_cases hn : n = tk.p
    · subst hn
      refine ⟨tk, ch, ht, rfl, ?_⟩
      show childrenAt (s.heap.set tk.p _) tk.p = _
      rw [hs1, Function.update_same, childrenAt_of_getElem? hp]
    · exfalso
      apply hne
      show childrenAt (s.heap.set tk.p _) n = _
      rw [hs1, Function.update_noteq hn]

/-- C10 (deterministic child order).  In every state of a build: (1) a step
changes the `Children` of a node only by appending one child, and the
goroutine doing it is the only goroutine expanding that node; (2) at every
moment the `j`-th child of a node wraps the organization fetched for the
`j`-th entry of its `SubOrganizationIds`, and once the goroutine of the node
has handled every entry there is a child for every entry; (3) if the build is
complete, its tree equals, to every depth and in sibling order, the tree of
any other complete build of the same call, whatever the interleaving. -/
theorem deterministic_child_order {c : Ctx} {root : String} {s : State}
    (hs : Reachable c root s) :
    (∀ (t : Nat) (s1 : State) (n : Nat), step c s t = some s1 →
      childrenAt s1.heap n ≠ childrenAt s.heap n →
      ∃ (tk : Task) (ch : Nat), s.tasks[t]? = some tk ∧ tk.p = n ∧
        childrenAt s1.heap n = childrenAt s.heap n ++ [ch] ∧
        ∀ (u : Nat) (tk2 : Task), s.tasks[u]? = some tk2 → tk2.p = n → u = t) ∧
    (∀ (t : Nat) (tk : Task), s.tasks[t]? = some tk →
      (∀ (j ch : Nat), (childrenAt s.heap tk.p)[j]? = some ch →
        ∃ v, (orgAt s.heap tk.p).SubOrganizationIds[j]? = some v ∧
          fetchOrganization c v = .ok (orgAt s.heap ch)) ∧
      (tk.pc.loopEnded (orgAt s.heap tk.p).SubOrganizationIds.length = true →
        ∀ (j : Nat) (v : String), (orgAt s.heap tk.p).SubOrganizationIds[j]? = some v →
          ∃ ch, (childrenAt s.heap tk.p)[j]? = some ch ∧
            fetchOrganization c v = .ok (orgAt s.heap ch))) ∧
    (s.complete = true → ∀ s2 : State, Reachable c root s2 → s2.complete = true →
      ∀ d, toTree s.heap d 0 = toTree s2.heap d 0) := by
  have hw := shape_invariant hs
  refine ⟨?_, ?_, ?_⟩
  · intro t s1 n hst hne
    obtain ⟨tk, ch, ht, hp, hch⟩ := (step_sound hst).children_cases n hne
    refine ⟨tk, ch, ht, hp, hch, ?_⟩
    intro u tk2 hu hp2
    exact hw.unique u t tk2 tk n hu ht (Or.inl hp2) (Or.inl hp)
  · intro t tk ht
    have hp := hw.progress t tk ht
    constructor
    · intro j ch hj
      exact (hp.2.1 j ch hj).2
    · intro he j v hv
      obtain ⟨ch, hch, _, hf⟩ := (hp.ended he).2 j v hv
      exact ⟨ch, hch, hf⟩
  · intro hc s2 hs2 hc2 d
    rw [complete_tree hs hc d, complete_tree hs2 hc2 d]

/-- The theorem at two complete builds of the same graph reached by different
interleavings: the heaps differ, the trees are equal. -/
theorem deterministic_child_order_witness :
    Reachable shape "root" shapeBuilt ∧ shapeBuilt.complete = true ∧
    Reachable shape "root" shapeBuiltAlt ∧ shapeBuiltAlt.complete = true ∧
    shapeBuilt.heap ≠ shapeBuiltAlt.heap ∧
    ∀ d, toTree shapeBuilt.heap d 0 = toTree shapeBuiltAlt.heap d 0 :=
  have h1 : Reachable shape "root" shapeBuilt :=
    exec_reachable shapeSchedule (by decide)
  have h2 : Reachable shape "root" shapeBuiltAlt :=
    exec_reachable shapeScheduleAlt (by decide)
  ⟨h1, by decide, h2, by decide, by decide,
    (deterministic_child_order h1).2.2 (by decide) shapeBuiltAlt h2 (by decide)⟩

/-! ## Running a goroutine through its loop body -/

theorem run_cons {c : Ctx} {s s1 : State} {t : Nat} (h : step c s t = some s1)
    (ts : List Nat) : run c s (t :: ts) = run c s1 ts := by
  simp [run, h]

theorem run_append {c : Ctx} {s s1 : State} {xs : List Nat} (h : run c s xs = some s1)
    (ys : List Nat) : run c s (xs ++ ys) = run c s1 ys := by
  induction xs generalizing s with
  | nil =>
    simp only [run, Option.some.injEq] at h
    subst h
    rfl
  | cons t ts ih =>
    cases h2 : step c s t with
    | none => simp [run, h2] at h
    | some s2 =>
      rw [List.cons_append, run_cons h2]
      rw [run_cons h2] at h
      exact ih h

/-- The mutex of a node is free whenever the goroutine expanding the node is
not between `Lock` and `Unlock`: `Lock` never has to wait. -/
theorem lock_never_blocks {c : Ctx} {root : String} {s : State} (hs : Reachable c root s)
    {t : Nat} {tk : Task} {pn : Node} (ht : s.tasks[t]? = some tk)
    (hp : s.heap[tk.p]? = some pn) (hpc : tk.pc.inCritical = false) : pn.mux = none := by
  cases hm : pn.mux with
  | none => rfl
  | some u =>
    exfalso
    obtain ⟨tk0, h0, hp0, hc0⟩ := mux_holder hs tk.p pn u hp hm
    have := (shape_invariant hs).unique u t tk0 tk tk.p h0 ht (Or.inl hp0) (Or.inl rfl)
    subst this
    rw [ht] at h0
    cases h0
    rw [hpc] at hc0
    cases hc0

/-- From the arrival of the payload, three steps of the goroutine create the
child node and append it. -/
theorem run_build_append {c : Ctx} {s : State} {t : Nat} {tk : Task} {pn : Node} {i : Nat}
    {b : Bytes} (hr : s.status = .running) (ht : s.tasks[t]? = some tk)
    (hp : s.heap[tk.p]? = some pn) (hpc : tk.pc = .fetched i b) (hm : pn.mux = none) :
    run c s [t, t, t] = some
      { heap := (s.heap ++ [Node.mk none (c.unmarshal b).1 []]).set tk.p
          (Node.mk (some t) pn.BusinessOrganization (pn.Children ++ [s.heap.length]))
        tasks := s.tasks.set t (Task.mk tk.main tk.p (.appended i s.heap.length))
        counter := s.counter
        fetches := s.fetches
        status := .running } := by
  have hplt : tk.p < s.heap.length := lt_of_getElem?_some hp
  have htlt : t < s.tasks.length := lt_of_getElem?_some ht
  have e1 : step c s t = some
      (State.mk (s.heap ++ [Node.mk none (c.unmarshal b).1 []])
        (s.tasks.set t (Task.mk tk.main tk.p (.built i s.heap.length)))
        s.counter s.fetches .running) := by
    rw [step_complete (Step.build hr ht hp hpc), hr]
  have e2 : step c
      (State.mk (s.heap ++ [Node.mk none (c.unmarshal b).1 []])
        (s.tasks.set t (Task.mk tk.main tk.p (.built i s.heap.length)))
        s.counter s.fetches .running) t = some
      (State.mk ((s.heap ++ [Node.mk none (c.unmarshal b).1 []]).set tk.p
          (Node.mk (some t) pn.BusinessOrganization pn.Children))
        (s.tasks.set t (Task.mk tk.main tk.p (.locked i s.heap.length)))
        s.counter s.fetches .running) := by
    have := step_complete (@Step.lock c
      (State.mk (s.heap ++ [Node.mk none (c.unmarshal b).1 []])
        (s.tasks.set t (Task.mk tk.main tk.p (.built i s.heap.length)))
        s.counter s.fetches .running) t
      (Task.mk tk.main tk.p (.built i s.heap.length)) pn i s.heap.length rfl
      (getElem?_set_same _ ht) (getElem?_append_some _ hp) rfl hm)
    rw [this]
    simp only [List.set_set]
  have e3 : step c
      (State.mk ((s.heap ++ [Node.mk none (c.unmarshal b).1 []]).set tk.p
          (Node.mk (some t) pn.BusinessOrganization pn.Children))
        (s.tasks.set t (Task.mk tk.main tk.p (.locked i s.heap.length)))
        s.counter s.fetches .running) t = some
      (State.mk ((s.heap ++ [Node.mk none (c.unmarshal b).1 []]).set tk.p
          (Node.mk (some t) pn.BusinessOrganization (pn.Children ++ [s.heap.length])))
        (s.tasks.set t (Task.mk tk.main tk.p (.appended i s.heap.length)))
        s.counter s.fetches .running) := by
    have := step_complete (@Step.append c
      (State.mk ((s.heap ++ [Node.mk none (c.unmarshal b).1 []]).set tk.p
          (Node.mk (some t) pn.BusinessOrganization pn.Children))
        (s.tasks.set t (Task.mk tk.main tk.p (.locked i s.heap.length)))
        s.counter s.fetches .running) t
      (Task.mk tk.main tk.p (.locked i s.heap.length))
      (Node.mk (some t) pn.BusinessOrganization pn.Children) i s.heap.length rfl
      (getElem?_set_same _ ht) (getElem?_set_same _ (getElem?_append_some _ hp)) rfl)
    rw [this]
    simp only [List.set_set]
  rw [run_cons e1, run_cons e2, run_cons e3]
  rfl

/-- From the loop head, seven steps of the goroutine handle one reference
whose fetch succeeds. -/
theorem run_iteration {c : Ctx} {s : State} {t : Nat} {tk : Task} {pn : Node} {i : Nat}
    {v : String} {b : Bytes} (hr : s.status = .running) (ht : s.tasks[t]? = some tk)
    (hp : s.heap[tk.p]? = some pn) (hpc : tk.pc = .loop i)
    (hv : pn.BusinessOrganization.SubOrganizationIds[i]? = some v)
    (hf : getOrganizationMetrics c v = .ok b) (hm : pn.mux = none) :
    run c s [t, t, t, t, t, t, t] = some (s.afterIteration c t tk pn i v b) := by
  have hplt : tk.p < s.heap.length := lt_of_getElem?_some hp
  have htlt : t < s.tasks.length := lt_of_getElem?_some ht
  have e1 : step c s t = some
      (State.mk s.heap (s.tasks.set t (Task.mk tk.main tk.p (.fetched i b)))
        s.counter (s.fetches ++ [v]) .running) := by
    rw [step_complete (Step.fetchOk hr ht hp hpc hv hf), hr]
  have e2 := @run_build_append c
      (State.mk s.heap (s.tasks.set t (Task.mk tk.main tk.p (.fetched i b)))
        s.counter (s.fetches ++ [v]) .running) t (Task.mk tk.main tk.p (.fetched i b)) pn i b
      rfl (getElem?_set_same _ ht) hp rfl hm
  simp only [List.set_set] at e2
  have e5 : step c
      (State.mk ((s.heap ++ [Node.mk none (c.unmarshal b).1 []]).set tk.p
          (Node.mk (some t) pn.BusinessOrganization (pn.Children ++ [s.heap.length])))
        (s.tasks.set t (Task.mk tk.main tk.p (.appended i s.heap.length)))
        s.counter (s.fetches ++ [v]) .running) t = some
      (State.mk ((s.heap ++ [Node.mk none (c.unmarshal b).1 []]).set tk.p
          (Node.mk none pn.BusinessOrganization (pn.Children ++ [s.heap.length])))
        (s.tasks.set t (Task.mk tk.main tk.p (.unlocked i s.heap.length)))
        s.counter (s.fetches ++ [v]) .running) := by
    have := step_complete (@Step.unlock c
      (State.mk ((s.heap ++ [Node.mk none (c.unmarshal b).1 []]).set tk.p
          (Node.mk (some t) pn.BusinessOrganization (pn.Children ++ [s.heap.length])))
        (s.tasks.set t (Task.mk tk.main tk.p (.appended i s.heap.length)))
        s.counter (s.fetches ++ [v]) .running) t
      (Task.mk tk.main tk.p (.appended i s.heap.length))
      (Node.mk (some t) pn.BusinessOrganization (pn.Children ++ [s.heap.length]))
      i s.heap.length rfl
      (getElem?_set_same _ ht) (getElem?_set_same _ (getElem?_append_some _ hp)) rfl)
    rw [this]
    simp only [List.set_set]
  have e6 : step c
      (State.mk ((s.heap ++ [Node.mk none (c.unmarshal b).1 []]).set tk.p
          (Node.mk none pn.BusinessOrganization (pn.Children ++ [s.heap.length])))
        (s.tasks.set t (Task.mk tk.main tk.p (.unlocked i s.heap.length)))
        s.counter (s.fetches ++ [v]) .running) t = some
      (State.mk ((s.heap ++ [Node.mk none (c.unmarshal b).1 []]).set tk.p
          (Node.mk none pn.BusinessOrganization (pn.Children ++ [s.heap.length])))
        (s.tasks.set t (Task.mk tk.main tk.p (.added i s.heap.length)))
        (s.counter + 1) (s.fetches ++ [v]) .running) := by
    have := step_complete (@Step.add c
      (State.mk ((s.heap ++ [Node.mk none (c.unmarshal b).1 []]).set tk.p
          (Node.mk none pn.BusinessOrganization (pn.Children ++ [s.heap.length])))
        (s.tasks.set t (Task.mk tk.main tk.p (.unlocked i s.heap.length)))
        s.counter (s.fetches ++ [v]) .running) t
      (Task.mk tk.main tk.p (.unlocked i s.heap.length))
      (Node.mk none pn.BusinessOrganization (pn.Children ++ [s.heap.length]))
      i s.heap.length rfl
      (getElem?_set_same _ ht) (getElem?_set_same _ (getElem?_append_some _ hp)) rfl)
    rw [this]
    simp only [List.set_set]
  have e7 : step c
      (State.mk ((s.heap ++ [Node.mk none (c.unmarshal b).1 []]).set tk.p
          (Node.mk none pn.BusinessOrganization (pn.Children ++ [s.heap.length])))
        (s.tasks.set t (Task.mk tk.main tk.p (.added i s.heap.length)))
        (s.counter + 1) (s.fetches ++ [v]) .running) t =
      some (s.afterIteration c t tk pn i v b) := by
    have := step_complete (@Step.spawn c
      (State.mk ((s.heap ++ [Node.mk none (c.unmarshal b).1 []]).set tk.p
          (Node.mk none pn.BusinessOrganization (pn.Children ++ [s.heap.length])))
        (s.tasks.set t (Task.mk tk.main tk.p (.added i s.heap.length)))
        (s.counter + 1) (s.fetches ++ [v]) .running) t
      (Task.mk tk.main tk.p (.added i s.heap.length))
      (Node.mk none pn.BusinessOrganization (pn.Children ++ [s.heap.length]))
      i s.heap.length rfl
      (getElem?_set_same _ ht) (getElem?_set_same _ (getElem?_append_some _ hp)) rfl)
    have htasks : (s.tasks.set t (Task.mk tk.main tk.p (.added i s.heap.length)) ++
          [Task.mk false s.heap.length (.loop 0)]).set t (Task.mk tk.main tk.p (.loop (i + 1))) =
        (s.tasks ++ [Task.mk false s.heap.length (.loop 0)]).set t
          (Task.mk tk.main tk.p (.loop (i + 1))) := by
      rw [List.set_append_left _ _ (by rw [List.length_set]; exact htlt), List.set_set,
        List.set_append_left _ _ htlt]
    rw [this]
    unfold State.afterIteration
    simp only
    rw [htasks]
  have hsplit : [t, t, t, t, t, t] = [t, t, t] ++ [t, t, t] := rfl
  rw [run_cons e1, hsplit, run_append e2, run_cons e5, run_cons e6, run_cons e7]
  rfl

/-- C7 as amended: the error of `json.Unmarshal` is dropped at both call
sites.  A root payload that fails to decode still starts the build, with a
root node wrapping the record the decoder left; and in every state of a build
a goroutine holding a child payload that fails to decode creates, in its next
three steps, the node wrapping the record the decoder left and appends it to
the `Children` of its node, the process staying alive. -/
theorem decode_error_is_dropped (c : Ctx) (root : String) :
    (∀ b, getOrganizationMetrics c root = .ok b → (c.unmarshal b).2 = true →
      InitTree_start c root = .ok ⟨[Node.mk none (c.unmarshal b).1 []],
        [Task.mk true 0 (.loop 0)], 1, [root], .running⟩) ∧
    (∀ (s : State) (t : Nat) (tk : Task) (pn : Node) (i : Nat) (b : Bytes),
      Reachable c root s → s.status = .running → s.tasks[t]? = some tk →
      s.heap[tk.p]? = some pn → tk.pc = .fetched i b → (c.unmarshal b).2 = true →
      ∃ s3, run c s [t, t, t] = some s3 ∧ s3.status = .running ∧
        orgAt s3.heap s.heap.length = (c.unmarshal b).1 ∧
        childrenAt s3.heap tk.p = pn.Children ++ [s.heap.length]) := by
  constructor
  · intro b hb _
    simp [InitTree_start, hb]
  · intro s t tk pn i b hs hr ht hp hpc _
    have hm := lock_never_blocks hs ht hp (by rw [hpc]; rfl)
    have hplt : tk.p < s.heap.length := lt_of_getElem?_some hp
    refine ⟨_, run_build_append hr ht hp hpc hm, rfl, ?_, ?_⟩
    · show orgAt ((s.heap ++ [_]).set tk.p _) s.heap.length = _
      rw [orgAt_set (Node.mk (some t) pn.BusinessOrganization (pn.Children ++ [s.heap.length]))
        (getElem?_append_some _ hp) rfl, orgAt_append, Function.update_same]
    · show childrenAt ((s.heap ++ [_]).set tk.p _) tk.p = _
      rw [childrenAt_set _ (getElem?_append_some _ hp), Function.update_same]

/-- The theorem at a world whose root payload does not decode, and at the state
of a world whose child payload does not decode. -/
theorem decode_error_is_dropped_witness :
    (getOrganizationMetrics garbledRoot "root" = .ok [0] ∧
      (garbledRoot.unmarshal [0]).2 = true ∧
      InitTree_start garbledRoot "root" = .ok ⟨[Node.mk none (garbledRoot.unmarshal [0]).1 []],
        [Task.mk true 0 (.loop 0)], 1, ["root"], .running⟩) ∧
    (Reachable garbledChild "root" garbledFetched ∧ (garbledChild.unmarshal [1]).2 = true ∧
      ∃ s3, run garbledChild garbledFetched [0, 0, 0] = some s3 ∧ s3.status = .running ∧
        orgAt s3.heap garbledFetched.heap.length = (garbledChild.unmarshal [1]).1 ∧
        childrenAt s3.heap 0 = [] ++ [garbledFetched.heap.length]) :=
  have h : Reachable garbledChild "root" garbledFetched := exec_reachable [0] (by decide)
  ⟨⟨by rfl, by decide,
      (decode_error_is_dropped garbledRoot "root").1 [0] (by rfl) (by decide)⟩,
    h, by decide,
    (decode_error_is_dropped garbledChild "root").2 garbledFetched 0
      (Task.mk true 0 (.fetched 0 [1]))
      (Node.mk none (Organization.mk "root" "root" ["A"] []) []) 0 [1] h rfl rfl rfl rfl
      (by decide)⟩

/-! ## Counting over the goroutines -/

theorem sum_map_set {α : Type} (f : α → Nat) {l : List α} {t : Nat} {a : α} (b : α)
    (h : l[t]? = some a) : ((l.set t b).map f).sum + f a = (l.map f).sum + f b := by
  induction l generalizing t with
  | nil => simp at h
  | cons x xs ih =>
    cases t with
    | zero =>
      simp only [List.getElem?_cons_zero, Option.some.injEq] at h
      subst h
      simp only [List.set_cons_zero, List.map_cons, List.sum_cons]
      omega
    | succ t =>
      simp only [List.getElem?_cons_succ] at h
      have := ih h
      simp only [List.set_cons_succ, List.map_cons, List.sum_cons]
      omega

theorem filter_length_eq_sum {α : Type} (p : α → Bool) (l : List α) :
    (l.filter p).length = (l.map (fun x => if p x then 1 else 0)).sum := by
  induction l with
  | nil => rfl
  | cons x xs ih =>
    by_cases hx : p x
    · simp only [List.filter_cons_of_pos hx, List.length_cons, List.map_cons, List.sum_cons, hx,
        if_true, ih]
      omega
    · simp only [List.filter_cons_of_neg hx, List.map_cons, List.sum_cons, hx, ih]
      simp

theorem filter_length_set {α : Type} (p : α → Bool) {l : List α} {t : Nat} {a : α} (b : α)
    (h : l[t]? = some a) :
    ((l.set t b).filter p).length + (if p a then 1 else 0) =
      (l.filter p).length + (if p b then 1 else 0) := by
  rw [filter_length_eq_sum, filter_length_eq_sum]
  exact sum_map_set (fun x => if p x then 1 else 0) b h

theorem filter_length_concat {α : Type} (p : α → Bool) (l : List α) (a : α) :
    ((l ++ [a]).filter p).length = (l.filter p).length + (if p a then 1 else 0) := by
  by_cases ha : p a <;> simp [List.filter_append, ha]

/-- Counting the goroutines whose program point satisfies `q`, after one of
them moved. -/
theorem count_pc_set (q : Pc → Bool) {tasks : List Task} {t : Nat} {tk : Task} (pc1 : Pc)
    (ht : tasks[t]? = some tk) {x y : Nat} (hx : (if q tk.pc then 1 else 0) = x)
    (hy : (if q pc1 then 1 else 0) = y) :
    ((tasks.set t { tk with pc := pc1 }).filter (fun u => q u.pc)).length + x =
      (tasks.filter (fun u => q u.pc)).length + y := by
  subst hx
  subst hy
  exact filter_length_set (fun u : Task => q u.pc) _ ht

/-- Counting the goroutines whose program point satisfies `q`, after one of
them started a goroutine and moved. -/
theorem count_pc_spawn (q : Pc → Bool) {tasks : List Task} {t : Nat} {tk : Task} (pc1 : Pc)
    (new : Task) (ht : tasks[t]? = some tk) {x y z : Nat}
    (hx : (if q tk.pc then 1 else 0) = x) (hy : (if q pc1 then 1 else 0) = y)
    (hz : (if q new.pc then 1 else 0) = z) :
    (((tasks ++ [new]).set t { tk with pc := pc1 }).filter (fun u => q u.pc)).length + x =
      (tasks.filter (fun u => q u.pc)).length + y + z := by
  have e := count_pc_set q pc1 (getElem?_append_some [new] ht) hx hy
  have e2 := filter_length_concat (fun u : Task => q u.pc) tasks new
  rw [hz] at e2
  omega

/-! ## Fetches and nodes -/

/-- Every fetch has produced a node, up to the payloads waiting to become a
node and the fetch that failed, root included. -/
theorem fetch_count {c : Ctx} {root : String} {s : State} (hs : Reachable c root s) :
    s.fetches.length = s.heap.length + s.payloads + s.failedFetches := by
  induction hs with
  | init h0 =>
    obtain ⟨o, _, rfl⟩ := InitTree_start_ok h0
    rfl
  | @step s s1 t _ hst ih =>
    have hS := step_sound hst
    unfold State.payloads State.failedFetches at ih ⊢
    cases hS with
    | @fetchFail tk pn i v code hr ht hp hpc hv hf =>
      simp only [hr, List.length_append, List.length_singleton] at ih ⊢
      omega
    | @fetchOk tk pn i v b hr ht hp hpc hv hf =>
      have e := count_pc_set Pc.holdsPayload (.fetched i b) ht (x := 0) (y := 1)
        (by rw [hpc]; rfl) rfl
      simp only [hr, List.length_append, List.length_singleton] at ih ⊢
      omega
    | @donePanic tk pn i hr ht hp hpc hv hc =>
      simp only [hr] at ih ⊢
      omega
    | @done tk pn i hr ht hp hpc hv hc =>
      have e := count_pc_set Pc.holdsPayload (if tk.main then .afterCall else .finished) ht
        (x := 0) (y := 0) (by rw [hpc]; rfl) (by cases tk.main <;> rfl)
      simp only [hr] at ih ⊢
      omega
    | @build tk pn i b hr ht hp hpc =>
      have e := count_pc_set Pc.holdsPayload (.built i s.heap.length) ht (x := 1) (y := 0)
        (by rw [hpc]; rfl) rfl
      simp only [hr, List.length_append, List.length_singleton] at ih ⊢
      omega
    | @lock tk pn i n hr ht hp hpc hm =>
      have e := count_pc_set Pc.holdsPayload (.locked i n) ht (x := 0) (y := 0)
        (by rw [hpc]; rfl) rfl
      simp only [hr, List.length_set] at ih ⊢
      omega
    | @append tk pn i n hr ht hp hpc =>
      have e := count_pc_set Pc.holdsPayload (.appended i n) ht (x := 0) (y := 0)
        (by rw [hpc]; rfl) rfl
      simp only [hr, List.length_set] at ih ⊢
      omega
    | @unlock tk pn i n hr ht hp hpc =>
      have e := count_pc_set Pc.holdsPayload (.unlocked i n) ht (x := 0) (y := 0)
        (by rw [hpc]; rfl) rfl
      simp only [hr, List.length_set] at ih ⊢
      omega
    | @add tk pn i n hr ht hp hpc =>
      have e := count_pc_set Pc.holdsPayload (.added i n) ht (x := 0) (y := 0)
        (by rw [hpc]; rfl) rfl
      simp only [hr] at ih ⊢
      omega
    | @spawn tk pn i n hr ht hp hpc =>
      have e := count_pc_spawn Pc.holdsPayload (.loop (i + 1)) (Task.mk false n (.loop 0)) ht
        (x := 0) (y := 0) (z := 0) (by rw [hpc]; rfl) rfl rfl
      simp only [hr] at ih ⊢
      omega
    | @retPanic tk pn hr ht hp hpc hc =>
      simp only [hr] at ih ⊢
      omega
    | @ret tk pn hr ht hp hpc hc =>
      have e := count_pc_set Pc.holdsPayload .returned ht (x := 0) (y := 0)
        (by rw [hpc]; rfl) rfl
      simp only [hr] at ih ⊢
      omega

/-- Every node belongs to a goroutine that expands it, or to one that has
created it and not yet started its goroutine. -/
theorem node_count {c : Ctx} {root : String} {s : State} (hs : Reachable c root s) :
    s.tasks.length + s.pendingNodes = s.heap.length := by
  induction hs with
  | init h0 =>
    obtain ⟨o, _, rfl⟩ := InitTree_start_ok h0
    rfl
  | @step s s1 t _ hst ih =>
    have hS := step_sound hst
    unfold State.pendingNodes at ih ⊢
    cases hS with
    | @fetchFail tk pn i v code hr ht hp hpc hv hf => exact ih
    | @fetchOk tk pn i v b hr ht hp hpc hv hf =>
      have e := count_pc_set Pc.holdsNode (.fetched i b) ht (x := 0) (y := 0)
        (by rw [hpc]; rfl) rfl
      simp only [List.length_set] at ih ⊢
      omega
    | @donePanic tk pn i hr ht hp hpc hv hc => exact ih
    | @done tk pn i hr ht hp hpc hv hc =>
      have e := count_pc_set Pc.holdsNode (if tk.main then .afterCall else .finished) ht
        (x := 0) (y := 0) (by rw [hpc]; rfl) (by cases tk.main <;> rfl)
      simp only [List.length_set] at ih ⊢
      omega
    | @build tk pn i b hr ht hp hpc =>
      have e := count_pc_set Pc.holdsNode (.built i s.heap.length) ht (x := 0) (y := 1)
        (by rw [hpc]; rfl) rfl
      simp only [List.length_set, List.length_append, List.length_singleton] at ih ⊢
      omega
    | @lock tk pn i n hr ht hp hpc hm =>
      have e := count_pc_set Pc.holdsNode (.locked i n) ht (x := 1) (y := 1)
        (by rw [hpc]; rfl) rfl
      simp only [List.length_set] at ih ⊢
      omega
    | @append tk pn i n hr ht hp hpc =>
      have e := count_pc_set Pc.holdsNode (.appended i n) ht (x := 1) (y := 1)
        (by rw [hpc]; rfl) rfl
      simp only [List.length_set] at ih ⊢
      omega
    | @unlock tk pn i n hr ht hp hpc =>
      have e := count_pc_set Pc.holdsNode (.unlocked i n) ht (x := 1) (y := 1)
        (by rw [hpc]; rfl) rfl
      simp only [List.length_set] at ih ⊢
      omega
    | @add tk pn i n hr ht hp hpc =>
      have e := count_pc_set Pc.holdsNode (.added i n) ht (x := 1) (y := 1)
        (by rw [hpc]; rfl) rfl
      simp only [List.length_set] at ih ⊢
      omega
    | @spawn tk pn i n hr ht hp hpc =>
      have e := count_pc_spawn Pc.holdsNode (.loop (i + 1)) (Task.mk false n (.loop 0)) ht
        (x := 1) (y := 0) (z := 0) (by rw [hpc]; rfl) rfl rfl
      simp only [List.length_set, List.length_append, List.length_singleton] at ih ⊢
      omega
    | @retPanic tk pn hr ht hp hpc hc => exact ih
    | @ret tk pn hr ht hp hpc hc =>
      have e := count_pc_set Pc.holdsNode .returned ht (x := 0) (y := 0)
        (by rw [hpc]; rfl) rfl
      simp only [List.length_set] at ih ⊢
      omega

/-! ## The WaitGroup counter -/

/-- While the process is alive the counter is not negative, and it equals the
number of expansion tasks started and not completed, plus the tasks counted by
`g.Add(1)` and not yet started, minus one once line 61 has run. -/
theorem counter_value {c : Ctx} {root : String} {s : State} (hs : Reachable c root s)
    (hr : s.status = .running) :
    0 ≤ s.counter ∧ s.counter + s.extraDone = s.outstanding + s.announced := by
  induction hs with
  | init h0 =>
    obtain ⟨o, _, rfl⟩ := InitTree_start_ok h0
    exact ⟨by show (0 : Int) ≤ 1; omega, rfl⟩
  | @step s s1 t _ hst ih =>
    have hS := step_sound hst
    unfold State.extraDone State.outstanding State.announced at ih ⊢
    cases hS with
    | @fetchFail tk pn i v code hr0 ht hp hpc hv hf => cases hr
    | @donePanic tk pn i hr0 ht hp hpc hv hc => cases hr
    | @retPanic tk pn hr0 ht hp hpc hc => cases hr
    | @fetchOk tk pn i v b hr0 ht hp hpc hv hf =>
      have ih := ih hr0
      have e1 := count_pc_set Pc.isReturned (.fetched i b) ht (x := 0) (y := 0)
        (by rw [hpc]; rfl) rfl
      have e2 := count_pc_set Pc.active (.fetched i b) ht (x := 1) (y := 1)
        (by rw [hpc]; rfl) rfl
      have e3 := count_pc_set Pc.announcing (.fetched i b) ht (x := 0) (y := 0)
        (by rw [hpc]; rfl) rfl
      simp only at ih ⊢
      omega
    | @done tk pn i hr0 ht hp hpc hv hc =>
      have ih := ih hr0
      have e1 := count_pc_set Pc.isReturned (if tk.main then .afterCall else .finished) ht
        (x := 0) (y := 0) (by rw [hpc]; rfl) (by cases tk.main <;> rfl)
      have e2 := count_pc_set Pc.active (if tk.main then .afterCall else .finished) ht
        (x := 1) (y := 0) (by rw [hpc]; rfl) (by cases tk.main <;> rfl)
      have e3 := count_pc_set Pc.announcing (if tk.main then .afterCall else .finished) ht
        (x := 0) (y := 0) (by rw [hpc]; rfl) (by cases tk.main <;> rfl)
      simp only at ih ⊢
      omega
    | @build tk pn i b hr0 ht hp hpc =>
      have ih := ih hr0
      have e1 := count_pc_set Pc.isReturned (.built i s.heap.length) ht (x := 0) (y := 0)
        (by rw [hpc]; rfl) rfl
      have e2 := count_pc_set Pc.active (.built i s.heap.length) ht (x := 1) (y := 1)
        (by rw [hpc]; rfl) rfl
      have e3 := count_pc_set Pc.announcing (.built i s.heap.length) ht (x := 0) (y := 0)
        (by rw [hpc]; rfl) rfl
      simp only at ih ⊢
      omega
    | @lock tk pn i n hr0 ht hp hpc hm =>
      have ih := ih hr0
      have e1 := count_pc_set Pc.isReturned (.locked i n) ht (x := 0) (y := 0)
        (by rw [hpc]; rfl) rfl
      have e2 := count_pc_set Pc.active (.locked i n) ht (x := 1) (y := 1)
        (by rw [hpc]; rfl) rfl
      have e3 := count_pc_set Pc.announcing (.locked i n) ht (x := 0) (y := 0)
        (by rw [hpc]; rfl) rfl
      simp only at ih ⊢
      omega
    | @append tk pn i n hr0 ht hp hpc =>
      have ih := ih hr0
      have e1 := count_pc_set Pc.isReturned (.appended i n) ht (x := 0) (y := 0)
        (by rw [hpc]; rfl) rfl
      have e2 := count_pc_set Pc.active (.appended i n) ht (x := 1) (y := 1)
        (by rw [hpc]; rfl) rfl
      have e3 := count_pc_set Pc.announcing (.appended i n) ht (x := 0) (y := 0)
        (by rw [hpc]; rfl) rfl
      simp only at ih ⊢
      omega
    | @unlock tk pn i n hr0 ht hp hpc =>
      have ih := ih hr0
      have e1 := count_pc_set Pc.isReturned (.unlocked i n) ht (x := 0) (y := 0)
        (by rw [hpc]; rfl) rfl
      have e2 := count_pc_set Pc.active (.unlocked i n) ht (x := 1) (y := 1)
        (by rw [hpc]; rfl) rfl
      have e3 := count_pc_set Pc.announcing (.unlocked i n) ht (x := 0) (y := 0)
        (by rw [hpc]; rfl) rfl
      simp only at ih ⊢
      omega
    | @add tk pn i n hr0 ht hp hpc =>
      have ih := ih hr0
      have e1 := count_pc_set Pc.isReturned (.added i n) ht (x := 0) (y := 0)
        (by rw [hpc]; rfl) rfl
      have e2 := count_pc_set Pc.active (.added i n) ht (x := 1) (y := 1)
        (by rw [hpc]; rfl) rfl
      have e3 := count_pc_set Pc.announcing (.added i n) ht (x := 0) (y := 1)
        (by rw [hpc]; rfl) rfl
      simp only at ih ⊢
      omega
    | @spawn tk pn i n hr0 ht hp hpc =>
      have ih := ih hr0
      have e1 := count_pc_spawn Pc.isReturned (.loop (i + 1)) (Task.mk false n (.loop 0)) ht
        (x := 0) (y := 0) (z := 0) (by rw [hpc]; rfl) rfl rfl
      have e2 := count_pc_spawn Pc.active (.loop (i + 1)) (Task.mk false n (.loop 0)) ht
        (x := 1) (y := 1) (z := 1) (by rw [hpc]; rfl) rfl rfl
      have e3 := count_pc_spawn Pc.announcing (.loop (i + 1)) (Task.mk false n (.loop 0)) ht
        (x := 1) (y := 0) (z := 0) (by rw [hpc]; rfl) rfl rfl
      simp only at ih ⊢
      omega
    | @ret tk pn hr0 ht hp hpc hc =>
      have ih := ih hr0
      have e1 := count_pc_set Pc.isReturned .returned ht (x := 0) (y := 1)
        (by rw [hpc]; rfl) rfl
      have e2 := count_pc_set Pc.active .returned ht (x := 0) (y := 0)
        (by rw [hpc]; rfl) rfl
      have e3 := count_pc_set Pc.announcing .returned ht (x := 0) (y := 0)
        (by rw [hpc]; rfl) rfl
      simp only at ih ⊢
      omega

/-! ## Consequences of the counter invariant -/

theorem filter_length_mono {α : Type} (p q : α → Bool) (h : ∀ x, p x = true → q x = true)
    (l : List α) : (l.filter p).length ≤ (l.filter q).length := by
  induction l with
  | nil => simp
  | cons x xs ih =>
    by_cases hp : p x = true
    · rw [List.filter_cons_of_pos hp, List.filter_cons_of_pos (h x hp)]
      simp only [List.length_cons]
      omega
    · rw [List.filter_cons_of_neg hp]
      by_cases hq : q x = true
      · rw [List.filter_cons_of_pos hq]
        simp only [List.length_cons]
        omega
      · rw [List.filter_cons_of_neg hq]
        exact ih

/-- Whenever `InitTree` has returned and the process is alive, at least one
expansion task is still outstanding: line 61 decrements the counter instead of
waiting for it, and a process in which every task has completed cannot get
past line 61 without the panic. -/
theorem returned_leaves_task_outstanding {c : Ctx} {root : String} {s : State}
    (hs : Reachable c root s) (hr : s.status = .running) (hret : s.mainReturned = true) :
    1 ≤ s.outstanding := by
  obtain ⟨h0, h1⟩ := counter_value hs hr
  have h2 : 1 ≤ s.extraDone := by
    unfold State.mainReturned at hret
    unfold State.extraDone
    rw [List.any_eq_true] at hret
    obtain ⟨tk, hmem, htk⟩ := hret
    have : tk ∈ s.tasks.filter (fun tk => tk.pc.isReturned) := List.mem_filter.mpr ⟨hmem, htk⟩
    exact List.length_pos_of_mem this
  have h3 : s.announced ≤ s.outstanding := by
    unfold State.announced State.outstanding
    apply filter_length_mono
    intro tk h
    cases hpc : tk.pc <;> rw [hpc] at h <;> first | rfl | cases h
  omega

/-! ## Reference paths of bounded length -/

theorem Within.weaken {c : Ctx} {d : Nat} {o : Organization} (h : Within c d o) :
    ∀ e, d ≤ e → Within c e o := by
  induction d generalizing o with
  | zero =>
    intro e _
    cases e with
    | zero => exact h
    | succ e =>
      intro v hv
      rw [show o.SubOrganizationIds = [] from h] at hv
      cases hv
  | succ d ih =>
    intro e he
    cases e with
    | zero => omega
    | succ e =>
      intro v hv
      exact ih (h v hv) e (by omega)

theorem Within.child {c : Ctx} {d : Nat} {o : Organization} (h : Within c d o) {v : String}
    (hv : v ∈ o.SubOrganizationIds) : Within c d (orgOf c v) := by
  cases d with
  | zero =>
    rw [show o.SubOrganizationIds = [] from h] at hv
    cases hv
  | succ d => exact (h v hv).weaken (d + 1) (by omega)

theorem total_stable {c : Ctx} {d : Nat} {o : Organization} (h : Within c d o) :
    ∀ e, d ≤ e → total c e o = total c d o := by
  induction d generalizing o with
  | zero =>
    intro e _
    have hnil : o.SubOrganizationIds = [] := h
    cases e with
    | zero => rfl
    | succ e => simp [total, hnil]
  | succ d ih =>
    intro e he
    cases e with
    | zero => omega
    | succ e =>
      simp only [total]
      congr 2
      apply List.map_congr_left
      intro v hv
      exact ih (h v hv) e (by omega)

/-- Below the depth bound the size of the unfolding is one plus the sizes of
the unfoldings of the references. -/
theorem total_rec {c : Ctx} {d : Nat} {o : Organization} (h : Within c d o) :
    total c d o = 1 + (o.SubOrganizationIds.map (fun v => total c d (orgOf c v))).sum := by
  cases d with
  | zero =>
    have hnil : o.SubOrganizationIds = [] := h
    simp [total, hnil]
  | succ d =>
    simp only [total]
    congr 2
    apply List.map_congr_left
    intro v hv
    exact (total_stable (h v hv) (d + 1) (by omega)).symm

theorem total_pos (c : Ctx) (d : Nat) (o : Organization) : 1 ≤ total c d o := by
  cases d <;> simp [total]

theorem size_unfold (c : Ctx) (d : Nat) (o : Organization) :
    (unfold c d o).size = total c d o := by
  induction d generalizing o with
  | zero => rfl
  | succ d ih =>
    simp only [unfold, OrgTree.size, total]
    congr 1
    generalize o.SubOrganizationIds = ids
    induction ids with
    | nil => rfl
    | cons v vs ihv =>
      simp only [List.map_cons, OrgTree.sizeList, List.sum_cons, ih, ihv]

/-! ## The nodes still to come -/

theorem restTotal_of_le {c : Ctx} {d : Nat} {ids : List String} {k : Nat}
    (h : ids.length ≤ k) : restTotal c d ids k = 0 := by
  unfold restTotal
  rw [List.drop_eq_nil_of_le h]
  rfl

theorem restTotal_step {c : Ctx} {d : Nat} {ids : List String} {k : Nat} {v : String}
    (h : ids[k]? = some v) :
    restTotal c d ids k = total c d (orgOf c v) + restTotal c d ids (k + 1) := by
  unfold restTotal
  obtain ⟨hlt, hv⟩ := List.getElem?_eq_some.mp h
  rw [List.drop_eq_getElem_cons hlt, hv]
  rfl

theorem remaining_congr {c : Ctx} {d : Nat} {org org1 : Nat → Organization} {len : Nat}
    (h : ∀ n, n < len → org1 n = org n) {tk : Task} (hp : tk.p < len)
    (hn : ∀ n, tk.pc.pending = some n → n < len) :
    remaining c d org1 tk = remaining c d org tk := by
  unfold remaining
  rw [h tk.p hp]
  cases hpend : tk.pc.pending with
  | none => rfl
  | some n => simp only [h n (hn n hpend)]

/-- The nodes of the heap and the nodes still to come add up to the size of
the unfolding from the root, when no reference path from the root has more
than `d` steps; and every node is within that bound. -/
theorem potential {c : Ctx} {root : String} {d : Nat} {s : State} (hs : Reachable c root s)
    (hd : Within c d (orgOf c root)) :
    (∀ n, n < s.heap.length → Within c d (orgAt s.heap n)) ∧
    s.heap.length + (s.tasks.map (remaining c d (orgAt s.heap))).sum =
      total c d (orgOf c root) := by
  induction hs with
  | init h0 =>
    obtain ⟨o, ho, rfl⟩ := InitTree_start_ok h0
    rw [orgOf_of_fetch ho] at hd ⊢
    constructor
    · intro n hn
      have : n = 0 := by simpa using hn
      subst this
      exact hd
    · rw [total_rec hd]
      simp [remaining, Pc.unfetched, Pc.pending, restTotal, orgAt]
  | @step s s1 t hs0 hst ih =>
    have hS := step_sound hst
    have hw := shape_invariant hs0
    obtain ⟨ihW, ihP⟩ := ih
    -- a step that leaves the heap alone and does not change what is left to do
    have same : ∀ (tk : Task) (pc1 : Pc), s.tasks[t]? = some tk →
        remaining c d (orgAt s.heap) (Task.mk tk.main tk.p pc1) =
          remaining c d (orgAt s.heap) tk →
        s.heap.length +
          ((s.tasks.set t (Task.mk tk.main tk.p pc1)).map (remaining c d (orgAt s.heap))).sum =
          total c d (orgOf c root) := by
      intro tk pc1 ht he
      have := sum_map_set (remaining c d (orgAt s.heap)) (Task.mk tk.main tk.p pc1) ht
      omega
    cases hS with
    | fetchFail hr ht hp hpc hv hf => exact ⟨ihW, ihP⟩
    | donePanic hr ht hp hpc hv hc => exact ⟨ihW, ihP⟩
    | retPanic hr ht hp hpc hc => exact ⟨ihW, ihP⟩
    | @fetchOk tk pn i v b hr ht hp hpc hv hf =>
      refine ⟨ihW, same tk _ ht ?_⟩
      simp [remaining, hpc, Pc.unfetched, Pc.pending]
    | @done tk pn i hr ht hp hpc hv hc =>
      refine ⟨ihW, same tk _ ht ?_⟩
      have hz : restTotal c d (orgAt s.heap tk.p).SubOrganizationIds i = 0 := by
        rw [orgAt_of_getElem? hp]
        exact restTotal_of_le (List.getElem?_eq_none_iff.mp hv)
      cases tk.main <;> simp [remaining, hpc, Pc.unfetched, Pc.pending, hz]
    | @add tk pn i n hr ht hp hpc =>
      refine ⟨ihW, same tk _ ht ?_⟩
      simp [remaining, hpc, Pc.unfetched, Pc.pending]
    | @ret tk pn hr ht hp hpc hc =>
      refine ⟨ihW, same tk _ ht ?_⟩
      simp [remaining, hpc, Pc.unfetched, Pc.pending]
    | @lock tk pn i n hr ht hp hpc hm =>
      have ho := orgAt_set (Node.mk (some t) pn.BusinessOrganization pn.Children) hp rfl
      simp only [List.length_set]
      rw [ho]
      refine ⟨ihW, same tk _ ht ?_⟩
      simp [remaining, hpc, Pc.unfetched, Pc.pending]
    | @unlock tk pn i n hr ht hp hpc =>
      have ho := orgAt_set (Node.mk none pn.BusinessOrganization pn.Children) hp rfl
      simp only [List.length_set]
      rw [ho]
      refine ⟨ihW, same tk _ ht ?_⟩
      simp [remaining, hpc, Pc.unfetched, Pc.pending]
    | @append tk pn i n hr ht hp hpc =>
      have ho := orgAt_set (Node.mk pn.mux pn.BusinessOrganization (pn.Children ++ [n])) hp rfl
      simp only [List.length_set]
      rw [ho]
      refine ⟨ihW, same tk _ ht ?_⟩
      simp [remaining, hpc, Pc.unfetched, Pc.pending]
    | @spawn tk pn i n hr ht hp hpc =>
      refine ⟨ihW, ?_⟩
      have hn : n < s.heap.length := hw.bound t tk n ht (Or.inr (by rw [hpc]; rfl))
      have e := sum_map_set (remaining c d (orgAt s.heap)) (Task.mk tk.main tk.p (.loop (i + 1)))
        (getElem?_append_some [Task.mk false n (.loop 0)] ht)
      have hnew : remaining c d (orgAt s.heap) (Task.mk false n (.loop 0)) + 1 =
          total c d (orgAt s.heap n) := by
        rw [total_rec (ihW n hn)]
        simp [remaining, Pc.unfetched, Pc.pending, restTotal]
        omega
      have hold : remaining c d (orgAt s.heap) tk =
          restTotal c d (orgAt s.heap tk.p).SubOrganizationIds (i + 1) +
            (total c d (orgAt s.heap n) - 1) := by
        simp [remaining, hpc, Pc.unfetched, Pc.pending]
      have hnext : remaining c d (orgAt s.heap) (Task.mk tk.main tk.p (.loop (i + 1))) =
          restTotal c d (orgAt s.heap tk.p).SubOrganizationIds (i + 1) := by
        simp [remaining, Pc.unfetched, Pc.pending]
      simp only [List.map_append, List.map_cons, List.map_nil, List.sum_append, List.sum_cons,
        List.sum_nil] at e
      have hpos := total_pos c d (orgAt s.heap n)
      simp only
      omega
    | @build tk pn i b hr ht hp hpc =>
      have hprog := hw.progress t tk ht
      rw [hpc] at hprog
      obtain ⟨_, _, v, hv, hf⟩ := hprog
      have hov : orgOf c v = (c.unmarshal b).1 := orgOf_of_fetch (fetchOrganization_ok hf)
      have hagree : ∀ n, n < s.heap.length →
          orgAt (s.heap ++ [Node.mk none (c.unmarshal b).1 []]) n = orgAt s.heap n := by
        intro n hn
        rw [orgAt_append, Function.update_noteq (by omega)]
      have hplt : tk.p < s.heap.length := lt_of_getElem?_some hp
      constructor
      · intro n hn
        simp only [List.length_append, List.length_singleton] at hn
        by_cases hnl : n = s.heap.length
        · subst hnl
          show Within c d (orgAt (s.heap ++ [_]) s.heap.length)
          rw [orgAt_append, Function.update_same]
          show Within c d (c.unmarshal b).1
          rw [← hov]
          exact (ihW tk.p hplt).child (List.getElem?_mem hv)
        · show Within c d (orgAt (s.heap ++ [_]) n)
          rw [hagree n (by omega)]
          exact ihW n (by omega)
      · have e := sum_map_set
          (remaining c d (orgAt (s.heap ++ [Node.mk none (c.unmarshal b).1 []])))
          (Task.mk tk.main tk.p (.built i s.heap.length)) ht
        have hmap : s.tasks.map
              (remaining c d (orgAt (s.heap ++ [Node.mk none (c.unmarshal b).1 []]))) =
            s.tasks.map (remaining c d (orgAt s.heap)) := by
          apply List.map_congr_left
          intro u hu
          obtain ⟨k, hk⟩ := List.mem_iff_getElem?.mp hu
          exact remaining_congr hagree (hw.bound k u u.p hk (Or.inl rfl))
            (fun n hn => hw.bound k u n hk (Or.inr hn))
        rw [hmap] at e
        have h1 : remaining c d (orgAt (s.heap ++ [Node.mk none (c.unmarshal b).1 []])) tk =
            remaining c d (orgAt s.heap) tk :=
          remaining_congr hagree hplt (fun n hn => hw.bound t tk n ht (Or.inr hn))
        have h2 : remaining c d (orgAt s.heap) tk =
            total c d (orgOf c v) +
              restTotal c d (orgAt s.heap tk.p).SubOrganizationIds (i + 1) := by
          simp only [remaining, hpc, Pc.unfetched, Pc.pending]
          rw [restTotal_step hv]
          omega
        have h3 : remaining c d (orgAt (s.heap ++ [Node.mk none (c.unmarshal b).1 []]))
            (Task.mk tk.main tk.p (.built i s.heap.length)) =
            restTotal c d (orgAt s.heap tk.p).SubOrganizationIds (i + 1) +
              (total c d (orgOf c v) - 1) := by
          simp only [remaining, Pc.unfetched, Pc.pending]
          rw [hagree tk.p hplt, orgAt_append, Function.update_same, hov]
        have hpos := total_pos c d (orgOf c v)
        simp only [List.length_append, List.length_singleton]
        omega

/-! ## No node is linked twice -/

/-- The goroutine of `InitTree` is goroutine 0 and expands node 0. -/
theorem main_task {c : Ctx} {root : String} {s : State} (hs : Reachable c root s) :
    ∃ tk : Task, s.tasks[0]? = some tk ∧ tk.p = 0 ∧ tk.main = true := by
  induction hs with
  | init h0 =>
    obtain ⟨o, _, rfl⟩ := InitTree_start_ok h0
    exact ⟨_, rfl, rfl, rfl⟩
  | @step s s1 t _ hst ih =>
    obtain ⟨tk0, h0, hp0, hm0⟩ := ih
    have key : ∀ (tk : Task) (pc1 : Pc) (extra : List Task), s.tasks[t]? = some tk →
        ∃ x : Task, ((s.tasks ++ extra).set t (Task.mk tk.main tk.p pc1))[0]? = some x ∧
          x.p = 0 ∧ x.main = true := by
      intro tk pc1 extra ht
      by_cases h : t = 0
      · subst h
        rw [h0] at ht
        cases ht
        exact ⟨_, getElem?_set_same _ (getElem?_append_some _ h0), hp0, hm0⟩
      · exact ⟨tk0, by rw [getElem?_set_other _ (Ne.symm h)]; exact getElem?_append_some _ h0,
          hp0, hm0⟩
    have hS := step_sound hst
    cases hS with
    | fetchFail hr ht hp hpc hv hf => exact ⟨tk0, h0, hp0, hm0⟩
    | donePanic hr ht hp hpc hv hc => exact ⟨tk0, h0, hp0, hm0⟩
    | retPanic hr ht hp hpc hc => exact ⟨tk0, h0, hp0, hm0⟩
    | fetchOk hr ht hp hpc hv hf => simpa using key _ (.fetched _ _) [] ht
    | @done tk pn i hr ht hp hpc hv hc =>
      simpa using key tk (if tk.main then .afterCall else .finished) [] ht
    | build hr ht hp hpc => simpa using key _ (.built _ _) [] ht
    | lock hr ht hp hpc hm => simpa using key _ (.locked _ _) [] ht
    | append hr ht hp hpc => simpa using key _ (.appended _ _) [] ht
    | unlock hr ht hp hpc => simpa using key _ (.unlocked _ _) [] ht
    | add hr ht hp hpc => simpa using key _ (.added _ _) [] ht
    | spawn hr ht hp hpc => exact key _ (.loop _) _ ht
    | ret hr ht hp hpc hc => simpa using key _ .returned [] ht

theorem childrenAt_out {heap : List Node} {n : Nat} (h : heap.length ≤ n) :
    childrenAt heap n = [] := by
  simp [childrenAt, List.getElem?_eq_none h]

/-- Children are nodes of the heap. -/
theorem WF.child_lt {c : Ctx} {heap : List Node} {tasks : List Task}
    (h : WF c heap.length (orgAt heap) (childrenAt heap) tasks) {p j ch : Nat}
    (hch : (childrenAt heap p)[j]? = some ch) : ch < heap.length := by
  by_cases hp : p < heap.length
  · obtain ⟨t, tk, ht, ho⟩ := h.cover p hp
    rcases ho with ho | ho
    · subst ho
      exact ((h.progress t tk ht).2.1 j ch hch).1
    · rw [h.blank t tk p ht ho] at hch
      simp at hch
  · rw [childrenAt_out (by omega)] at hch
    simp at hch

theorem unshared {c : Ctx} {root : String} {s : State} (hs : Reachable c root s) :
    Unshared (childrenAt s.heap) s.tasks := by
  induction hs with
  | init h0 =>
    obtain ⟨o, _, rfl⟩ := InitTree_start_ok h0
    have hk : ∀ p : Nat, childrenAt [Node.mk none o []] p = [] := by
      intro p
      cases p <;> simp [childrenAt]
    constructor
    · intro p1 j1 p2 j2 n h1
      rw [hk] at h1
      simp at h1
    · intro t tk i n ht hpc
      cases t with
      | zero =>
        simp only [List.getElem?_cons_zero, Option.some.injEq] at ht
        subst ht
        rcases hpc with h | h <;> cases h
      | succ t => simp at ht
    · intro p j h
      rw [hk] at h
      simp at h
  | @step s s1 t hs0 hst ih =>
    have hS := step_sound hst
    have hw := shape_invariant hs0
    -- the heap keeps its children and `t` moves to a point where it holds no unlinked node
    have quiet : ∀ (tk : Task) (pc1 : Pc) (extra : List Task), s.tasks[t]? = some tk →
        (∀ i n, pc1 ≠ .built i n ∧ pc1 ≠ .locked i n) →
        (∀ x ∈ extra, ∀ i n, x.pc ≠ .built i n ∧ x.pc ≠ .locked i n) →
        Unshared (childrenAt s.heap) ((s.tasks ++ extra).set t (Task.mk tk.main tk.p pc1)) := by
      intro tk pc1 extra ht hpc1 hextra
      refine ⟨ih.once, ?_, ih.rootFree⟩
      intro u x i n hu hx
      rcases getElem?_set_cases hu with ⟨_, rfl⟩ | ⟨hne, hu1⟩
      · rcases hx with hx | hx
        · exact absurd hx (hpc1 i n).1
        · exact absurd hx (hpc1 i n).2
      · by_cases hlt : u < s.tasks.length
        · rw [List.getElem?_append_left hlt] at hu1
          exact ih.unlinked u x i n hu1 hx
        · rw [List.getElem?_append_right (by omega)] at hu1
          have hmem := List.getElem?_mem hu1
          rcases hx with hx | hx
          · exact absurd hx (hextra x hmem i n).1
          · exact absurd hx (hextra x hmem i n).2
    cases hS with
    | fetchFail hr ht hp hpc hv hf => exact ih
    | donePanic hr ht hp hpc hv hc => exact ih
    | retPanic hr ht hp hpc hc => exact ih
    | @fetchOk tk pn i v b hr ht hp hpc hv hf =>
      have := quiet tk (.fetched i b) [] ht (by intro i n; constructor <;> simp)
        (by intro x hx; cases hx)
      simpa using this
    | @done tk pn i hr ht hp hpc hv hc =>
      have := quiet tk (if tk.main then .afterCall else .finished) [] ht
        (by intro i n; cases tk.main <;> constructor <;> simp) (by intro x hx; cases hx)
      simpa using this
    | @add tk pn i n hr ht hp hpc =>
      have := quiet tk (.added i n) [] ht (by intro i n; constructor <;> simp)
        (by intro x hx; cases hx)
      simpa using this
    | @ret tk pn hr ht hp hpc hc =>
      have := quiet tk .returned [] ht (by intro i n; constructor <;> simp)
        (by intro x hx; cases hx)
      simpa using this
    | @spawn tk pn i n hr ht hp hpc =>
      refine quiet tk (.loop (i + 1)) _ ht (by intro i n; constructor <;> simp) ?_
      intro x hx i2 n2
      simp only [List.mem_singleton] at hx
      subst hx
      constructor <;> simp
    | @unlock tk pn i n hr ht hp hpc =>
      have hk : childrenAt (s.heap.set tk.p (Node.mk none pn.BusinessOrganization pn.Children)) =
          childrenAt s.heap := by
        rw [childrenAt_set _ hp, ← childrenAt_of_getElem? hp, Function.update_eq_self]
      have := quiet tk (.unlocked i n) [] ht (by intro i n; constructor <;> simp)
        (by intro x hx; cases hx)
      show Unshared (childrenAt (s.heap.set tk.p _)) _
      rw [hk]
      simpa using this
    | @lock tk pn i n hr ht hp hpc hm =>
      have hk : childrenAt (s.heap.set tk.p
          (Node.mk (some t) pn.BusinessOrganization pn.Children)) = childrenAt s.heap := by
        rw [childrenAt_set _ hp, ← childrenAt_of_getElem? hp, Function.update_eq_self]
      show Unshared (childrenAt (s.heap.set tk.p _)) _
      rw [hk]
      refine ⟨ih.once, ?_, ih.rootFree⟩
      intro u x i2 n2 hu hx
      rcases getElem?_set_cases hu with ⟨_, rfl⟩ | ⟨hne, hu1⟩
      · rcases hx with hx | hx
        · cases hx
        · cases hx
          exact ih.unlinked t tk i n ht (Or.inl hpc)
      · exact ih.unlinked u x i2 n2 hu1 hx
    | @build tk pn i b hr ht hp hpc =>
      have hk : childrenAt (s.heap ++ [Node.mk none (c.unmarshal b).1 []]) =
          childrenAt s.heap := by
        rw [childrenAt_append]
        have : ([] : List Nat) = childrenAt s.heap s.heap.length :=
          (childrenAt_out (le_refl _)).symm
        show Function.update (childrenAt s.heap) s.heap.length [] = _
        rw [this, Function.update_eq_self]
      show Unshared (childrenAt (s.heap ++ [_])) _
      rw [hk]
      refine ⟨ih.once, ?_, ih.rootFree⟩
      intro u x i2 n2 hu hx
      rcases getElem?_set_cases hu with ⟨_, rfl⟩ | ⟨hne, hu1⟩
      · rcases hx with hx | hx
        · cases hx
          intro p j hch
          have := hw.child_lt hch
          omega
        · cases hx
      · exact ih.unlinked u x i2 n2 hu1 hx
    | @append tk pn i n hr ht hp hpc =>
      have hk : childrenAt (s.heap.set tk.p
          (Node.mk pn.mux pn.BusinessOrganization (pn.Children ++ [n]))) =
          Function.update (childrenAt s.heap) tk.p (childrenAt s.heap tk.p ++ [n]) := by
        rw [childrenAt_set _ hp, childrenAt_of_getElem? hp]
      show Unshared (childrenAt (s.heap.set tk.p _)) _
      rw [hk]
      have hnew := ih.unlinked t tk i n ht (Or.inr hpc)
      -- an entry of the new children is an old entry or the appended one
      have entry : ∀ (q j m : Nat),
          (Function.update (childrenAt s.heap) tk.p (childrenAt s.heap tk.p ++ [n]) q)[j]? =
            some m →
          (childrenAt s.heap q)[j]? = some m ∨
            (q = tk.p ∧ j = (childrenAt s.heap tk.p).length ∧ m = n) := by
        intro q j m h
        by_cases hq : q = tk.p
        · subst hq
          rw [Function.update_same] at h
          rcases getElem?_concat_cases h with h1 | ⟨h1, h2⟩
          · exact Or.inl h1
          · exact Or.inr ⟨rfl, h1, h2⟩
        · rw [Function.update_noteq hq] at h
          exact Or.inl h
      constructor
      · intro p1 j1 p2 j2 m h1 h2
        rcases entry p1 j1 m h1 with a1 | ⟨rfl, rfl, rfl⟩
        · rcases entry p2 j2 m h2 with a2 | ⟨rfl, rfl, rfl⟩
          · exact ih.once p1 j1 p2 j2 m a1 a2
          · exact absurd a1 (hnew p1 j1)
        · rcases entry p2 j2 _ h2 with a2 | ⟨rfl, rfl, _⟩
          · exact absurd a2 (hnew p2 j2)
          · exact ⟨rfl, rfl⟩
      · intro u x i2 n2 hu hx p j hch
        rcases getElem?_set_cases hu with ⟨_, rfl⟩ | ⟨hne, hu1⟩
        · rcases hx with hx | hx <;> cases hx
        · rcases entry p j n2 hch with a | ⟨_, _, rfl⟩
          · exact ih.unlinked u x i2 n2 hu1 hx p j a
          · apply hne
            apply hw.unique u t x tk n2 hu1 ht
            · right
              rcases hx with hx | hx <;> rw [hx] <;> rfl
            · right
              rw [hpc]
              rfl
      · intro p j hch
        rcases entry p j 0 hch with a | ⟨_, _, h0⟩
        · exact ih.rootFree p j a
        · obtain ⟨tk0, h00, hp0, _⟩ := main_task hs0
          have hpend : tk.pc.pending = some n := by rw [hpc]; rfl
          have := hw.unique 0 t tk0 tk 0 h00 ht (Or.inl hp0) (Or.inr (by rw [hpend, h0]))
          subst this
          rw [ht] at h00
          cases h00
          apply hw.fresh 0 tk ht
          rw [hpend, hp0, h0]

/-! ## Shape of a complete build -/

/-- C2 (shape correctness).  In a complete build every node has exactly as
many children as its organization has entries in `SubOrganizationIds`; for
every position `j` the `j`-th child is a node of the heap wrapping the
organization fetched for the `j`-th entry; and the children are pairwise
different nodes.  So children and entries correspond one to one, position by
position. -/
theorem children_match_references {c : Ctx} {root : String} {s : State}
    (hs : Reachable c root s) (hc : s.complete = true) (n : Nat) (nd : Node)
    (hn : s.heap[n]? = some nd) :
    nd.Children.length = nd.BusinessOrganization.SubOrganizationIds.length ∧
    (∀ (j : Nat) (v : String), nd.BusinessOrganization.SubOrganizationIds[j]? = some v →
      ∃ (ch : Nat) (cn : Node), nd.Children[j]? = some ch ∧ s.heap[ch]? = some cn ∧
        fetchOrganization c v = .ok cn.BusinessOrganization) ∧
    (∀ (j1 j2 ch : Nat), nd.Children[j1]? = some ch → nd.Children[j2]? = some ch →
      j1 = j2) := by
  have hw := shape_invariant hs
  obtain ⟨t, tk, ht, rfl, he⟩ := complete_node hw hc (lt_of_getElem?_some hn)
  have hp := (hw.progress t tk ht).ended he
  have hu := (unshared hs).once
  rw [orgAt_of_getElem? hn, childrenAt_of_getElem? hn] at hp
  refine ⟨hp.1, ?_, ?_⟩
  · intro j v hv
    obtain ⟨ch, hch, hlt, hf⟩ := hp.2 j v hv
    refine ⟨ch, s.heap[ch], hch, List.getElem?_eq_getElem hlt, ?_⟩
    rw [orgAt_of_getElem? (List.getElem?_eq_getElem hlt)] at hf
    exact hf
  · intro j1 j2 ch h1 h2
    rw [← childrenAt_of_getElem? hn] at h1 h2
    exact (hu tk.p j1 tk.p j2 ch h1 h2).2

/-- The theorem at a complete build of `root -> {A, B}`, `A -> {C}`: the children
of the root wrap `A` and `B`, the child of `A` wraps `C`. -/
theorem children_match_references_witness :
    Reachable shape "root" shapeBuilt ∧ shapeBuilt.complete = true ∧
    (∀ (n : Nat) (nd : Node), shapeBuilt.heap[n]? = some nd →
      nd.Children.length = nd.BusinessOrganization.SubOrganizationIds.length ∧
      (∀ (j : Nat) (v : String), nd.BusinessOrganization.SubOrganizationIds[j]? = some v →
        ∃ (ch : Nat) (cn : Node), nd.Children[j]? = some ch ∧ shapeBuilt.heap[ch]? = some cn ∧
          fetchOrganization shape v = .ok cn.BusinessOrganization) ∧
      (∀ (j1 j2 ch : Nat), nd.Children[j1]? = some ch → nd.Children[j2]? = some ch →
        j1 = j2)) ∧
    (childrenAt shapeBuilt.heap 0).map (fun ch => (orgAt shapeBuilt.heap ch).ID) = ["A", "B"] ∧
    (childrenAt shapeBuilt.heap 1).map (fun ch => (orgAt shapeBuilt.heap ch).ID) = ["C"] :=
  have h : Reachable shape "root" shapeBuilt := exec_reachable shapeSchedule (by decide)
  ⟨h, by decide, fun n nd hn => children_match_references h (by decide) n nd hn,
    by decide, by decide⟩

/-! ## One fetch per node -/

/-- After a failed fetch some goroutine is stuck at the loop head before a
reference it has not handled. -/
theorem exit_stuck {c : Ctx} {root : String} {s : State} (hs : Reachable c root s)
    {code : Nat} (he : s.status = .exited code) :
    ∃ (t : Nat) (tk : Task) (i : Nat) (v : String), s.tasks[t]? = some tk ∧ tk.pc = .loop i ∧
      (orgAt s.heap tk.p).SubOrganizationIds[i]? = some v := by
  induction hs with
  | init h0 =>
    obtain ⟨o, _, rfl⟩ := InitTree_start_ok h0
    cases he
  | @step s s1 t _ hst ih =>
    have hS := step_sound hst
    cases hS with
    | @fetchFail tk pn i v code2 hr ht hp hpc hv hf =>
      exact ⟨t, tk, i, v, ht, hpc, by rw [orgAt_of_getElem? hp]; exact hv⟩
    | fetchOk hr ht hp hpc hv hf => rw [hr] at he; cases he
    | donePanic hr ht hp hpc hv hc => cases he
    | done hr ht hp hpc hv hc => rw [hr] at he; cases he
    | build hr ht hp hpc => rw [hr] at he; cases he
    | lock hr ht hp hpc hm => rw [hr] at he; cases he
    | append hr ht hp hpc => rw [hr] at he; cases he
    | unlock hr ht hp hpc => rw [hr] at he; cases he
    | add hr ht hp hpc => rw [hr] at he; cases he
    | spawn hr ht hp hpc => rw [hr] at he; cases he
    | retPanic hr ht hp hpc hc => cases he
    | ret hr ht hp hpc hc => rw [hr] at he; cases he

/-- In a complete build no fetch has failed. -/
theorem complete_no_failure {c : Ctx} {root : String} {s : State} (hs : Reachable c root s)
    (hc : s.complete = true) : s.failedFetches = 0 := by
  unfold State.failedFetches
  split
  next code he =>
    exfalso
    obtain ⟨t, tk, i, v, ht, hpc, hv⟩ := exit_stuck hs he
    have := complete_task hc ht
    rw [hpc] at this
    simp only [Pc.loopEnded, decide_eq_true_eq] at this
    have := lt_of_getElem?_some hv
    omega
  · rfl

theorem sum_eq_zero_of_forall {α : Type} (f : α → Nat) (l : List α) (h : ∀ x ∈ l, f x = 0) :
    (l.map f).sum = 0 := by
  induction l with
  | nil => rfl
  | cons x xs ih =>
    simp only [List.map_cons, List.sum_cons]
    rw [h x (List.mem_cons_self _ _), ih (fun y hy => h y (List.mem_cons_of_mem _ hy))]

/-- In a complete build no payload waits and nothing is left to do. -/
theorem complete_quiet {c : Ctx} {s : State} (hc : s.complete = true) (d : Nat) :
    s.payloads = 0 ∧ (s.tasks.map (remaining c d (orgAt s.heap))).sum = 0 := by
  unfold State.complete at hc
  rw [List.all_eq_true] at hc
  constructor
  · unfold State.payloads
    rw [List.length_eq_zero, List.filter_eq_nil_iff]
    intro tk hmem hpay
    have := hc tk hmem
    cases hpc : tk.pc <;> rw [hpc] at this hpay <;>
      first
        | exact Bool.noConfusion hpay
        | exact Bool.noConfusion this
  · apply sum_eq_zero_of_forall
    intro tk hmem
    have := hc tk hmem
    unfold remaining
    cases hpc : tk.pc with
    | loop i =>
      rw [hpc] at this
      simp only [Pc.loopEnded, decide_eq_true_eq] at this
      simp only [Pc.unfetched, Pc.pending]
      rw [restTotal_of_le this]
    | fetched i b => rw [hpc] at this; cases this
    | built i n => rw [hpc] at this; cases this
    | locked i n => rw [hpc] at this; cases this
    | appended i n => rw [hpc] at this; cases this
    | unlocked i n => rw [hpc] at this; cases this
    | added i n => rw [hpc] at this; cases this
    | finished => rfl
    | afterCall => rfl
    | returned => rfl

/-- C4 (one fetch per node, no deduplication).  In a complete build over a
reference graph whose paths from the root have at most `d` steps: the number
of fetch calls equals the number of nodes created, which equals the number of
nodes of the resulting tree; the tree is the unfolding of the reference lists,
one node per reference path from the root; and no node is linked twice (every
reference, also a repeated one, has a node of its own), nor is the root
linked below any node. -/
theorem one_fetch_per_node {c : Ctx} {root : String} {d : Nat} {s : State}
    (hs : Reachable c root s) (hc : s.complete = true) (hd : Within c d (orgOf c root)) :
    s.fetches.length = s.heap.length ∧
    s.heap.length = (toTree s.heap d 0).size ∧
    toTree s.heap d 0 = unfold c d (orgOf c root) ∧
    (∀ (p1 j1 p2 j2 n : Nat), (childrenAt s.heap p1)[j1]? = some n →
      (childrenAt s.heap p2)[j2]? = some n → p1 = p2 ∧ j1 = j2) ∧
    (∀ (p j : Nat), (childrenAt s.heap p)[j]? ≠ some 0) := by
  have h1 := fetch_count hs
  have h2 := complete_no_failure hs hc
  obtain ⟨h3, h4⟩ := complete_quiet (c := c) hc d
  have h5 := (potential hs hd).2
  have h6 := complete_tree hs hc d
  have h7 := unshared hs
  refine ⟨by omega, ?_, h6, h7.once, h7.rootFree⟩
  rw [h6, size_unfold]
  omega

/-- The theorem at a complete build of the diamond: five fetches, five nodes,
`D` fetched twice and wrapped by two nodes, one under `A` and one under `B`. -/
theorem one_fetch_per_node_witness :
    Reachable diamond "root" diamondBuilt ∧ diamondBuilt.complete = true ∧
    Within diamond 2 (orgOf diamond "root") ∧
    (diamondBuilt.fetches.length = diamondBuilt.heap.length ∧
      diamondBuilt.heap.length = (toTree diamondBuilt.heap 2 0).size ∧
      toTree diamondBuilt.heap 2 0 = unfold diamond 2 (orgOf diamond "root") ∧
      (∀ (p1 j1 p2 j2 n : Nat), (childrenAt diamondBuilt.heap p1)[j1]? = some n →
        (childrenAt diamondBuilt.heap p2)[j2]? = some n → p1 = p2 ∧ j1 = j2) ∧
      (∀ (p j : Nat), (childrenAt diamondBuilt.heap p)[j]? ≠ some 0)) ∧
    diamondBuilt.fetches = ["root", "A", "D", "B", "D"] ∧
    (orgAt diamondBuilt.heap 2).ID = "D" ∧ (orgAt diamondBuilt.heap 4).ID = "D" ∧
    childrenAt diamondBuilt.heap 1 = [2] ∧ childrenAt diamondBuilt.heap 3 = [4] :=
  have h : Reachable diamond "root" diamondBuilt := exec_reachable diamondSchedule (by decide)
  have hd : Within diamond 2 (orgOf diamond "root") := by decide
  ⟨h, by decide, hd, one_fetch_per_node h (by decide) hd, by decide, by decide, by decide,
    by decide, by decide⟩

/-! ## Finite acyclic reference graphs are the graphs of bounded depth -/

theorem within_of_reach {c : Ctx} {d : Nat} {root x : String}
    (h : Within c d (orgOf c root)) (hx : Reach c root x) : Within c d (orgOf c x) := by
  induction hx with
  | refl => exact h
  | tail _ hedge ih => exact ih.child hedge

theorem within_edge {c : Ctx} {e : Nat} {x y : String} (h : Within c e (orgOf c x))
    (hxy : Edge c x y) : ∃ e1, e1 < e ∧ Within c e1 (orgOf c y) := by
  cases e with
  | zero =>
    unfold Edge at hxy
    rw [show (orgOf c x).SubOrganizationIds = [] from h] at hxy
    cases hxy
  | succ e => exact ⟨e, by omega, h y hxy⟩

theorem within_transGen {c : Ctx} {x y : String} (hxy : Relation.TransGen (Edge c) x y) :
    ∀ e, Within c e (orgOf c x) → ∃ e1, e1 < e ∧ Within c e1 (orgOf c y) := by
  induction hxy with
  | single hedge =>
    intro e h
    exact within_edge h hedge
  | tail _ hedge ih =>
    intro e h
    obtain ⟨e1, h1, hw1⟩ := ih e h
    obtain ⟨e2, h2, hw2⟩ := within_edge hw1 hedge
    exact ⟨e2, by omega, hw2⟩

theorem no_cycle_of_within {c : Ctx} {x : String} :
    ∀ e, Within c e (orgOf c x) → ¬ Relation.TransGen (Edge c) x x := by
  intro e
  induction e using Nat.strong_induction_on with
  | _ e ih =>
    intro h hcyc
    obtain ⟨e1, h1, hw1⟩ := within_transGen hcyc e h
    exact ih e1 h1 hw1 hcyc

theorem finite_reach_of_within {c : Ctx} :
    ∀ (d : Nat) (root : String), Within c d (orgOf c root) →
      Set.Finite {x | Reach c root x} := by
  intro d
  induction d with
  | zero =>
    intro root h
    apply (Set.finite_singleton root).subset
    intro x hx
    rcases Relation.ReflTransGen.cases_head hx with rfl | ⟨v, hv, _⟩
    · rfl
    · unfold Edge at hv
      rw [show (orgOf c root).SubOrganizationIds = [] from h] at hv
      cases hv
  | succ d ih =>
    intro root h
    have hfin : Set.Finite ({root} ∪
        ⋃ v ∈ {v | v ∈ (orgOf c root).SubOrganizationIds}, {x | Reach c v x}) :=
      (Set.finite_singleton root).union
        (Set.Finite.biUnion (List.finite_toSet _) (fun v hv => ih v (h v hv)))
    apply hfin.subset
    intro x hx
    rcases Relation.ReflTransGen.cases_head hx with rfl | ⟨v, hv, hvx⟩
    · exact Or.inl rfl
    · right
      simp only [Set.mem_iUnion, Set.mem_setOf_eq]
      exact ⟨v, hv, hvx⟩

theorem exists_common_bound {c : Ctx} (l : List String)
    (h : ∀ v ∈ l, ∃ d, Within c d (orgOf c v)) : ∃ d, ∀ v ∈ l, Within c d (orgOf c v) := by
  induction l with
  | nil => exact ⟨0, fun v hv => by cases hv⟩
  | cons w ws ih =>
    obtain ⟨d1, h1⟩ := h w (List.mem_cons_self _ _)
    obtain ⟨d2, h2⟩ := ih (fun v hv => h v (List.mem_cons_of_mem _ hv))
    refine ⟨max d1 d2, ?_⟩
    intro v hv
    rcases List.mem_cons.mp hv with rfl | hv
    · exact h1.weaken _ (le_max_left _ _)
    · exact (h2 v hv).weaken _ (le_max_right _ _)

/-- The reference graph reachable from `root` is finite and acyclic exactly
when the reference paths from `root` have bounded length. -/
theorem finiteAcyclic_iff_within {c : Ctx} {root : String} :
    FiniteAcyclic c root ↔ ∃ d, Within c d (orgOf c root) := by
  constructor
  · rintro ⟨hfin, hacyc⟩
    haveI : Finite {x // Reach c root x} := hfin.to_subtype
    let r : {x // Reach c root x} → {x // Reach c root x} → Prop :=
      fun a b => Relation.TransGen (Edge c) b.1 a.1
    haveI : IsTrans {x // Reach c root x} r := ⟨fun a b d hab hbd => hbd.trans hab⟩
    haveI : IsIrrefl {x // Reach c root x} r := ⟨fun a ha => hacyc a.1 a.2 ha⟩
    have wf : WellFounded r := Finite.wellFounded_of_trans_of_irrefl r
    have key : ∀ a : {x // Reach c root x}, ∃ d, Within c d (orgOf c a.1) := by
      intro a
      induction a using wf.induction with
      | _ a ih =>
        have hall : ∀ v ∈ (orgOf c a.1).SubOrganizationIds, ∃ d, Within c d (orgOf c v) :=
          fun v hv => ih ⟨v, Relation.ReflTransGen.tail a.2 hv⟩ (Relation.TransGen.single hv)
        obtain ⟨d, hd⟩ := exists_common_bound _ hall
        exact ⟨d + 1, hd⟩
    exact key ⟨root, Relation.ReflTransGen.refl⟩
  · rintro ⟨d, hd⟩
    exact ⟨finite_reach_of_within d root hd,
      fun x hx => no_cycle_of_within d (within_of_reach hd hx)⟩

/-! ## Bounded depth gives a bounded build -/

/-- When the reference paths from the root have at most `d` steps, a build
creates at most as many nodes and goroutines as the unfolding has nodes, and
performs at most twice as many fetches plus one. -/
theorem bounded_of_within {c : Ctx} {root : String} {d : Nat}
    (hd : Within c d (orgOf c root)) {s : State} (hs : Reachable c root s) :
    s.heap.length ≤ total c d (orgOf c root) ∧ s.tasks.length ≤ total c d (orgOf c root) ∧
    s.fetches.length ≤ 2 * total c d (orgOf c root) + 1 := by
  have h1 := (potential hs hd).2
  have h2 := node_count hs
  have h3 := fetch_count hs
  have h4 : s.payloads ≤ s.tasks.length := List.length_filter_le _ _
  have h5 : s.failedFetches ≤ 1 := by
    unfold State.failedFetches
    split <;> omega
  omega

/-! ## Following a reference path -/

theorem State.extendedBy_refl (s : State) : s.extendedBy s :=
  ⟨le_refl _, fun _ _ => rfl, fun _ _ h => h⟩

theorem State.extendedBy_trans {s s1 s2 : State} (h1 : s.extendedBy s1)
    (h2 : s1.extendedBy s2) : s.extendedBy s2 := by
  obtain ⟨a1, b1, c1⟩ := h1
  obtain ⟨a2, b2, c2⟩ := h2
  refine ⟨by omega, ?_, fun n ch h => c2 n ch (c1 n ch h)⟩
  intro n hn
  rw [b2 n (by omega), b1 n hn]

theorem AtDepth.extend {s s1 : State} (h : s.extendedBy s1) {k n : Nat}
    (hd : AtDepth s.heap k n) : AtDepth s1.heap k n := by
  induction hd with
  | root => exact AtDepth.root
  | child _ hch ih => exact AtDepth.child ih (h.2.2 _ _ hch)

/-- One pass through the loop body: what the state looks like afterwards. -/
theorem one_iteration {c : Ctx} {root : String} {s : State} (hs : Reachable c root s)
    (hr : s.status = .running) {t : Nat} {tk : Task} {pn : Node} {i : Nat} {v : String}
    {b : Bytes} (ht : s.tasks[t]? = some tk) (hp : s.heap[tk.p]? = some pn)
    (hpc : tk.pc = .loop i) (hv : pn.BusinessOrganization.SubOrganizationIds[i]? = some v)
    (hf : getOrganizationMetrics c v = .ok b) :
    ∃ s1, Reachable c root s1 ∧ s1.status = .running ∧
      s1.tasks[t]? = some (Task.mk tk.main tk.p (.loop (i + 1))) ∧
      s1.tasks[s.tasks.length]? = some (Task.mk false s.heap.length (.loop 0)) ∧
      s1.heap.length = s.heap.length + 1 ∧
      orgAt s1.heap s.heap.length = (c.unmarshal b).1 ∧
      s.heap.length ∈ childrenAt s1.heap tk.p ∧
      s.extendedBy s1 ∧
      s1.tasks.length = s.tasks.length + 1 ∧
      (∀ u, u < s.tasks.length → u ≠ t → s1.tasks[u]? = s.tasks[u]?) ∧
      s1.extraDone = s.extraDone := by
  have hm := lock_never_blocks hs ht hp (by rw [hpc]; rfl)
  have hrun := run_iteration hr ht hp hpc hv hf hm
  have hplt : tk.p < s.heap.length := lt_of_getElem?_some hp
  have htlt : t < s.tasks.length := lt_of_getElem?_some ht
  have horg : orgAt (s.afterIteration c t tk pn i v b).heap =
      Function.update (orgAt s.heap) s.heap.length (c.unmarshal b).1 := by
    show orgAt ((s.heap ++ [_]).set tk.p _) = _
    rw [orgAt_set (Node.mk none pn.BusinessOrganization (pn.Children ++ [s.heap.length]))
      (getElem?_append_some _ hp) rfl, orgAt_append]
  have hkids : childrenAt (s.afterIteration c t tk pn i v b).heap =
      Function.update (Function.update (childrenAt s.heap) s.heap.length [])
        tk.p (pn.Children ++ [s.heap.length]) := by
    show childrenAt ((s.heap ++ [_]).set tk.p _) = _
    rw [childrenAt_set _ (getElem?_append_some _ hp), childrenAt_append]
  refine ⟨s.afterIteration c t tk pn i v b, hs.run _ hrun, rfl, ?_, ?_, ?_, ?_, ?_,
    ⟨?_, ?_, ?_⟩, ?_, ?_, ?_⟩
  · exact getElem?_set_same _ (getElem?_append_some _ ht)
  · show ((s.tasks ++ [_]).set t _)[s.tasks.length]? = _
    rw [getElem?_set_other _ (by omega)]
    exact List.getElem?_concat_length _ _
  · show ((s.heap ++ [_]).set tk.p _).length = _
    simp
  · rw [horg, Function.update_same]
  · rw [hkids, Function.update_same]
    simp
  · show s.heap.length ≤ ((s.heap ++ [_]).set tk.p _).length
    simp
  · intro n hn
    rw [horg, Function.update_noteq (by omega)]
  · intro n ch hch
    rw [hkids]
    by_cases hnp : n = tk.p
    · subst hnp
      rw [Function.update_same]
      rw [childrenAt_of_getElem? hp] at hch
      exact List.mem_append_left _ hch
    · rw [Function.update_noteq hnp]
      by_cases hnl : n = s.heap.length
      · subst hnl
        rw [childrenAt_out (le_refl _)] at hch
        cases hch
      · rw [Function.update_noteq hnl]
        exact hch
  · show ((s.tasks ++ [_]).set t _).length = _
    simp
  · intro u hu hut
    show ((s.tasks ++ [_]).set t _)[u]? = _
    rw [getElem?_set_other _ hut, List.getElem?_append_left hu]
  · have e := count_pc_spawn Pc.isReturned (.loop (i + 1))
      (Task.mk false s.heap.length (.loop 0)) ht (x := 0) (y := 0) (z := 0)
      (by rw [hpc]; rfl) rfl rfl
    unfold State.extraDone
    show (((s.tasks ++ [_]).set t _).filter _).length = _
    omega

/-- A goroutine whose fetches succeed can be run through any number of
entries of its reference list. -/
theorem iterate {c : Ctx} {root : String} (t : Nat) (m : Bool) (p : Nat) :
    ∀ (j i : Nat) (s : State), Reachable c root s → s.status = .running →
      s.tasks[t]? = some (Task.mk m p (.loop i)) → p < s.heap.length →
      i + j ≤ (orgAt s.heap p).SubOrganizationIds.length →
      (∀ v ∈ (orgAt s.heap p).SubOrganizationIds, ∃ b, getOrganizationMetrics c v = .ok b) →
      ∃ s1, Reachable c root s1 ∧ s1.status = .running ∧
        s1.tasks[t]? = some (Task.mk m p (.loop (i + j))) ∧ s.extendedBy s1 := by
  intro j
  induction j with
  | zero =>
    intro i s hs hr ht _ _ _
    exact ⟨s, hs, hr, ht, s.extendedBy_refl⟩
  | succ j ih =>
    intro i s hs hr ht hp hlen hok
    have hilt : i < (orgAt s.heap p).SubOrganizationIds.length := by omega
    have hpn : s.heap[p]? = some s.heap[p] := List.getElem?_eq_getElem hp
    have horg : orgAt s.heap p = s.heap[p].BusinessOrganization := orgAt_of_getElem? hpn
    have hv : s.heap[p].BusinessOrganization.SubOrganizationIds[i]? =
        some ((orgAt s.heap p).SubOrganizationIds[i]) := by
      rw [← horg]
      exact List.getElem?_eq_getElem hilt
    obtain ⟨b, hb⟩ := hok _ (List.getElem_mem hilt)
    obtain ⟨s1, hs1, hr1, ht1, _, hl1, _, _, hext, _⟩ :=
      one_iteration hs hr ht hpn rfl hv hb
    have horg1 : orgAt s1.heap p = orgAt s.heap p := hext.2.1 p hp
    have hle := hext.1
    obtain ⟨s2, hs2, hr2, ht2, hext2⟩ := ih (i + 1) s1 hs1 hr1 ht1 (by omega)
      (by rw [horg1]; omega) (by rw [horg1]; exact hok)
    have e : i + 1 + j = i + (j + 1) := by omega
    rw [e] at ht2
    exact ⟨s2, hs2, hr2, ht2, State.extendedBy_trans hext hext2⟩

theorem not_within_cases {c : Ctx} {k : Nat} {o : Organization} (h : ¬ Within c k o) :
    ∃ (j : Nat) (v : String), o.SubOrganizationIds[j]? = some v ∧
      (k = 0 ∨ ∃ k1, k = k1 + 1 ∧ ¬ Within c k1 (orgOf c v)) := by
  cases k with
  | zero =>
    cases hids : o.SubOrganizationIds with
    | nil => exact absurd hids h
    | cons v vs => exact ⟨0, v, by simp, Or.inl rfl⟩
  | succ k =>
    have h2 : ∃ v, v ∈ o.SubOrganizationIds ∧ ¬ Within c k (orgOf c v) := by
      by_contra hcon
      apply h
      intro v hv
      by_contra hw
      exact hcon ⟨v, hv, hw⟩
    obtain ⟨v, hv, hw⟩ := h2
    obtain ⟨j, hj⟩ := List.mem_iff_getElem?.mp hv
    exact ⟨j, v, hj, Or.inr ⟨k, rfl, hw⟩⟩

theorem getOrganizationMetrics_of_fetch {c : Ctx} {v : String} {o : Organization}
    (h : fetchOrganization c v = .ok o) : ∃ b, getOrganizationMetrics c v = .ok b := by
  unfold fetchOrganization at h
  split at h
  · cases h
  next b hb => exact ⟨b, hb⟩

/-- When the fetcher answers and the reference paths below a node whose
expansion has just started exceed `k` steps, some schedule makes the tree
`k + 1` levels deeper below that node, creating at least `k + 1` nodes. -/
theorem descend {c : Ctx} {root : String} (ha : Answers c root) :
    ∀ (k : Nat) (s : State) (t : Nat) (m : Bool) (p : Nat) (x : String) (depth : Nat),
      Reachable c root s → s.status = .running →
      s.tasks[t]? = some (Task.mk m p (.loop 0)) → p < s.heap.length →
      Reach c root x → orgAt s.heap p = orgOf c x → AtDepth s.heap depth p →
      ¬ Within c k (orgOf c x) →
      ∃ (s1 : State) (n : Nat), Reachable c root s1 ∧ AtDepth s1.heap (depth + k + 1) n ∧
        s.heap.length + k + 1 ≤ s1.heap.length := by
  intro k
  induction k with
  | zero =>
    intro s t m p x depth hs hr ht hp hx horg hdep hnw
    obtain ⟨j, v, hv, _⟩ := not_within_cases hnw
    have hok : ∀ w ∈ (orgAt s.heap p).SubOrganizationIds,
        ∃ b, getOrganizationMetrics c w = .ok b := by
      intro w hw
      rw [horg] at hw
      obtain ⟨o, ho⟩ := ha w (Relation.ReflTransGen.tail hx hw)
      exact getOrganizationMetrics_of_fetch ho
    have hjlt : j < (orgAt s.heap p).SubOrganizationIds.length := by
      rw [horg]
      exact lt_of_getElem?_some hv
    obtain ⟨s1, hs1, hr1, ht1, hext⟩ := iterate t m p j 0 s hs hr ht hp (by omega) hok
    rw [Nat.zero_add] at ht1
    have hp1 : p < s1.heap.length := by have := hext.1; omega
    have hpn : s1.heap[p]? = some s1.heap[p] := List.getElem?_eq_getElem hp1
    have horg1 : s1.heap[p].BusinessOrganization = orgOf c x := by
      rw [← orgAt_of_getElem? hpn, hext.2.1 p hp, horg]
    obtain ⟨b, hb⟩ := hok v (by rw [horg]; exact List.getElem?_mem hv)
    obtain ⟨s2, hs2, _, _, _, hl2, _, hmem, hext2, _⟩ :=
      one_iteration hs1 hr1 ht1 hpn rfl (by rw [horg1]; exact hv) hb
    refine ⟨s2, s1.heap.length, hs2,
      AtDepth.child ((hdep.extend hext).extend hext2) hmem, ?_⟩
    have := hext.1
    omega
  | succ k ih =>
    intro s t m p x depth hs hr ht hp hx horg hdep hnw
    obtain ⟨j, v, hv, hcase⟩ := not_within_cases hnw
    have hnv : ¬ Within c k (orgOf c v) := by
      rcases hcase with h | ⟨k1, h1, h2⟩
      · omega
      · have : k1 = k := by omega
        subst this
        exact h2
    have hok : ∀ w ∈ (orgAt s.heap p).SubOrganizationIds,
        ∃ b, getOrganizationMetrics c w = .ok b := by
      intro w hw
      rw [horg] at hw
      obtain ⟨o, ho⟩ := ha w (Relation.ReflTransGen.tail hx hw)
      exact getOrganizationMetrics_of_fetch ho
    have hjlt : j < (orgAt s.heap p).SubOrganizationIds.length := by
      rw [horg]
      exact lt_of_getElem?_some hv
    obtain ⟨s1, hs1, hr1, ht1, hext⟩ := iterate t m p j 0 s hs hr ht hp (by omega) hok
    rw [Nat.zero_add] at ht1
    have hp1 : p < s1.heap.length := by have := hext.1; omega
    have hpn : s1.heap[p]? = some s1.heap[p] := List.getElem?_eq_getElem hp1
    have horg1 : s1.heap[p].BusinessOrganization = orgOf c x := by
      rw [← orgAt_of_getElem? hpn, hext.2.1 p hp, horg]
    have hvmem : v ∈ (orgOf c x).SubOrganizationIds := List.getElem?_mem hv
    obtain ⟨b, hb⟩ := hok v (by rw [horg]; exact hvmem)
    obtain ⟨s2, hs2, hr2, _, hnew, hl2, ho2, hmem, hext2, _⟩ :=
      one_iteration hs1 hr1 ht1 hpn rfl (by rw [horg1]; exact hv) hb
    have hov : orgAt s2.heap s1.heap.length = orgOf c v := by
      rw [ho2, orgOf_of_fetch (fetchOrganization_ok hb)]
    obtain ⟨s3, n, hs3, hdep3, hl3⟩ := ih s2 s1.tasks.length false s1.heap.length v (depth + 1)
      hs2 hr2 hnew (by omega) (Relation.ReflTransGen.tail hx hvmem) hov
      (AtDepth.child ((hdep.extend hext).extend hext2) hmem) hnv
    refine ⟨s3, n, hs3, ?_, ?_⟩
    · have e : depth + (k + 1) + 1 = depth + 1 + k + 1 := by omega
      rw [e]
      exact hdep3
    · have := hext.1
      omega

theorem InitTree_start_of_fetch {c : Ctx} {root : String} {o : Organization}
    (h : fetchOrganization c root = .ok o) :
    InitTree_start c root =
      .ok ⟨[Node.mk none o []], [Task.mk true 0 (.loop 0)], 1, [root], .running⟩ := by
  unfold fetchOrganization at h
  unfold InitTree_start
  split at h
  · cases h
  next b hb =>
    cases h
    rfl

/-- When the fetcher answers and the reference paths from the root are
unbounded, for every `k` some schedule builds a tree more than `k` levels deep
with more than `k` nodes. -/
theorem unbounded_build {c : Ctx} {root : String} (ha : Answers c root)
    (hun : ∀ d, ¬ Within c d (orgOf c root)) (k : Nat) :
    ∃ (s : State) (n : Nat), Reachable c root s ∧ AtDepth s.heap (k + 1) n ∧
      k + 2 ≤ s.heap.length := by
  obtain ⟨o, ho⟩ := ha root Relation.ReflTransGen.refl
  have h0 := Reachable.init (InitTree_start_of_fetch ho)
  obtain ⟨s1, n, hs1, hdep, hlen⟩ := descend ha k _ 0 true 0 root 0 h0 rfl rfl (by simp)
    Relation.ReflTransGen.refl (by rw [orgOf_of_fetch ho]; rfl) AtDepth.root (hun k)
  refine ⟨s1, n, hs1, by rw [Nat.zero_add] at hdep; exact hdep, ?_⟩
  simp only [List.length_singleton] at hlen
  omega

/-- C6 as amended.  With the reference graph taken as the fetcher serves it: a
finite acyclic graph reachable from the root gives a build with boundedly many
fetches and goroutines, whatever the fetcher does; and when the fetcher answers
for every organization reachable from the root, bounded fetches and goroutines
conversely make the graph finite and acyclic, and a reference cycle reachable
from the root gives, for every bound `n`, a state of the build with a node more
than `n` levels below the root node. -/
theorem termination_iff_finite_acyclic (c : Ctx) (root : String) :
    (FiniteAcyclic c root →
      ∃ N, ∀ s, Reachable c root s → s.fetches.length ≤ N ∧ s.tasks.length ≤ N) ∧
    (Answers c root →
      ((∃ N, ∀ s, Reachable c root s → s.fetches.length ≤ N ∧ s.tasks.length ≤ N) ↔
        FiniteAcyclic c root) ∧
      ((∃ x, Reach c root x ∧ Relation.TransGen (Edge c) x x) →
        ∀ n, ∃ (s : State) (k m : Nat), Reachable c root s ∧ n < k ∧ AtDepth s.heap k m)) := by
  have hbound : FiniteAcyclic c root →
      ∃ N, ∀ s, Reachable c root s → s.fetches.length ≤ N ∧ s.tasks.length ≤ N := by
    intro hfa
    obtain ⟨d, hd⟩ := finiteAcyclic_iff_within.mp hfa
    refine ⟨2 * total c d (orgOf c root) + 1, ?_⟩
    intro s hs
    obtain ⟨_, h2, h3⟩ := bounded_of_within hd hs
    exact ⟨h3, by omega⟩
  refine ⟨hbound, fun ha => ⟨⟨?_, hbound⟩, ?_⟩⟩
  · rintro ⟨N, hN⟩
    by_contra hfa
    have hun : ∀ d, ¬ Within c d (orgOf c root) :=
      fun d hd => hfa (finiteAcyclic_iff_within.mpr ⟨d, hd⟩)
    obtain ⟨s, n, hs, _, hlen⟩ := unbounded_build ha hun N
    have h1 := (hN s hs).1
    have h2 := fetch_count hs
    omega
  · rintro ⟨x, hx, hcyc⟩ n
    have hun : ∀ d, ¬ Within c d (orgOf c root) :=
      fun d hd => (finiteAcyclic_iff_within.mpr ⟨d, hd⟩).2 x hx hcyc
    obtain ⟨s, m, hs, hdep, _⟩ := unbounded_build ha hun n
    exact ⟨s, n + 1, m, hs, by omega, hdep⟩

theorem selfLoop_reach {x : String} (h : Reach selfLoop "root" x) : x = "root" := by
  induction h with
  | refl => rfl
  | tail _ hedge ih =>
    subst ih
    have : (orgOf selfLoop "root").SubOrganizationIds = ["root"] := by rfl
    unfold Edge at hedge
    rw [this] at hedge
    simpa using hedge

theorem shape_answers : Answers shape "root" := by
  have closed : ∀ x ∈ ["root", "A", "B", "C"], ∀ y ∈ (orgOf shape x).SubOrganizationIds,
      y ∈ ["root", "A", "B", "C"] := by decide
  have served : ∀ x ∈ ["root", "A", "B", "C"],
      (match fetchOrganization shape x with
        | .ok _ => true
        | .error _ => false) = true := by decide
  have inside : ∀ x, Reach shape "root" x → x ∈ ["root", "A", "B", "C"] := by
    intro x hx
    induction hx with
    | refl => decide
    | tail _ hedge ih => exact closed _ ih _ hedge
  intro x hx
  have h := served x (inside x hx)
  cases hf : fetchOrganization shape x with
  | ok o => exact ⟨o, rfl⟩
  | error e =>
    rw [hf] at h
    cases h

/-- The theorem at two inputs: a self-referencing root, where a cycle is
reachable and the tree gets arbitrarily deep, and the acyclic graph
`root -> {A, B}`, `A -> {C}`, where the build is bounded. -/
theorem termination_iff_finite_acyclic_witness :
    (Answers selfLoop "root" ∧
      (∃ x, Reach selfLoop "root" x ∧ Relation.TransGen (Edge selfLoop) x x) ∧
      ∀ n, ∃ (s : State) (k m : Nat), Reachable selfLoop "root" s ∧ n < k ∧
        AtDepth s.heap k m) ∧
    (Answers shape "root" ∧ FiniteAcyclic shape "root" ∧
      ∃ N, ∀ s, Reachable shape "root" s → s.fetches.length ≤ N ∧ s.tasks.length ≤ N) :=
  have ha : Answers selfLoop "root" := by
    intro x hx
    rw [selfLoop_reach hx]
    exact ⟨Organization.mk "root" "root" ["root"] [], by rfl⟩
  have hedge : Edge selfLoop "root" "root" := by
    have : (orgOf selfLoop "root").SubOrganizationIds = ["root"] := by rfl
    unfold Edge
    rw [this]
    exact List.mem_singleton.mpr rfl
  have hcyc : ∃ x, Reach selfLoop "root" x ∧ Relation.TransGen (Edge selfLoop) x x :=
    ⟨"root", Relation.ReflTransGen.refl, Relation.TransGen.single hedge⟩
  have hfa : FiniteAcyclic shape "root" := finiteAcyclic_iff_within.mpr ⟨2, by decide⟩
  ⟨⟨ha, hcyc, ((termination_iff_finite_acyclic selfLoop "root").2 ha).2 hcyc⟩,
    shape_answers, hfa, (termination_iff_finite_acyclic shape "root").1 hfa⟩

/-- The two states of the build in `cycleBehindFailure`: the start, and the exit
at the fetch of `A`. -/
theorem cycleBehindFailure_states {s : State}
    (hs : Reachable cycleBehindFailure "root" s) :
    s = ⟨[Node.mk none (Organization.mk "root" "root" ["A", "root"] []) []],
        [Task.mk true 0 (.loop 0)], 1, ["root"], .running⟩ ∨
    s = ⟨[Node.mk none (Organization.mk "root" "root" ["A", "root"] []) []],
        [Task.mk true 0 (.loop 0)], 1, ["root", "A"], .exited 1⟩ := by
  induction hs with
  | init h0 =>
    left
    have h : InitTree_start cycleBehindFailure "root" =
        .ok ⟨[Node.mk none (Organization.mk "root" "root" ["A", "root"] []) []],
          [Task.mk true 0 (.loop 0)], 1, ["root"], .running⟩ := by rfl
    rw [h] at h0
    cases h0
    rfl
  | @step s s1 t _ hst ih =>
    rcases ih with h | h
    · subst h
      cases t with
      | zero =>
        have h : step cycleBehindFailure
            ⟨[Node.mk none (Organization.mk "root" "root" ["A", "root"] []) []],
              [Task.mk true 0 (.loop 0)], 1, ["root"], .running⟩ 0 =
            some ⟨[Node.mk none (Organization.mk "root" "root" ["A", "root"] []) []],
              [Task.mk true 0 (.loop 0)], 1, ["root", "A"], .exited 1⟩ := by rfl
        rw [h] at hst
        cases hst
        right
        rfl
      | succ t => simp [step] at hst
    · subst h
      rw [step_dead (by simp) t] at hst
      cases hst

/-- C6 (termination) fails as worded: in `cycleBehindFailure` the root references
`A` and itself, so a reference cycle is reachable from the root and the graph is
not finite and acyclic; but the fetch of `A` answers 500 and terminates the
process, so every run performs two fetches, starts no goroutine and creates no
node below the root. -/
theorem cycle_behind_failed_fetch_terminates :
    (∃ x, Reach cycleBehindFailure "root" x ∧
      Relation.TransGen (Edge cycleBehindFailure) x x) ∧
    ¬ FiniteAcyclic cycleBehindFailure "root" ∧
    (∃ s, exec cycleBehindFailure "root" [0] = some s ∧ s.status = .exited 1 ∧
      s.fetches = ["root", "A"] ∧ ∀ u, step cycleBehindFailure s u = none) ∧
    (∀ s, Reachable cycleBehindFailure "root" s →
      s.fetches.length ≤ 2 ∧ s.tasks.length ≤ 1 ∧ s.heap.length ≤ 1) ∧
    (∀ (s : State) (k m : Nat), Reachable cycleBehindFailure "root" s →
      AtDepth s.heap k m → k = 0) := by
  have hedge : Edge cycleBehindFailure "root" "root" := by
    have : (orgOf cycleBehindFailure "root").SubOrganizationIds = ["A", "root"] := by rfl
    unfold Edge
    rw [this]
    simp
  have hcyc : ∃ x, Reach cycleBehindFailure "root" x ∧
      Relation.TransGen (Edge cycleBehindFailure) x x :=
    ⟨"root", Relation.ReflTransGen.refl, Relation.TransGen.single hedge⟩
  refine ⟨hcyc, ?_, ?_, ?_, ?_⟩
  · intro hfa
    obtain ⟨x, hx, hc⟩ := hcyc
    exact hfa.2 x hx hc
  · refine ⟨⟨[Node.mk none (Organization.mk "root" "root" ["A", "root"] []) []],
      [Task.mk true 0 (.loop 0)], 1, ["root", "A"], .exited 1⟩, by rfl, rfl, rfl, ?_⟩
    intro u
    exact step_dead (by simp) u
  · intro s hs
    rcases cycleBehindFailure_states hs with h | h <;> subst h <;> simp
  · intro s k m hs hdep
    have hno : ∀ n, childrenAt s.heap n = [] := by
      intro n
      rcases cycleBehindFailure_states hs with h | h <;> subst h <;>
        cases n <;> simp [childrenAt]
    cases hdep with
    | root => rfl
    | child _ hch =>
      rw [hno] at hch
      cases hch

/-! ## A complete build exists -/

theorem outstanding_pos {s : State} {t : Nat} {tk : Task} (ht : s.tasks[t]? = some tk)
    (hact : tk.pc.active = true) : 1 ≤ s.outstanding := by
  unfold State.outstanding
  have : tk ∈ s.tasks.filter (fun tk => tk.pc.active) :=
    List.mem_filter.mpr ⟨List.getElem?_mem ht, hact⟩
  exact List.length_pos_of_mem this

/-- As long as line 61 has not run, a goroutine at the end of its loop runs its
deferred `g.Done()` without a panic. -/
theorem done_without_panic {c : Ctx} {root : String} {s : State} (hs : Reachable c root s)
    (hr : s.status = .running) (he : s.extraDone = 0) {t : Nat} {tk : Task} {i : Nat}
    (ht : s.tasks[t]? = some tk) (hpc : tk.pc = .loop i)
    (hend : (orgAt s.heap tk.p).SubOrganizationIds.length ≤ i) :
    ∃ s1, Reachable c root s1 ∧ s1.status = .running ∧ s1.extraDone = 0 ∧
      s1.tasks = s.tasks.set t (Task.mk tk.main tk.p (if tk.main then .afterCall else .finished)) ∧
      s1.heap = s.heap := by
  have hw := shape_invariant hs
  have hplt : tk.p < s.heap.length := hw.bound t tk tk.p ht (Or.inl rfl)
  have hp : s.heap[tk.p]? = some s.heap[tk.p] := List.getElem?_eq_getElem hplt
  have hv : s.heap[tk.p].BusinessOrganization.SubOrganizationIds[i]? = none := by
    rw [← orgAt_of_getElem? hp]
    exact List.getElem?_eq_none hend
  obtain ⟨h0, h1⟩ := counter_value hs hr
  have h2 := outstanding_pos ht (by rw [hpc]; rfl)
  have hc : ¬ s.counter - 1 < 0 := by omega
  have hstep := step_complete (Step.done (c := c) hr ht hp hpc hv hc)
  refine ⟨_, Reachable.step hs hstep, hr, ?_, rfl, rfl⟩
  have e := count_pc_set Pc.isReturned (if tk.main then .afterCall else .finished) ht
    (x := 0) (y := 0) (by rw [hpc]; rfl) (by cases tk.main <;> rfl)
  unfold State.extraDone at he ⊢
  show ((s.tasks.set t _).filter _).length = 0
  omega

/-- When the fetcher answers and the reference paths below a node are bounded,
the goroutine expanding the node can be run to its end together with all the
goroutines it starts, directly or not, without touching any other goroutine
and without a panic, provided line 61 has not run. -/
theorem finish_subtree {c : Ctx} {root : String} (ha : Answers c root) :
    ∀ (k j : Nat) (s : State) (t : Nat) (m : Bool) (p i : Nat) (x : String),
      Reachable c root s → s.status = .running → s.extraDone = 0 →
      s.tasks[t]? = some (Task.mk m p (.loop i)) → Reach c root x →
      orgAt s.heap p = orgOf c x → Within c k (orgOf c x) →
      i + j = (orgOf c x).SubOrganizationIds.length →
      ∃ s1, Reachable c root s1 ∧ s1.status = .running ∧ s1.extraDone = 0 ∧
        s1.tasks[t]? = some (Task.mk m p (if m then .afterCall else .finished)) ∧
        s.tasks.length ≤ s1.tasks.length ∧
        (∀ u, u < s.tasks.length → u ≠ t → s1.tasks[u]? = s.tasks[u]?) ∧
        (∀ (u : Nat) (tk : Task), s.tasks.length ≤ u → s1.tasks[u]? = some tk →
          tk.pc = .finished) ∧
        s.extendedBy s1 := by
  intro k
  induction k with
  | zero =>
    intro j s t m p i x hs hr he ht hx horg hwi hij
    have hnil : (orgOf c x).SubOrganizationIds = [] := hwi
    rw [hnil] at hij
    simp only [List.length_nil] at hij
    obtain ⟨s1, hs1, hr1, he1, htasks, hheap⟩ := done_without_panic hs hr he ht rfl
      (by rw [horg, hnil]; simp)
    refine ⟨s1, hs1, hr1, he1, ?_, ?_, ?_, ?_, ?_⟩
    · rw [htasks]
      exact getElem?_set_same _ ht
    · rw [htasks, List.length_set]
    · intro u _ hut
      rw [htasks, getElem?_set_other _ hut]
    · intro u tk hu hsome
      rw [htasks] at hsome
      have := lt_of_getElem?_some hsome
      rw [List.length_set] at this
      omega
    · rw [State.extendedBy, hheap]
      exact s.extendedBy_refl
  | succ k ihk =>
    intro j
    induction j with
    | zero =>
      intro s t m p i x hs hr he ht hx horg hwi hij
      obtain ⟨s1, hs1, hr1, he1, htasks, hheap⟩ := done_without_panic hs hr he ht rfl
        (by rw [horg]; show _ ≤ i; omega)
      refine ⟨s1, hs1, hr1, he1, ?_, ?_, ?_, ?_, ?_⟩
      · rw [htasks]
        exact getElem?_set_same _ ht
      · rw [htasks, List.length_set]
      · intro u _ hut
        rw [htasks, getElem?_set_other _ hut]
      · intro u tk hu hsome
        rw [htasks] at hsome
        have := lt_of_getElem?_some hsome
        rw [List.length_set] at this
        omega
      · rw [State.extendedBy, hheap]
        exact s.extendedBy_refl
    | succ j ihj =>
      intro s t m p i x hs hr he ht hx horg hwi hij
      have hw := shape_invariant hs
      have hplt : p < s.heap.length := hw.bound t _ p ht (Or.inl rfl)
      have hpn : s.heap[p]? = some s.heap[p] := List.getElem?_eq_getElem hplt
      have horgn : s.heap[p].BusinessOrganization = orgOf c x := by
        rw [← orgAt_of_getElem? hpn, horg]
      have hilt : i < (orgOf c x).SubOrganizationIds.length := by omega
      have hv : (orgOf c x).SubOrganizationIds[i]? = some ((orgOf c x).SubOrganizationIds[i]) :=
        List.getElem?_eq_getElem hilt
      have hvmem := List.getElem?_mem hv
      have hxv : Reach c root ((orgOf c x).SubOrganizationIds[i]) :=
        Relation.ReflTransGen.tail hx hvmem
      obtain ⟨o, ho⟩ := ha _ hxv
      obtain ⟨b, hb⟩ := getOrganizationMetrics_of_fetch ho
      -- the goroutine handles entry `i` and starts the goroutine of the child
      obtain ⟨s1, hs1, hr1, ht1, hnew, hl1, ho1, _, hext1, htl1, hsame1, he1⟩ :=
        one_iteration hs hr ht hpn rfl (by rw [horgn]; exact hv) hb
      have hov : orgAt s1.heap s.heap.length = orgOf c ((orgOf c x).SubOrganizationIds[i]) := by
        rw [ho1, orgOf_of_fetch (fetchOrganization_ok hb)]
      -- the goroutine of the child runs to its end with everything below it
      obtain ⟨s2, hs2, hr2, he2, ht2, htl2, hsame2, hfin2, hext2⟩ :=
        ihk (orgOf c ((orgOf c x).SubOrganizationIds[i])).SubOrganizationIds.length s1
          s.tasks.length false s.heap.length 0 _ hs1 hr1 (by rw [he1]; exact he) hnew hxv hov
          (hwi _ hvmem) (by omega)
      have htlt : t < s.tasks.length := lt_of_getElem?_some ht
      have ht2t : s2.tasks[t]? = some (Task.mk m p (.loop (i + 1))) := by
        rw [hsame2 t (by omega) (by omega)]
        exact ht1
      have horg2 : orgAt s2.heap p = orgOf c x := by
        rw [hext2.2.1 p (by have := hext1.1; omega), hext1.2.1 p hplt, horg]
      -- the goroutine goes on with the next entries
      obtain ⟨s3, hs3, hr3, he3, ht3, htl3, hsame3, hfin3, hext3⟩ :=
        ihj s2 t m p (i + 1) x hs2 hr2 he2 ht2t hx horg2 hwi (by omega)
      refine ⟨s3, hs3, hr3, he3, ht3, by omega, ?_, ?_,
        State.extendedBy_trans hext1 (State.extendedBy_trans hext2 hext3)⟩
      · intro u hu hut
        rw [hsame3 u (by omega) hut, hsame2 u (by omega) (by omega), hsame1 u hu hut]
      · intro u tk hu hsome
        by_cases hu2 : s2.tasks.length ≤ u
        · exact hfin3 u tk hu2 hsome
        · rw [hsame3 u (by omega) (by omega)] at hsome
          by_cases hu1 : u = s.tasks.length
          · subst hu1
            rw [ht2] at hsome
            cases hsome
            rfl
          · exact hfin2 u tk (by omega) hsome

/-- When the fetcher answers and the reference paths from the root are
bounded, some schedule leads to a complete build with the process alive: every
goroutine has ended except the goroutine of `InitTree`, which stands before
line 61. -/
theorem complete_build_exists {c : Ctx} {root : String} (ha : Answers c root) {d : Nat}
    (hd : Within c d (orgOf c root)) :
    ∃ s, Reachable c root s ∧ s.status = .running ∧ s.complete = true ∧
      s.tasks[0]? = some (Task.mk true 0 .afterCall) := by
  obtain ⟨o, ho⟩ := ha root Relation.ReflTransGen.refl
  have h0 := Reachable.init (InitTree_start_of_fetch ho)
  obtain ⟨s1, hs1, hr1, _, ht1, _, _, hfin, hext⟩ :=
    finish_subtree ha d (orgOf c root).SubOrganizationIds.length _ 0 true 0 0 root h0 rfl rfl
      rfl Relation.ReflTransGen.refl (by rw [orgOf_of_fetch ho]; rfl) hd (by omega)
  refine ⟨s1, hs1, hr1, ?_, ht1⟩
  unfold State.complete
  rw [List.all_eq_true]
  intro tk hmem
  obtain ⟨u, hu⟩ := List.mem_iff_getElem?.mp hmem
  cases u with
  | zero =>
    rw [ht1] at hu
    cases hu
    rfl
  | succ u =>
    have := hfin (u + 1) tk (by simp) hu
    rw [this]
    rfl

/-! ## A live process never comes to rest -/

/-- The goroutine of `InitTree` ends `buildOrgTree` before line 61, not as a
started goroutine does. -/
theorem main_not_finished {c : Ctx} {root : String} {s : State} (hs : Reachable c root s) :
    ∀ (t : Nat) (tk : Task), s.tasks[t]? = some tk → tk.main = true → tk.pc ≠ .finished := by
  induction hs with
  | init h0 =>
    obtain ⟨o, _, rfl⟩ := InitTree_start_ok h0
    intro t tk ht _
    cases t with
    | zero =>
      simp only [List.getElem?_cons_zero, Option.some.injEq] at ht
      subst ht
      simp
    | succ t => simp at ht
  | @step s s1 t _ hst ih =>
    have key : ∀ (tk : Task) (pc1 : Pc) (extra : List Task), s.tasks[t]? = some tk →
        (tk.main = true → pc1 ≠ .finished) → (∀ x ∈ extra, x.main = false) →
        ∀ (u : Nat) (x : Task),
          ((s.tasks ++ extra).set t (Task.mk tk.main tk.p pc1))[u]? = some x →
          x.main = true → x.pc ≠ .finished := by
      intro tk pc1 extra ht hpc1 hextra u x hu hm
      rcases getElem?_set_cases hu with ⟨_, rfl⟩ | ⟨_, hu1⟩
      · exact hpc1 hm
      · by_cases hlt : u < s.tasks.length
        · rw [List.getElem?_append_left hlt] at hu1
          exact ih u x hu1 hm
        · rw [List.getElem?_append_right (by omega)] at hu1
          have := hextra x (List.getElem?_mem hu1)
          rw [this] at hm
          cases hm
    have hS := step_sound hst
    cases hS with
    | fetchFail hr ht hp hpc hv hf => exact ih
    | donePanic hr ht hp hpc hv hc => exact ih
    | retPanic hr ht hp hpc hc => exact ih
    | @fetchOk tk pn i v b hr ht hp hpc hv hf =>
      simpa using key tk (.fetched i b) [] ht (by simp) (by simp)
    | @done tk pn i hr ht hp hpc hv hc =>
      have := key tk (if tk.main then .afterCall else .finished) [] ht
        (by intro h; rw [h]; simp) (by simp)
      simpa using this
    | @build tk pn i b hr ht hp hpc =>
      simpa using key tk (.built i s.heap.length) [] ht (by simp) (by simp)
    | @lock tk pn i n hr ht hp hpc hm =>
      simpa using key tk (.locked i n) [] ht (by simp) (by simp)
    | @append tk pn i n hr ht hp hpc =>
      simpa using key tk (.appended i n) [] ht (by simp) (by simp)
    | @unlock tk pn i n hr ht hp hpc =>
      simpa using key tk (.unlocked i n) [] ht (by simp) (by simp)
    | @add tk pn i n hr ht hp hpc =>
      simpa using key tk (.added i n) [] ht (by simp) (by simp)
    | @spawn tk pn i n hr ht hp hpc =>
      exact key tk (.loop (i + 1)) _ ht (by simp) (by simp)
    | @ret tk pn hr ht hp hpc hc =>
      simpa using key tk .returned [] ht (by simp) (by simp)

/-- While the process is alive some goroutine can make a step: the goroutines
of an `InitTree` call never all come to rest in a live process, so every run
that stops has stopped by `os.Exit` or by the panic of the counter. -/
theorem alive_can_move {c : Ctx} {root : String} {s : State} (hs : Reachable c root s)
    (hr : s.status = .running) : ∃ (t : Nat) (s1 : State), step c s t = some s1 := by
  have hw := shape_invariant hs
  by_cases hact : ∃ (t : Nat) (tk : Task), s.tasks[t]? = some tk ∧ tk.pc.active = true
  · obtain ⟨t, tk, ht, ha⟩ := hact
    have hplt : tk.p < s.heap.length := hw.bound t tk tk.p ht (Or.inl rfl)
    have hp : s.heap[tk.p]? = some s.heap[tk.p] := List.getElem?_eq_getElem hplt
    cases hpc : tk.pc with
    | loop i =>
      cases hv : s.heap[tk.p].BusinessOrganization.SubOrganizationIds[i]? with
      | none =>
        by_cases hc : s.counter - 1 < 0
        · exact ⟨t, _, step_complete (Step.donePanic hr ht hp hpc hv hc)⟩
        · exact ⟨t, _, step_complete (Step.done hr ht hp hpc hv hc)⟩
      | some v =>
        cases hf : getOrganizationMetrics c v with
        | error code => exact ⟨t, _, step_complete (Step.fetchFail hr ht hp hpc hv hf)⟩
        | ok b => exact ⟨t, _, step_complete (Step.fetchOk hr ht hp hpc hv hf)⟩
    | fetched i b => exact ⟨t, _, step_complete (Step.build hr ht hp hpc)⟩
    | built i n =>
      have hm := lock_never_blocks hs ht hp (by rw [hpc]; rfl)
      exact ⟨t, _, step_complete (Step.lock hr ht hp hpc hm)⟩
    | locked i n => exact ⟨t, _, step_complete (Step.append hr ht hp hpc)⟩
    | appended i n => exact ⟨t, _, step_complete (Step.unlock hr ht hp hpc)⟩
    | unlocked i n => exact ⟨t, _, step_complete (Step.add hr ht hp hpc)⟩
    | added i n => exact ⟨t, _, step_complete (Step.spawn hr ht hp hpc)⟩
    | finished => rw [hpc] at ha; cases ha
    | afterCall => rw [hpc] at ha; cases ha
    | returned => rw [hpc] at ha; cases ha
  · obtain ⟨tk0, h0, hp0, hm0⟩ := main_task hs
    have hplt : tk0.p < s.heap.length := hw.bound 0 tk0 tk0.p h0 (Or.inl rfl)
    have hp : s.heap[tk0.p]? = some s.heap[tk0.p] := List.getElem?_eq_getElem hplt
    have hna : tk0.pc.active = false := by
      cases h : tk0.pc.active with
      | false => rfl
      | true => exact absurd ⟨0, tk0, h0, h⟩ hact
    cases hpc : tk0.pc with
    | loop i => rw [hpc] at hna; cases hna
    | fetched i b => rw [hpc] at hna; cases hna
    | built i n => rw [hpc] at hna; cases hna
    | locked i n => rw [hpc] at hna; cases hna
    | appended i n => rw [hpc] at hna; cases hna
    | unlocked i n => rw [hpc] at hna; cases hna
    | added i n => rw [hpc] at hna; cases hna
    | finished => exact absurd hpc (main_not_finished hs 0 tk0 h0 hm0)
    | afterCall =>
      by_cases hc : s.counter - 1 < 0
      · exact ⟨0, _, step_complete (Step.retPanic hr h0 hp hpc hc)⟩
      · exact ⟨0, _, step_complete (Step.ret hr h0 hp hpc hc)⟩
    | returned =>
      exfalso
      have hret : s.mainReturned = true := by
        unfold State.mainReturned
        rw [List.any_eq_true]
        exact ⟨tk0, List.getElem?_mem h0, by rw [hpc]; rfl⟩
      have h1 := returned_leaves_task_outstanding hs hr hret
      have h2 : s.outstanding = 0 := by
        unfold State.outstanding
        rw [List.length_eq_zero, List.filter_eq_nil_iff]
        intro tk hmem hk
        obtain ⟨u, hu⟩ := List.mem_iff_getElem?.mp hmem
        exact hact ⟨u, tk, hu, hk⟩
      omega

end Chorgtree
